import Mathlib

/-!
TC05MMAPipeline: a shallow embedding.

Embedding of `lib/Dialect/TritonGPU/Transforms/Pipeliner/TC05MMAPipeline.cpp`.

Two layers are used.

* The *arithmetic layer* gives the meaning of the index arithmetic that the
  rewriter emits into the loop body (`arith.addi`, `arith.cmpi eq`,
  `arith.select`, `arith.xori` on `i32`), as functions on `Nat` taken
  modulo `2 ^ 32`.
* The *structural layer* models the operation graph (operations, values,
  a loop with carried values) and the analysis / rewrite functions of the
  file as functions on that graph.
-/

namespace TC05MMA

/-! ## Arithmetic layer: `i32` operations emitted by the rewriter -/

/-- Value of an `arith.constant` of type `i32` built from a non-negative `int`. -/
def constI32 (n : Nat) : Nat := n % 2 ^ 32

/-- The operation `arith.addi` on `i32`. -/
def addi (a b : Nat) : Nat := (a + b) % 2 ^ 32

/-- The operation `arith.cmpi eq`. -/
def cmpiEq (a b : Nat) : Bool := a == b

/-- The operation `arith.select`. -/
def arithSelect (c : Bool) (t f : Nat) : Nat := if c then t else f

/-- The operation `arith.xori`. -/
def xori (a b : Nat) : Nat := a ^^^ b

/-- What the operations emitted by `createBarrierAndWaitOps` (lines 560-593)
compute when they are executed: the barrier slot and phase used by the wait
placed after the MMA (the values carried into the iteration), and the new
barrier index and phase. Whether the new values reach the next iteration is a
matter of the terminator, which `replaceAllUsesDominatedBy` rewrites only when
the new operations dominate it. -/
structure BarrierIteration where
  waitSlot : Nat
  waitPhase : Nat
  newBarrierIdx : Nat
  newPhase : Nat
  deriving DecidableEq, Repr

/-- Meaning of the operations emitted by `createBarrierAndWaitOps`. -/
def createBarrierAndWaitOpsSem (numStages barrierIdx phase : Nat) : BarrierIteration :=
  let zeroVal := constI32 0
  let one := constI32 1
  let numStagesVal := constI32 numStages
  -- the barrier slice and the wait use the carried values
  let waitSlot := barrierIdx
  let waitPhase := phase
  let newBarrierIdx := addi barrierIdx one
  let barWrap := cmpiEq newBarrierIdx numStagesVal
  let newBarrierIdx := arithSelect barWrap zeroVal newBarrierIdx
  let newPhase := arithSelect barWrap (xori phase one) phase
  { waitSlot := waitSlot, waitPhase := waitPhase,
    newBarrierIdx := newBarrierIdx, newPhase := newPhase }

/-- Meaning of the index update emitted by `updateAccDefsInLoop` (lines
426-454) for one index: `condition` is `none` when the override point has no
condition, and otherwise the run-time value of the condition. -/
def nextAccIdx (numStages : Nat) (condition : Option Bool) (idx : Nat) : Nat :=
  let numStagesVal := constI32 numStages
  let newIdx := addi idx (constI32 1)
  let wrap := cmpiEq newIdx numStagesVal
  let newIdx := arithSelect wrap (constI32 0) newIdx
  match condition with
  | some c => arithSelect c newIdx idx
  | none => newIdx

/-- Meaning of the operations emitted by `updateAccDefsInLoop`: the new
`(accInsertIdx, accExtractIdx)` from the old pair; both updates read the same
condition value. -/
def updateAccDefsInLoopSem (numStages : Nat) (condition : Option Bool)
    (accInsertIdx accExtractIdx : Nat) : Nat × Nat :=
  (nextAccIdx numStages condition accInsertIdx,
   nextAccIdx numStages condition accExtractIdx)

/-- The loop-carried pair `(accInsertIdx, accExtractIdx)` at the start of
iteration `k` of a multi-buffered accumulator. `conds` is `none` when the
override point is unconditional and otherwise gives the value of the override
condition in every iteration. Both indices start at the constant zero (lines
693-694). -/
def accIdxState (numStages : Nat) (conds : Option (Nat → Bool)) : Nat → Nat × Nat
  | 0 => (constI32 0, constI32 0)
  | k + 1 =>
    let s := accIdxState numStages conds k
    updateAccDefsInLoopSem numStages (conds.map fun c => c k) s.1 s.2

/-! ## Structural layer: the operation graph -/

/-- SSA values. Block arguments of the loop body are numbered as in MLIR:
argument 0 is the induction variable and argument `k + 1` is the carried value
of slot `k` (`getRegionIterArg k`). Results of the loop operation itself are
`opResult loopId k`. -/
inductive Value where
  | opResult (op : Nat) (idx : Nat)
  | loopArg (argNo : Nat)
  | foreignArg (block : Nat) (argNo : Nat)
  deriving DecidableEq, Repr

/-- The kinds of operation the pass distinguishes. -/
inductive OpKind where
  | tmemAlloc | tmemLoad | tmemStore
  | tcGen5MMA | tcGen5MMAScaled
  | select | constant | constantInt (value : Int) (width : Nat)
  | addi | xori | cmpiEq
  | yield | ifOp | forOp
  | memDescSubview | localAlloc | localDealloc
  | initBarrier (count : Nat) | invalBarrier | waitBarrier
  | asyncCopyGlobalToLocal | asyncTMACopyGlobalToLocal | asyncTMAGather
  | asyncTMACopyLocalToGlobal | asyncTMAScatter
  | other
  deriving DecidableEq, Repr

/-- One operation. `parent` is `none` for an operation that sits directly in
the block that holds it (the loop body, or the block around the loop) and
`some (p, r)` for an operation nested in region `r` of operation `p`.
`stage` is the `triton.pipeline_stage` attribute and `shape` the shape of a
memory-descriptor result. -/
structure Op where
  id : Nat
  kind : OpKind
  operands : List Value
  parent : Option (Nat × Nat) := none
  stage : Option Int := none
  shape : List Nat := []
  deriving DecidableEq, Repr

/-- The loop `scf.for` with the operations around it. `body` lists the
operations inside the loop in pre-order (an operation is followed by the
operations nested in it), the terminator left out; `yieldOperands` are the
operands of the terminator. `pipeline` is the unit attribute
`triton.pipeline`. -/
structure ForLoop where
  id : Nat
  before : List Op
  initArgs : List Value
  body : List Op
  yieldOperands : List Value
  after : List Op
  nextId : Nat
  pipeline : Bool := false
  deriving DecidableEq, Repr

/-- Failed assertions of the source (and the two ways the model itself can
stop: an operand index that does not exist, and an exhausted step budget). -/
inductive Err where
  | unexpectedUse
  | notLoopBodyArg
  | operandOutOfRange
  | expectedUnconditionalOverride
  | expectedAllocAndLoad
  | chainIndexMismatch
  | noCommonDominator
  | missingAccDef
  | expectedSelect
  | eraseWithUses
  | extractIdxNotBlockArg
  | noShmemAlloc
  | duplicateBarrierWait
  | outOfFuel
  deriving DecidableEq, Repr

def findIn (ops : List Op) (id : Nat) : Option Op :=
  ops.find? fun o => o.id == id

/-- The operation `id` when it lies inside the loop. -/
def ForLoop.bodyOp? (l : ForLoop) (id : Nat) : Option Op :=
  findIn l.body id

/-- The operation `id`, wherever it lies. -/
def ForLoop.anyOp? (l : ForLoop) (id : Nat) : Option Op :=
  match findIn l.body id with
  | some o => some o
  | none =>
    match findIn l.before id with
    | some o => some o
    | none => findIn l.after id

/-- Kind of the operation `id`; the loop itself is an `scf.for`, and an
operation the model does not list is some other operation outside the loop. -/
def ForLoop.kindOf (l : ForLoop) (id : Nat) : OpKind :=
  if id = l.id then .forOp
  else match l.anyOp? id with
    | some o => o.kind
    | none => .other

/-- The method `forOp->isAncestor(op)`. -/
def ForLoop.isAncestor (l : ForLoop) (id : Nat) : Bool :=
  id == l.id || (l.bodyOp? id).isSome

/-- Shape of the memory descriptor `v`. -/
def ForLoop.shapeOf (l : ForLoop) (v : Value) : List Nat :=
  match v with
  | .opResult id _ =>
    match l.anyOp? id with
    | some o => o.shape
    | none => []
  | _ => []

def Value.isBlockArgument : Value → Bool
  | .loopArg _ => true
  | .foreignArg _ _ => true
  | .opResult _ _ => false

/-- The test `v.getDefiningOp<arith::ConstantOp>() != nullptr`. -/
def ForLoop.isConstant (l : ForLoop) (v : Value) : Bool :=
  match v with
  | .opResult id _ =>
    match l.kindOf id with
    | .constant => true
    | .constantInt _ _ => true
    | _ => false
  | _ => false

/-- Owner of a use: an operation, or the terminator of the loop body. -/
inductive Owner where
  | op (o : Op)
  | terminator
  deriving DecidableEq, Repr

structure Use where
  owner : Owner
  operandNumber : Nat
  deriving DecidableEq, Repr

/-- Operand positions of `v` in an operand list. -/
def operandPositions (v : Value) (operands : List Value) : List Nat :=
  (operands.enum.filter fun p => p.2 == v).map fun p => p.1

def usesIn (ops : List Op) (v : Value) : List Use :=
  ops.flatMap fun o => (operandPositions v o.operands).map fun i => ⟨.op o, i⟩

/-- The uses of `v`, in program order: the operations before the loop, the
loop body, the terminator, the operations after the loop. -/
def ForLoop.usesOf (l : ForLoop) (v : Value) : List Use :=
  usesIn l.before v ++ usesIn l.body v
    ++ (operandPositions v l.yieldOperands).map (fun i => ⟨.terminator, i⟩)
    ++ usesIn l.after v

/-- Is the owner an `scf.yield`? -/
def Owner.isYield : Owner → Bool
  | .terminator => true
  | .op o => o.kind == .yield

def Owner.isSelect : Owner → Bool
  | .terminator => false
  | .op o => o.kind == .select

/-! ### Builder -/

/-- Insertion point of the rewriter: right before, or right after, the
operation `ref`; right before the loop; or behind the loop, behind the `k`
operations made since the insertion point was set there. -/
inductive InsertPt where
  | before (ref : Nat)
  | after (ref : Nat)
  | beforeLoop
  | afterLoop (k : Nat)
  deriving DecidableEq, Repr

def insertBefore (ref : Nat) (new : Op) : List Op → List Op
  | [] => []
  | o :: os =>
    if o.id = ref then { new with parent := o.parent } :: o :: os
    else o :: insertBefore ref new os

/-- Skips the operations nested in the operations `sub` and inserts `new`
behind them. -/
def insertBehindNested (new : Op) : List Nat → List Op → List Op
  | _, [] => [new]
  | sub, o :: os =>
    match o.parent with
    | some (p, _) =>
      if p ∈ sub then o :: insertBehindNested new (o.id :: sub) os
      else new :: o :: os
    | none => new :: o :: os

def insertAfter (ref : Nat) (new : Op) : List Op → List Op
  | [] => []
  | o :: os =>
    if o.id = ref then o :: insertBehindNested { new with parent := o.parent } [ref] os
    else o :: insertAfter ref new os

def hasOp (ops : List Op) (id : Nat) : Bool :=
  ops.any fun o => o.id == id

/-- Puts `new` at the insertion point. -/
def ForLoop.insertAt (l : ForLoop) (ip : InsertPt) (new : Op) : ForLoop :=
  match ip with
  | .beforeLoop => { l with before := l.before ++ [new] }
  | .afterLoop k => { l with after := l.after.take k ++ new :: l.after.drop k }
  | .before ref =>
    if ref = l.id then { l with before := l.before ++ [new] }
    else if hasOp l.body ref then { l with body := insertBefore ref new l.body }
    else if hasOp l.before ref then { l with before := insertBefore ref new l.before }
    else { l with after := insertBefore ref new l.after }
  | .after ref =>
    if ref = l.id then { l with after := new :: l.after }
    else if hasOp l.body ref then { l with body := insertAfter ref new l.body }
    else if hasOp l.before ref then { l with before := insertAfter ref new l.before }
    else { l with after := insertAfter ref new l.after }

/-- The rewriter: the operation graph and the current insertion point. -/
structure Builder where
  loop : ForLoop
  ip : InsertPt
  deriving DecidableEq, Repr

/-- A new operation, without parent and stage annotation. -/
def newOp (id : Nat) (kind : OpKind) (operands : List Value) (shape : List Nat) : Op :=
  { id := id, kind := kind, operands := operands, shape := shape }

/-- Result of the operation the next `create` makes. -/
def Builder.nextValue (b : Builder) : Value := .opResult b.loop.nextId 0

/-- The call `builder.create<...>(...)`: a new operation at the insertion
point; the insertion point then lies behind the new operation. -/
def Builder.create (b : Builder) (kind : OpKind) (operands : List Value)
    (shape : List Nat := []) : Builder :=
  let new : Op := newOp b.loop.nextId kind operands shape
  let l := b.loop.insertAt b.ip new
  { loop := { l with nextId := l.nextId + 1 },
    ip := match b.ip with
      | .before ref => .before ref
      | .after _ => .after new.id
      | .beforeLoop => .beforeLoop
      | .afterLoop k => .afterLoop (k + 1) }

/-- Result of the operation made last. -/
def Builder.lastValue (b : Builder) : Value := .opResult (b.loop.nextId - 1) 0

def mapOp (id : Nat) (f : Op → Op) (ops : List Op) : List Op :=
  ops.map fun o => if o.id = id then f o else o

/-- Applies `f` to the operation `id`. -/
def ForLoop.updateOp (l : ForLoop) (id : Nat) (f : Op → Op) : ForLoop :=
  { l with before := mapOp id f l.before, body := mapOp id f l.body,
           after := mapOp id f l.after }

/-- The function `annotateWithPipelineStage` (lines 33-36). -/
def annotateWithPipelineStage (l : ForLoop) (op : Nat) (stage : Int) : ForLoop :=
  l.updateOp op fun o => { o with stage := some stage }

def replaceValue (old new : Value) (vs : List Value) : List Value :=
  vs.map fun v => if v = old then new else v

/-- The method `op->replaceUsesOfWith(from, to)`. -/
def ForLoop.replaceUsesOfWith (l : ForLoop) (op : Nat) (old new : Value) : ForLoop :=
  l.updateOp op fun o => { o with operands := replaceValue old new o.operands }

/-- The method `op->setOperand(i, v)`; an absent operand position is filled. -/
def setOperand (i : Nat) (v : Value) (operands : List Value) : List Value :=
  if i < operands.length then operands.set i v else operands ++ [v]

/-! ### Analysis: accumulator chain and override point -/

/-- The override point `MMAInfo::AccOverridePoint` (lines 39-44). -/
structure AccOverridePoint where
  op : Nat
  condition : Option Value := none
  initValue : Option Value := none
  distance : Nat := 0
  deriving DecidableEq, Repr

/-- The record `MMAInfo` (lines 38-59). -/
structure MMAInfo where
  accAlloc : Op
  accLoad : Op
  accDef : Option AccOverridePoint
  yieldArgNo : Option Nat
  accIsMultiBuffered : Bool
  phase : Value
  barrierIdx : Value
  accInsertIdx : Value
  accExtractIdx : Value
  barrierAlloc : Option Value := none
  deriving DecidableEq, Repr

/-- The function `getTMemAllocAndLoad` (lines 64-78). The users of an
operation inside the loop lie inside the loop. -/
def getTMemAllocAndLoad (l : ForLoop) (mmaOp : Nat) : Option (Op × Op) :=
  match l.bodyOp? mmaOp with
  | none => none
  | some mma =>
    match (mma.operands[2]? : Option Value) with
    | some (.opResult a _) =>
      match l.bodyOp? a with
      | some acc =>
        if acc.kind = .tmemAlloc ∧ acc.parent = mma.parent then
          let loads := (usesIn l.body (.opResult acc.id 0)).filterMap fun u =>
            match u.owner with
            | .op o => if o.kind = .tmemLoad ∧ o.parent = mma.parent then some o else none
            | .terminator => none
          match loads with
          | load :: _ => some (acc, load)
          | [] => none
        else none
      | none => none
    | _ => none

/-- Entry of the work list of `trackAccChain` (lines 88-92). -/
structure UseInfo where
  value : Value
  yieldArgNo : Option Nat := none
  divergentUse : Bool := false
  deriving DecidableEq, Repr

/-- State of `trackAccChain`: the work list (its head is the back of the
`SmallVector`), the result `yieldArgNo` and the flag `hasDivergentUses`. -/
structure ChainState where
  queue : List UseInfo
  yieldArgNo : Option Nat
  hasDivergentUses : Bool
  deriving DecidableEq, Repr

/-- Body of the loop over the uses in `trackAccChain` (lines 98-120). -/
def trackAccChainUse (l : ForLoop) (accAlloc : Op) (info : UseInfo)
    (st : ChainState) (use : Use) : Except Err ChainState :=
  match use.owner with
  | .terminator =>
    -- a yield whose parent is the loop
    .ok { st with queue := ⟨.loopArg (use.operandNumber + 1), some use.operandNumber, true⟩
                            :: st.queue }
  | .op o =>
    if o.kind = .yield then
      match o.parent with
      | some (p, _) =>
        if l.kindOf p = .ifOp then
          .ok { st with queue := ⟨.opResult p use.operandNumber, info.yieldArgNo, true⟩
                                  :: st.queue }
        else .error .unexpectedUse
      | none => .error .unexpectedUse
    else if o.kind = .select then
      .ok { st with queue := ⟨.opResult o.id 0, info.yieldArgNo, true⟩ :: st.queue }
    else if o.id = accAlloc.id then
      .ok { st with yieldArgNo := info.yieldArgNo }
    else
      .ok { st with hasDivergentUses := info.divergentUse }

/-- The loop `while (!queue.empty())` of `trackAccChain` (lines 96-121), run
for at most `fuel` work-list entries. -/
def trackAccChainLoop (l : ForLoop) (accAlloc : Op) : Nat → ChainState → Except Err ChainState
  | 0, st => if st.queue.isEmpty then .ok st else .error .outOfFuel
  | fuel + 1, st =>
    match st.queue with
    | [] => .ok st
    | info :: rest =>
      match (l.usesOf info.value).foldlM (trackAccChainUse l accAlloc info)
          { st with queue := rest } with
      | .ok st' => trackAccChainLoop l accAlloc fuel st'
      | .error e => .error e

/-- The function `trackAccChain` (lines 84-123): the result and the flag
`hasDivergentUses`. -/
def trackAccChain (l : ForLoop) (accDef accAlloc : Op) (fuel : Nat) :
    Except Err (Option Nat × Bool) :=
  match trackAccChainLoop l accAlloc fuel
      { queue := [⟨.opResult accDef.id 0, none, false⟩], yieldArgNo := none,
        hasDivergentUses := false } with
  | .ok st => .ok (st.yieldArgNo, st.hasDivergentUses)
  | .error e => .error e

/-- The function `getDirectAccUses` (lines 125-133). -/
def getDirectAccUses (l : ForLoop) (accDef : Op) : List Op :=
  (l.usesOf (.opResult accDef.id 0)).filterMap fun u =>
    match u.owner with
    | .op o => if o.kind ≠ .select ∧ o.kind ≠ .yield then some o else none
    | .terminator => none

/-- The backward walk over carried values (lines 147-155 and 206-214): from a
block argument of the loop body to the terminator operand of the same slot.
The result is `none` when a block argument is met twice and otherwise the
value reached with the number of hops. -/
def walkCarried (l : ForLoop) : Nat → List Value → Value → Nat →
    Except Err (Option (Value × Nat))
  | 0, seen, v, dist =>
    match v with
    | .opResult _ _ => .ok (some (v, dist))
    | .foreignArg _ _ => if v ∈ seen then .ok none else .error .notLoopBodyArg
    | .loopArg _ => if v ∈ seen then .ok none else .error .outOfFuel
  | fuel + 1, seen, v, dist =>
    match v with
    | .opResult _ _ => .ok (some (v, dist))
    | .foreignArg _ _ => if v ∈ seen then .ok none else .error .notLoopBodyArg
    | .loopArg argNo =>
      if v ∈ seen then .ok none
      else
        match argNo with
        | 0 => .error .operandOutOfRange
        | k + 1 =>
          match l.yieldOperands[k]? with
          | none => .error .operandOutOfRange
          | some v' => walkCarried l fuel (v :: seen) v' (dist + 1)

/-- The negation of a condition as the detectors build it (lines 183-187 and
220-227): the constant `true` and `arith.xori` of the condition with it, at
the insertion point. The result is the graph and the negated condition. -/
def negate (l : ForLoop) (ip : InsertPt) (condition : Value) : ForLoop × Value :=
  let b : Builder := { loop := l, ip := ip }
  let b := b.create (.constantInt 1 1) []
  let vTrue := b.lastValue
  let b := b.create .xori [condition, vTrue]
  (b.loop, b.lastValue)

/-- The function `getAccOverridePointInLoop` (lines 135-199). It returns the
operation graph as well, since it creates two operations when the constant
is on the false side of the select. -/
def getAccOverridePointInLoop (l : ForLoop) (accUse accDef : Op) :
    Except Err (ForLoop × Option AccOverridePoint) :=
  match accUse.operands.head? with
  | none =>
    -- uninitialized accumulator means unused accumulator
    .ok (l, some { op := accUse.id })
  | some src =>
    match walkCarried l (l.yieldOperands.length + 1) [] src 0 with
    | .error e => .error e
    | .ok none => .ok (l, none)
    | .ok (some (v, dist)) =>
      match v with
      | .opResult d _ =>
        if l.kindOf d = .select then
          match l.anyOp? d with
          | some selectOp =>
            match selectOp.operands with
            | [cond, trueValue, falseValue] =>
              let trueIsConst := l.isConstant trueValue
              let falseIsConst := l.isConstant falseValue
              if trueIsConst && falseIsConst then
                .ok (l, some { op := d, initValue := some v, distance := dist })
              else if trueIsConst then
                .ok (l, some { op := d, condition := some cond, initValue := some trueValue,
                               distance := dist })
              else if falseIsConst then
                let r := negate l (.before d) cond
                .ok (r.1, some { op := d, condition := some r.2,
                                 initValue := some falseValue, distance := dist })
              else .ok (l, none)
            | _ => .error .operandOutOfRange
          | none => .error .operandOutOfRange
        else if d ≠ accDef.id then
          if l.kindOf d = .ifOp then .error .expectedUnconditionalOverride
          else .ok (l, some { op := d, initValue := some v, distance := dist })
        else .ok (l, none)
      | _ => .ok (l, none)

/-- The function `getAccUseFlagFalseInLoop` (lines 201-230). -/
def getAccUseFlagFalseInLoop (l : ForLoop) (useAccFlagUse : Value) :
    Except Err (ForLoop × Option AccOverridePoint) :=
  match walkCarried l (l.yieldOperands.length + 1) [] useAccFlagUse 0 with
  | .error e => .error e
  | .ok none => .ok (l, none)
  | .ok (some (v, dist)) =>
    match v with
    | .opResult d _ =>
      if l.isAncestor d then
        let r := negate l (.after d) v
        .ok (r.1, some { op := d, condition := some r.2, distance := dist })
      else .ok (l, none)
    | _ => .ok (l, none)

/-- Operand position of `useD`: operand 3 of `TCGen5MMAOp` (a, b, d, useD,
pred, barrier) and operand 5 of `TCGen5MMAScaledOp` (a, b, d, a_scale,
b_scale, useD, pred, barrier). -/
def useDOperand : OpKind → Option Nat
  | .tcGen5MMA => some 3
  | .tcGen5MMAScaled => some 5
  | _ => none

/-- Operand position of the optional barrier of an MMA. -/
def barrierOperand : OpKind → Option Nat
  | .tcGen5MMA => some 5
  | .tcGen5MMAScaled => some 7
  | _ => none

/-- The function `getAccOverrideOrFlagFalseInLoop` (lines 232-250). -/
def getAccOverrideOrFlagFalseInLoop (l : ForLoop) (mmaOp : Nat) :
    Except Err (ForLoop × Option AccOverridePoint) :=
  match getTMemAllocAndLoad l mmaOp with
  | none => .error .expectedAllocAndLoad
  | some (accAlloc, accLoad) =>
    match getAccOverridePointInLoop l accAlloc accLoad with
    | .error e => .error e
    | .ok (l', some p) => .ok (l', some p)
    | .ok (l', none) =>
      match l'.bodyOp? mmaOp with
      | none => .ok (l', none)
      | some mma =>
        match useDOperand mma.kind with
        | none => .ok (l', none)
        | some i =>
          match mma.operands[i]? with
          | none => .error .operandOutOfRange
          | some useAccFlag => getAccUseFlagFalseInLoop l' useAccFlag

/-! ### Dominance -/

/-- The operation `o`, or the operation around it, that lies in block `blk`
(the method `findAncestorOpInBlock`). -/
def ancestorInBlock (ops : List Op) (blk : Option (Nat × Nat)) : Nat → Op → Option Op
  | 0, o => if o.parent = blk then some o else none
  | fuel + 1, o =>
    if o.parent = blk then some o
    else
      match o.parent with
      | some (p, _) =>
        match findIn ops p with
        | some po => ancestorInBlock ops blk fuel po
        | none => none
      | none => none

def indexOfOp (ops : List Op) (id : Nat) : Nat :=
  ops.findIdx fun o => o.id == id

/-- The query `DominanceInfo::properlyDominates(domOp, owner)` for an
operation `domOp` of the loop body: `domOp` lies before the owner, or before
the operation around the owner, in the block of `domOp`, or `domOp` itself
encloses the owner. -/
def properlyDominates (l : ForLoop) (domOp : Nat) (owner : Owner) : Bool :=
  match l.bodyOp? domOp with
  | none => false
  | some d =>
    match owner with
    | .terminator => d.parent == none
    | .op o =>
      o.id != domOp && (l.bodyOp? o.id).isSome &&
      match ancestorInBlock l.body d.parent l.body.length o with
      | some a => a.id == domOp || indexOfOp l.body domOp < indexOfOp l.body a.id
      | none => false

/-- The function `replaceAllUsesDominatedBy` (lines 25-31). -/
def replaceAllUsesDominatedBy (l : ForLoop) (domOp : Nat) (newValue oldValue : Value) :
    ForLoop :=
  { l with
    body := l.body.map fun o =>
      if properlyDominates l domOp (.op o) then
        { o with operands := replaceValue oldValue newValue o.operands }
      else o
    yieldOperands :=
      if properlyDominates l domOp .terminator then
        replaceValue oldValue newValue l.yieldOperands
      else l.yieldOperands }

/-- The blocks around a block, innermost first. -/
def blockChain (ops : List Op) : Nat → Option (Nat × Nat) → List (Option (Nat × Nat))
  | 0, blk => [blk]
  | _ + 1, none => [none]
  | fuel + 1, some (p, r) =>
    some (p, r) ::
      match findIn ops p with
      | some po => blockChain ops fuel po.parent
      | none => []

/-- The function `findNearestCommonDominator` (lines 337-364). -/
def findNearestCommonDominator (l : ForLoop) (ops : List Op) : Option Op :=
  match ops with
  | [] => none
  | [o] => some o
  | o :: _ =>
    let n := l.body.length
    match (blockChain l.body n o.parent).find? fun blk =>
        ops.all fun u => (ancestorInBlock l.body blk n u).isSome with
    | none => none
    | some domBlock =>
      let ancestorOps := ops.filterMap fun u => ancestorInBlock l.body domBlock n u
      match ancestorOps with
      | [] => none
      | a :: rest =>
        some (rest.foldl (fun dom x =>
          if indexOfOp l.body x.id < indexOfOp l.body dom.id then x else dom) a)

/-! ### Rewrite -/

/-- The function `createSingleBufferView` with an index value (lines 254-276). -/
def createSingleBufferView (b : Builder) (alloc idx : Value) : Builder :=
  let allocShape := b.loop.shapeOf alloc
  if allocShape.length > 1 then
    let b := b.create (.constantInt 0 32) []
    let zeroVal := b.lastValue
    b.create .memDescSubview (alloc :: idx :: List.replicate (allocShape.length - 1) zeroVal)
      allocShape.tail
  else
    b.create .memDescSubview [alloc, idx] [1]

/-- The function `createSingleBufferView` with an `int` index (lines 278-282). -/
def createSingleBufferViewAt (b : Builder) (alloc : Value) (idx : Nat) : Builder :=
  let b := b.create (.constantInt idx 32) []
  createSingleBufferView b alloc b.lastValue

/-- The function `createBarrierAlloc` (lines 284-307): the graph after the
allocation and the `numStages` barrier initialisations, and the allocation. -/
def createBarrierAlloc (l : ForLoop) (numStages : Nat) : ForLoop × Value :=
  let b : Builder := { loop := l, ip := .beforeLoop }
  let b := b.create .localAlloc [] [numStages]
  let barrierAlloc := b.lastValue
  let b := (List.range numStages).foldl (fun b i =>
    let b := createSingleBufferViewAt b barrierAlloc i
    b.create (.initBarrier 1) [b.lastValue]) b
  (b.loop, barrierAlloc)

/-- The function `createTMemAlloc` (lines 309-324). -/
def createTMemAlloc (b : Builder) (oldTMemAllocOp : Op) (multiBufferred : Bool)
    (numStages : Nat) : Builder :=
  let shape := if multiBufferred then numStages :: oldTMemAllocOp.shape
               else oldTMemAllocOp.shape
  b.create .tmemAlloc [] shape

/-- The function `createInitStore` (lines 326-335). -/
def createInitStore (b : Builder) (allocOp initVal : Value) (multiBufferred : Bool) :
    Builder :=
  let b' := if multiBufferred then createSingleBufferViewAt b allocOp 0 else b
  let bufferSlice := if multiBufferred then b'.lastValue else allocOp
  let b' := b'.create (.constantInt 1 1) []
  let vTrue := b'.lastValue
  b'.create .tmemStore [bufferSlice, initVal, vTrue]

def removeOp (id : Nat) (ops : List Op) : List Op :=
  ops.filter fun o => o.id != id

/-- The method `op->erase()`; erasing an operation that still has uses is a
failed assertion. -/
def ForLoop.eraseOp (l : ForLoop) (id : Nat) : Except Err ForLoop :=
  if (l.usesOf (.opResult id 0)).isEmpty then
    .ok { l with before := removeOp id l.before, body := removeOp id l.body,
                 after := removeOp id l.after }
  else .error .eraseWithUses

/-- A load of the accumulator from the new storage: from the buffer at `idx`
in the multi-buffered case, else from the storage itself (lines 374-380 and
400-407). The operation made last is the load. -/
def loadFromBuffer (b : Builder) (multiBuffered : Bool) (newAlloc idx : Value) : Builder :=
  if multiBuffered then
    let b := createSingleBufferView b newAlloc idx
    b.create .tmemLoad [b.lastValue]
  else b.create .tmemLoad [newAlloc]

/-- Annotates the operation of the body block that is, or holds, operation
`op` (`forOp.getBody()->findAncestorOpInBlock`, lines 381-383). -/
def annotateAncestorInBody (l : ForLoop) (op : Nat) (stage : Int) : ForLoop :=
  match l.bodyOp? op with
  | some o =>
    match ancestorInBlock l.body none l.body.length o with
    | some a => annotateWithPipelineStage l a.id stage
    | none => l
  | none => l

/-- The function `updateAccUsesInLoop` (lines 366-388). -/
def updateAccUsesInLoop (l : ForLoop) (info : MMAInfo) (newAlloc : Value)
    (numStages : Nat) : Except Err ForLoop :=
  let directUses := getDirectAccUses l info.accLoad
  if directUses.isEmpty then .ok l
  else
    match findNearestCommonDominator l directUses with
    | none => .error .noCommonDominator
    | some domOp =>
      let b := loadFromBuffer { loop := l, ip := .before domOp.id } info.accIsMultiBuffered
        newAlloc info.accExtractIdx
      let l2 := annotateAncestorInBody b.loop (b.loop.nextId - 1) ((numStages : Int) - 1)
      .ok (directUses.foldl (fun l user =>
        l.replaceUsesOfWith user.id (.opResult info.accLoad.id 0) b.lastValue) l2)

/-- The method `old.replaceAllUsesWith(new)`, where `new` is the result of the
operation `newOp`, which does not use `old`. -/
def ForLoop.replaceAllUsesWith (l : ForLoop) (old new : Value) (newOp : Nat) : ForLoop :=
  { l with
    before := l.before.map fun o =>
      { o with operands := replaceValue old new o.operands }
    body := l.body.map fun o =>
      { o with operands := replaceValue old new o.operands }
    yieldOperands := replaceValue old new l.yieldOperands
    after := l.after.map fun o =>
      if o.id = newOp then o
      else { o with operands := replaceValue old new o.operands } }

/-- The function `updateAccUsesOutsideLoop` (lines 390-409). -/
def updateAccUsesOutsideLoop (l : ForLoop) (info : MMAInfo) (newAlloc : Value)
    (extractIdxArgNo : Nat) : ForLoop :=
  match info.yieldArgNo with
  | none => l
  | some k =>
    if (l.usesOf (.opResult l.id k)).isEmpty then l
    else
      let b := loadFromBuffer { loop := l, ip := .afterLoop 0 } info.accIsMultiBuffered
        newAlloc (.opResult l.id extractIdxArgNo)
      b.loop.replaceAllUsesWith (.opResult l.id k) b.lastValue (b.loop.nextId - 1)

/-- Operation that defines a value, when the value is an operation result. -/
def Value.definingOp : Value → Option Nat
  | .opResult id _ => some id
  | _ => none

/-- Is the insertion point `after ref` in the block of the loop body? -/
def ForLoop.inBodyBlock (l : ForLoop) (ref : Nat) : Bool :=
  match l.bodyOp? ref with
  | some o => o.parent == none
  | none => false

/-- Insertion point of `updateAccDefsInLoop` (lines 418-425): behind the
override operation, or behind the operation that defines the condition; when
that is not in the block of the loop body, behind the first operation of the
body. -/
def accDefsInsertRef (l : ForLoop) (accDef : AccOverridePoint) : Nat :=
  let ref :=
    match accDef.condition with
    | some c =>
      match c.definingOp with
      | some d => d
      | none => accDef.op
    | none => accDef.op
  if l.inBodyBlock ref then ref
  else
    match l.body with
    | front :: _ => front.id
    | [] => ref

/-- The index update emitted by `updateAccDefsInLoop` for the insert index
(lines 428-439) and, by the same sequence, for the extract index (lines
442-454): `addi`, `cmpi eq`, the wrapping select and, when there is a
condition, the gating select. The operation made last defines the new index. -/
def emitNextIdx (b : Builder) (idx numStagesVal : Value) (condition : Option Value) :
    Builder :=
  let b := b.create (.constantInt 1 32) []
  let b := b.create .addi [idx, b.lastValue]
  let newIdx := b.lastValue
  let b := b.create .cmpiEq [newIdx, numStagesVal]
  let wrap := b.lastValue
  let b := b.create (.constantInt 0 32) []
  let b := b.create .select [wrap, b.lastValue, newIdx]
  let newIdx := b.lastValue
  match condition with
  | some c => b.create .select [c, newIdx, idx]
  | none => b

/-- The store of the fresh value emitted by `updateAccDefsInLoop` (lines
457-464). -/
def emitInitStore (b : Builder) (newAlloc newInsertIdx : Value)
    (accDef : AccOverridePoint) : Builder :=
  match accDef.initValue with
  | some initValue =>
    let b := createSingleBufferView b newAlloc newInsertIdx
    let bufferSlice := b.lastValue
    let b := b.create (.constantInt 1 1) []
    let vTrue := b.lastValue
    let b := b.create .tmemStore [bufferSlice, initValue, accDef.condition.getD vTrue]
    { b with loop := annotateWithPipelineStage b.loop (b.loop.nextId - 1) 0 }
  | none => b

/-- What `updateAccDefsInLoop` emits into the loop body (lines 418-464): the
graph with the new operations, and the new insert and extract index with the
operations that define them. -/
structure AccDefs where
  loop : ForLoop
  newInsertIdx : Value
  newInsertIdxOp : Nat
  newExtractIdx : Value
  newExtractIdxOp : Nat

/-- The operations `updateAccDefsInLoop` emits (lines 418-464). -/
def emitAccDefs (l : ForLoop) (info : MMAInfo) (accDef : AccOverridePoint)
    (newAlloc : Value) (numStages : Nat) : AccDefs :=
  let b : Builder := { loop := l, ip := .after (accDefsInsertRef l accDef) }
  let b := b.create (.constantInt numStages 32) []
  let numStagesVal := b.lastValue
  let b := emitNextIdx b info.accInsertIdx numStagesVal accDef.condition
  let newInsertIdx := b.lastValue
  let newInsertIdxOp := b.loop.nextId - 1
  let b : Builder := ⟨annotateWithPipelineStage b.loop newInsertIdxOp 0, b.ip⟩
  let b := emitNextIdx b info.accExtractIdx numStagesVal accDef.condition
  let newExtractIdx := b.lastValue
  let newExtractIdxOp := b.loop.nextId - 1
  let b : Builder := ⟨annotateWithPipelineStage b.loop newExtractIdxOp 1, b.ip⟩
  let b := emitInitStore b newAlloc newInsertIdx accDef
  { loop := b.loop, newInsertIdx := newInsertIdx, newInsertIdxOp := newInsertIdxOp,
    newExtractIdx := newExtractIdx, newExtractIdxOp := newExtractIdxOp }

/-- The terminator of the loop gets the new insert and extract index (lines
466-469). -/
def yieldNewIndices (l : ForLoop) (info : MMAInfo) (newInsertIdx newExtractIdx : Value) :
    ForLoop :=
  let newYield := replaceValue info.accExtractIdx newExtractIdx
    (replaceValue info.accInsertIdx newInsertIdx l.yieldOperands)
  { l with yieldOperands := newYield }

/-- The function `updateAccDefsInLoop` (lines 411-487). -/
def updateAccDefsInLoop (l : ForLoop) (info : MMAInfo) (newAlloc : Value)
    (numStages : Nat) : Except Err (ForLoop × MMAInfo) :=
  match info.accDef with
  | none => .error .missingAccDef
  | some accDef =>
    let e := emitAccDefs l info accDef newAlloc numStages
    -- always update the for yield with the new insert and extract indices
    let l1 := yieldNewIndices e.loop info e.newInsertIdx e.newExtractIdx
    -- only update the rest of the uses if the override is at distance 0
    let l1 := if accDef.distance = 0 then
        replaceAllUsesDominatedBy
          (replaceAllUsesDominatedBy l1 e.newInsertIdxOp e.newInsertIdx info.accInsertIdx)
          e.newExtractIdxOp e.newExtractIdx info.accExtractIdx
      else l1
    let info' := { info with accInsertIdx := e.newInsertIdx, accExtractIdx := e.newExtractIdx }
    if accDef.initValue.isSome && accDef.condition.isSome then
      if l1.kindOf accDef.op = .select then
        match l1.eraseOp accDef.op with
        | .ok l2 => .ok (l2, info')
        | .error e => .error e
      else .error .expectedSelect
    else .ok (l1, info')

/-- Is the operation one of the two MMA operations? -/
def OpKind.isMMA : OpKind → Bool
  | .tcGen5MMA => true
  | .tcGen5MMAScaled => true
  | _ => false

/-- The calls `op.getDMutable().assign(v)` and `op.getBarrierMutable().assign(v)`
behind `dyn_cast` to the two MMA operations: operand `i` of the MMA is set. -/
def assignMMAOperand (l : ForLoop) (mmaOp : Nat) (i : Option Nat) (v : Value) : ForLoop :=
  match i with
  | some i =>
    l.updateOp mmaOp fun o =>
      if o.kind.isMMA then { o with operands := setOperand i v o.operands } else o
  | none => l

/-- The start of `hoistAndUseTMemAlloc` (lines 494-508): four constants, the
new storage and, when the accumulator is chained, the store of the initial
value, all before the loop. The result is the graph and the new storage. -/
def hoistAlloc (l : ForLoop) (info : MMAInfo) (numStages : Nat) :
    Except Err (ForLoop × Nat) :=
  let b : Builder := { loop := l, ip := .beforeLoop }
  let b := b.create (.constantInt 0 32) []
  let b := b.create (.constantInt 1 32) []
  let b := b.create (.constantInt numStages 32) []
  let b := b.create (.constantInt 1 1) []
  let b := createTMemAlloc b info.accAlloc info.accIsMultiBuffered numStages
  let newAllocId := b.loop.nextId - 1
  match info.yieldArgNo with
  | some k =>
    match l.initArgs[k]? with
    | some accInitValue =>
      .ok ((createInitStore b (.opResult newAllocId 0) accInitValue
              info.accIsMultiBuffered).loop, newAllocId)
    | none => .error .operandOutOfRange
  | none => .ok (b.loop, newAllocId)

/-- The MMA is made to use the hoisted storage (lines 510-522). -/
def useHoistedAlloc (l : ForLoop) (mmaOp : Nat) (info : MMAInfo) (newAlloc : Value) :
    ForLoop :=
  if info.accIsMultiBuffered then
    let b := createSingleBufferView { loop := l, ip := .before mmaOp } newAlloc
      info.accInsertIdx
    assignMMAOperand b.loop mmaOp (some 2) b.lastValue
  else assignMMAOperand l mmaOp (some 2) newAlloc

/-- The carried value that held the accumulator is short-circuited (lines
530-535). -/
def shortCircuitAccumulator (l : ForLoop) (yieldArgNo : Option Nat) : Except Err ForLoop :=
  match yieldArgNo with
  | some k =>
    match l.initArgs[k]? with
    | some init => .ok { l with yieldOperands := l.yieldOperands.set k init }
    | none => .error .operandOutOfRange
  | none => .ok l

/-- The function `hoistAndUseTMemAlloc` (lines 492-544). -/
def hoistAndUseTMemAlloc (l : ForLoop) (mmaOp : Nat) (info : MMAInfo) (numStages : Nat) :
    Except Err (ForLoop × MMAInfo) :=
  match hoistAlloc l info numStages with
  | .error e => .error e
  | .ok (l0, newAllocId) =>
    let newAlloc : Value := .opResult newAllocId 0
    let l1 := useHoistedAlloc l0 mmaOp info newAlloc
    match updateAccUsesInLoop l1 info newAlloc numStages with
    | .error e => .error e
    | .ok l2 =>
      match info.accExtractIdx with
      | .loopArg (extractIdxArgNo + 1) =>
        let l3 := updateAccUsesOutsideLoop l2 info newAlloc extractIdxArgNo
        match shortCircuitAccumulator l3 info.yieldArgNo with
        | .error e => .error e
        | .ok l4 =>
          let defs : Except Err (ForLoop × MMAInfo) :=
            if info.accIsMultiBuffered then updateAccDefsInLoop l4 info newAlloc numStages
            else .ok (l4, info)
          match defs with
          | .error e => .error e
          | .ok (l5, info) =>
            match l5.eraseOp info.accLoad.id with
            | .error e => .error e
            | .ok l6 =>
              match l6.eraseOp info.accAlloc.id with
              | .error e => .error e
              | .ok l7 =>
                let newAllocOp : Op := (l7.anyOp? newAllocId).getD
                  { id := newAllocId, kind := .tmemAlloc, operands := [] }
                .ok (l7, { info with accAlloc := newAllocOp })
      | _ => .error .extractIdxNotBlockArg

/-- The operations `createBarrierAndWaitOps` places behind the MMA (lines
569-593): the wait, the advance of the barrier index and the flip of the
phase, with the replacement of the dominated uses of the two carried values. -/
def emitWaitAndAdvance (l : ForLoop) (mmaOp : Nat) (info : MMAInfo) (numStages : Nat)
    (zeroVal one numStagesVal barrierSlice : Value) : ForLoop × Value × Value :=
  let b : Builder := { loop := l, ip := .after mmaOp }
  let b : Builder := b.create .waitBarrier [barrierSlice, info.phase]
  let waited : ForLoop :=
    annotateWithPipelineStage b.loop (b.loop.nextId - 1) ((numStages : Int) - 1)
  let b : Builder := ⟨waited, b.ip⟩
  let b : Builder := b.create .addi [info.barrierIdx, one]
  let newBarrierIdx : Value := b.lastValue
  let b : Builder := b.create .cmpiEq [newBarrierIdx, numStagesVal]
  let barWrap : Value := b.lastValue
  let b : Builder := b.create .select [barWrap, zeroVal, newBarrierIdx]
  let newBarrierIdx : Value := b.lastValue
  let newBarrierIdxOp : Nat := b.loop.nextId - 1
  let advanced : ForLoop := annotateWithPipelineStage
    (replaceAllUsesDominatedBy b.loop newBarrierIdxOp newBarrierIdx info.barrierIdx)
    newBarrierIdxOp 0
  let b : Builder := ⟨advanced, b.ip⟩
  let b : Builder := b.create .xori [info.phase, one]
  let b : Builder := b.create .select [barWrap, b.lastValue, info.phase]
  let newPhase : Value := b.lastValue
  let newPhaseOp : Nat := b.loop.nextId - 1
  let l2 : ForLoop := annotateWithPipelineStage
    (replaceAllUsesDominatedBy b.loop newPhaseOp newPhase info.phase) newPhaseOp 0
  (l2, newBarrierIdx, newPhase)

/-- The function `createBarrierAndWaitOps` (lines 547-594). -/
def createBarrierAndWaitOps (l : ForLoop) (mmaOp : Nat) (info : MMAInfo) (numStages : Nat) :
    ForLoop × MMAInfo :=
  let b : Builder := { loop := l, ip := .beforeLoop }
  let b : Builder := b.create (.constantInt 0 32) []
  let zeroVal : Value := b.lastValue
  let b : Builder := b.create (.constantInt 1 32) []
  let one : Value := b.lastValue
  let b : Builder := b.create (.constantInt numStages 32) []
  let numStagesVal : Value := b.lastValue
  let r : ForLoop × Value := createBarrierAlloc b.loop numStages
  let barrierAlloc : Value := r.2
  let b : Builder := createSingleBufferView { loop := r.1, ip := .before mmaOp } barrierAlloc
    info.barrierIdx
  let barrierSlice : Value := b.lastValue
  let mmaKind : OpKind := ((b.loop.bodyOp? mmaOp).map fun o => o.kind).getD .other
  let l1 : ForLoop := assignMMAOperand b.loop mmaOp (barrierOperand mmaKind) barrierSlice
  let w := emitWaitAndAdvance l1 mmaOp info numStages zeroVal one numStagesVal barrierSlice
  (w.1, { info with barrierAlloc := some barrierAlloc, barrierIdx := w.2.1, phase := w.2.2 })

/-! ### Driver -/

/-- Parts of the surrounding compiler the driver calls and the file does not
define: the filter `getMMAsWithMultiBufferredOperands` and the question
whether the backward slice of an MMA (`getBackwardSlice`) holds an operation
that carries a stage annotation. -/
structure Env where
  getMMAsWithMultiBufferredOperands : ForLoop → List Nat → List Nat
  backwardSliceHasStage : ForLoop → Nat → Bool

/-- Modelled from the spec: `replaceForOpWithNewSignature` is not in this file.
"Extend the loop's carried-value list with four new slots ... The loop is
rebuilt with the extended signature (old loop erased, new one substituted, all
uses redirected)": a new loop operation takes the old initial values followed
by the new ones, the body moves over, and the uses of the results of the old
loop become uses of the results of the new loop. The terminator is not
touched. -/
def replaceForOpWithNewSignature (l : ForLoop) (newOperands : List Value) : ForLoop :=
  let newId := l.nextId
  { l with
    id := newId
    nextId := l.nextId + 1
    initArgs := l.initArgs ++ newOperands
    after := l.after.map fun o =>
      { o with operands := o.operands.map fun v =>
          match v with
          | .opResult d i => if d = l.id then .opResult newId i else v
          | _ => v } }

/-- Modelled from the spec: `appendToForOpYield` is not in this file. The
terminator of the loop body gets the new operands behind the old ones. -/
def appendToForOpYield (l : ForLoop) (newYieldOperands : List Value) : ForLoop :=
  { l with yieldOperands := l.yieldOperands ++ newYieldOperands }

/-- The end of the rewrite of one MMA (lines 719-727): behind the loop, one
invalidation for each of the `numStages` barriers, then the deallocation. -/
def invalidateAndDeallocBarrier (l : ForLoop) (barrierAlloc : Value) (numStages : Nat) :
    ForLoop :=
  let b : Builder := { loop := l, ip := .afterLoop 0 }
  let b := (List.range numStages).foldl (fun b i =>
    let b := createSingleBufferViewAt b barrierAlloc i
    b.create .invalBarrier [b.lastValue]) b
  let b := b.create .localDealloc [barrierAlloc]
  b.loop

/-- The rewrite of one eligible MMA (lines 679-727). -/
def rewriteMMA (l : ForLoop) (mmaOp : Nat) (accAlloc accLoad : Op)
    (accOverridePoint : Option AccOverridePoint) (yieldArgNo : Option Nat)
    (requiresMultiBuffer : Bool) (numStages : Nat) : Except Err ForLoop :=
  let b : Builder := { loop := l, ip := .beforeLoop }
  let b := b.create (.constantInt 0 32) []
  let zeroVal := b.lastValue
  -- update the loop with the new arguments
  let newOperands := [zeroVal, zeroVal, zeroVal, zeroVal]
  let firstNewOperandIndex := b.loop.initArgs.length
  let l1 := replaceForOpWithNewSignature b.loop newOperands
  let mmaInfo : MMAInfo :=
    { accAlloc := accAlloc, accLoad := accLoad, accDef := accOverridePoint,
      yieldArgNo := yieldArgNo, accIsMultiBuffered := requiresMultiBuffer,
      phase := .loopArg (firstNewOperandIndex + 0 + 1),
      barrierIdx := .loopArg (firstNewOperandIndex + 1 + 1),
      accInsertIdx := .loopArg (firstNewOperandIndex + 2 + 1),
      accExtractIdx := .loopArg (firstNewOperandIndex + 3 + 1) }
  let newYieldOperands :=
    [mmaInfo.phase, mmaInfo.barrierIdx, mmaInfo.accInsertIdx, mmaInfo.accExtractIdx]
  let l2 := appendToForOpYield l1 newYieldOperands
  let l3 := annotateWithPipelineStage l2 mmaOp 0
  match hoistAndUseTMemAlloc l3 mmaOp mmaInfo numStages with
  | .error e => .error e
  | .ok (l4, mmaInfo) =>
    let r := createBarrierAndWaitOps l4 mmaOp mmaInfo numStages
    .ok (invalidateAndDeallocBarrier r.1 (r.2.barrierAlloc.getD (.opResult 0 0)) numStages)

/-- The cast and the assertion of lines 650-654: when the chain closes on the
carried slot `k`, the input of the storage is a block argument with argument
number `k + 1`. -/
def chainIndexOk (accAlloc : Op) (yieldArgNo : Option Nat) : Bool :=
  match yieldArgNo with
  | some k =>
    match accAlloc.operands.head? with
    | some (.loopArg argNo) => decide (argNo = k + 1)
    | some (.foreignArg _ argNo) => decide (argNo = k + 1)
    | _ => false
  | none => true

/-- One pass of the loop over the MMAs in `preProcessLoopForTC05MMAPipelining`
(lines 623-728): the graph afterwards and whether the MMA was rewritten
(`false` stands for `continue`). `fuel` bounds the work list of
`trackAccChain`. -/
def processMMA (env : Env) (numStages fuel : Nat) (l : ForLoop) (mmaOp : Nat) :
    Except Err (ForLoop × Bool) :=
  if env.backwardSliceHasStage l mmaOp then .ok (l, false)
  else
    match getTMemAllocAndLoad l mmaOp with
    | none => .ok (l, false)
    | some (accAlloc, accLoad) =>
      match trackAccChain l accLoad accAlloc fuel with
      | .error e => .error e
      | .ok (yieldArgNo, hasDivergentUses) =>
        if hasDivergentUses then .ok (l, false)
        else
          if !chainIndexOk accAlloc yieldArgNo then .error .chainIndexMismatch
          else
            match getAccOverrideOrFlagFalseInLoop l mmaOp with
            | .error e => .error e
            | .ok (l1, accOverridePoint) =>
              if (accOverridePoint.map fun p => decide (p.distance > 1)).getD false then
                -- only an override up to one iteration back is supported
                .ok (l1, false)
              else
                let requiresMultiBuffer := !(getDirectAccUses l1 accLoad).isEmpty
                let canMultiBuffer := accOverridePoint.isSome
                if requiresMultiBuffer && !canMultiBuffer then .ok (l1, false)
                else
                  match rewriteMMA l1 mmaOp accAlloc accLoad accOverridePoint yieldArgNo
                      requiresMultiBuffer numStages with
                  | .error e => .error e
                  | .ok l2 => .ok (l2, true)

/-- Is the operation nested in a loop inside the loop? -/
def nestedInInnerLoop (ops : List Op) : Nat → Op → Bool
  | 0, _ => false
  | fuel + 1, o =>
    match o.parent with
    | none => false
    | some (p, _) =>
      match findIn ops p with
      | some po => po.kind == .forOp || nestedInInnerLoop ops fuel po
      | none => false

/-- The MMAs collected by the walk (lines 603-610). -/
def collectMMAs (l : ForLoop) : List Nat :=
  (l.body.filter fun o =>
    o.kind == .tcGen5MMA && !nestedInInnerLoop l.body l.body.length o).map fun o => o.id

/-- The loop over the MMAs (lines 623-728), with the number of MMAs that were
rewritten. -/
def processMMAs (env : Env) (numStages fuel : Nat) :
    List Nat → ForLoop × Nat → Except Err (ForLoop × Nat)
  | [], st => .ok st
  | mmaOp :: rest, (l, rewritten) =>
    match processMMA env numStages fuel l mmaOp with
    | .error e => .error e
    | .ok (l', true) => processMMAs env numStages fuel rest (l', rewritten + 1)
    | .ok (l', false) => processMMAs env numStages fuel rest (l', rewritten)

/-- The function `preProcessLoopForTC05MMAPipelining` (lines 601-731) with the
number of rewritten MMAs; `none` is `failure()`. -/
def preProcessLoopCounting (env : Env) (l : ForLoop) (numStages fuel : Nat) :
    Except Err (Option (ForLoop × Nat)) :=
  let mmaOps := collectMMAs l
  if mmaOps.isEmpty then .ok none
  else
    let mmaOps := env.getMMAsWithMultiBufferredOperands l mmaOps
    if mmaOps.isEmpty then .ok none
    else
      match processMMAs env numStages fuel mmaOps (l, 0) with
      | .error e => .error e
      | .ok r => .ok (some r)

/-- The function `preProcessLoopForTC05MMAPipelining` (lines 601-731); `none`
is `failure()`. -/
def preProcessLoopForTC05MMAPipelining (env : Env) (l : ForLoop) (numStages fuel : Nat) :
    Except Err (Option ForLoop) :=
  match preProcessLoopCounting env l numStages fuel with
  | .error e => .error e
  | .ok r => .ok (r.map fun p => p.1)

/-- The first loop of `pipelineTC05MMALoops` (lines 880-887) for one loop:
the loop is tagged with `triton.pipeline` when the rewriter reports success. -/
def tagLoop (env : Env) (l : ForLoop) (numStages fuel : Nat) : Except Err ForLoop :=
  match preProcessLoopForTC05MMAPipelining env l numStages fuel with
  | .error e => .error e
  | .ok (some newForOp) => .ok { newForOp with pipeline := true }
  | .ok none => .ok l

/-! ### Stage scheduler -/

/-- Key of a schedule entry: an operation of the loop, or the terminator of
the loop body. -/
inductive SchedKey where
  | op (id : Nat)
  | terminator
  deriving DecidableEq, Repr

/-- Modelled from the spec: `CoarseSchedule` is not in this file. "Stage
schedule: a mapping from operation to (stage, ordering cluster)". The function
`getTC05MMASchedule` passes one and the same cluster to every insertion, so
the cluster component is left out. -/
structure CoarseSchedule where
  numStages : Nat
  entries : List (SchedKey × Int)
  deriving DecidableEq, Repr

/-- Modelled from the spec: `CoarseSchedule::count`. -/
def CoarseSchedule.count (s : CoarseSchedule) (k : SchedKey) : Bool :=
  s.entries.any fun e => e.1 == k

/-- Modelled from the spec: `CoarseSchedule::operator[]`, the stage of an entry. -/
def CoarseSchedule.stageOf (s : CoarseSchedule) (k : SchedKey) : Option Int :=
  (s.entries.find? fun e => e.1 == k).map fun e => e.2

/-- Modelled from the spec: `CoarseSchedule::insert`, which sets the entry of
the operation. -/
def CoarseSchedule.insert (s : CoarseSchedule) (k : SchedKey) (stage : Int) :
    CoarseSchedule :=
  if s.count k then
    { s with entries := s.entries.map fun e => if e.1 = k then (k, stage) else e }
  else { s with entries := s.entries ++ [(k, stage)] }

/-- Modelled from the spec: `CoarseSchedule::insertMinimum`, "if multiple
consumers map to different stages, take the minimum (earliest)". -/
def CoarseSchedule.insertMinimum (s : CoarseSchedule) (k : SchedKey) (stage : Int) :
    CoarseSchedule :=
  match s.stageOf k with
  | some existing => s.insert k (min stage existing)
  | none => s.insert k stage

/-- The operations directly in the block of the loop body
(`forOp.getBody()->without_terminator()`). -/
def ForLoop.bodyBlock (l : ForLoop) : List Op :=
  l.body.filter fun o => o.parent == none

/-- The users of the results of an operation inside the loop
(`op->getUsers()`), one for every use. -/
def usersOfKey (l : ForLoop) : SchedKey → List SchedKey
  | .terminator => []
  | .op id =>
    (l.body.flatMap fun o =>
      (o.operands.filter fun v => v.definingOp == some id).map fun _ => SchedKey.op o.id)
    ++ (l.yieldOperands.filter fun v => v.definingOp == some id).map fun _ =>
        SchedKey.terminator

/-- Body of the loop of `insertUsersOfOp` (lines 737-741), and of the same
loop in `insertDepsOfOp`: an operation without entry gets one in the given
stage, `recurse` is run on it, and the flag `changed` is set. -/
def propagateStep
    (recurse : CoarseSchedule → SchedKey → Int → Except Err (CoarseSchedule × Bool))
    (stage : Int) (acc : CoarseSchedule × Bool) (user : SchedKey) :
    Except Err (CoarseSchedule × Bool) :=
  if acc.1.count user then .ok acc
  else
    match recurse (acc.1.insert user stage) user stage with
    | .ok r => .ok (r.1, true)
    | .error e => .error e

/-- The function `insertUsersOfOp` (lines 733-744); `fuel` bounds the depth of
the recursion. -/
def insertUsersOfOp (l : ForLoop) :
    Nat → CoarseSchedule → SchedKey → Int → Except Err (CoarseSchedule × Bool)
  | 0, _, _, _ => .error .outOfFuel
  | fuel + 1, s, op, stage =>
    (usersOfKey l op).foldlM (propagateStep (insertUsersOfOp l fuel) stage) (s, false)

/-- The producers of an operation: the operations inside the loop that define
its operands. -/
def producersOfKey (l : ForLoop) : SchedKey → List SchedKey
  | .terminator => []
  | .op id =>
    match l.bodyOp? id with
    | none => []
    | some o =>
      o.operands.filterMap fun v =>
        match v.definingOp with
        | some d => if (l.bodyOp? d).isSome then some (SchedKey.op d) else none
        | none => none

/-- Modelled from the spec: `CoarseSchedule::insertDepsOfOp` is not in this
file. "propagate stages upward to not-yet-scheduled producers of scheduled
operations (same stage)"; the result tells whether an entry was added. Block
arguments are not followed (`includeArg = false`). -/
def insertDepsOfOp (l : ForLoop) :
    Nat → CoarseSchedule → SchedKey → Int → Except Err (CoarseSchedule × Bool)
  | 0, _, _, _ => .error .outOfFuel
  | fuel + 1, s, op, stage =>
    (producersOfKey l op).foldlM (propagateStep (insertDepsOfOp l fuel) stage) (s, false)

/-- Body of the inner loops of `scheduleDependencies` (lines 765-769 and
775-778): for an operation that is scheduled in `stage`, `propagate` is run;
the flag `fixedPoint` stays `true` when nothing changed. -/
def sweepStep
    (propagate : CoarseSchedule → SchedKey → Int → Except Err (CoarseSchedule × Bool))
    (stage : Int) (acc : CoarseSchedule × Bool) (o : Op) :
    Except Err (CoarseSchedule × Bool) :=
  if acc.1.count (.op o.id) && acc.1.stageOf (.op o.id) == some stage then
    match propagate acc.1 (.op o.id) stage with
    | .ok r => .ok (r.1, acc.2 && !r.2)
    | .error e => .error e
  else .ok acc

/-- One of the two sweeps of `scheduleDependencies` (lines 763-771 and
773-780): for every stage of `stages`, for every operation of the body block
that is scheduled in that stage, `propagate` is run. -/
def sweep (l : ForLoop)
    (propagate : CoarseSchedule → SchedKey → Int → Except Err (CoarseSchedule × Bool))
    (stages : List Int) (st : CoarseSchedule × Bool) : Except Err (CoarseSchedule × Bool) :=
  stages.foldlM (fun acc stage => l.bodyBlock.foldlM (sweepStep propagate stage) acc) st

/-- Number of keys a schedule of the loop can hold: the operations inside the
loop and the terminator. -/
def ForLoop.keyCount (l : ForLoop) : Nat := l.body.length + 1

/-- One round of the loop `while (!fixedPoint)` (lines 761-780): the schedule
afterwards and the flag `fixedPoint`. -/
def scheduleRound (l : ForLoop) (s : CoarseSchedule) : Except Err (CoarseSchedule × Bool) :=
  let upStages := (List.range s.numStages).map fun i => (i : Int)
  match sweep l (insertDepsOfOp l (l.keyCount + 1)) upStages (s, true) with
  | .error e => .error e
  | .ok r => sweep l (insertUsersOfOp l (l.keyCount + 1)) upStages.reverse r

/-- The closure `scheduleDependencies` (lines 758-782), run for at most `fuel`
rounds. -/
def scheduleDependencies (l : ForLoop) : Nat → CoarseSchedule → Except Err CoarseSchedule
  | 0, _ => .error .outOfFuel
  | fuel + 1, s =>
    match scheduleRound l s with
    | .error e => .error e
    | .ok (s', true) => .ok s'
    | .ok (s', false) => scheduleDependencies l fuel s'

/-- Parts of the surrounding compiler the scheduler calls and the file does
not define: the helper `findShmemAlloc`, the test whether a value has a
memory-descriptor type, and the accessors `getResult`, `getSrc` and
`getBarrier` of the asynchronous copy operations. -/
structure SchedEnv where
  findShmemAlloc : ForLoop → Value → Option Nat
  isMemDesc : ForLoop → Value → Bool
  getResult : Op → Value
  getSrc : Op → Value
  getBarrier : Op → Value

/-- Sets the entry of `k` in a map kept as an association list. -/
def assocSet {β : Type} (m : List (Nat × β)) (k : Nat) (v : β) : List (Nat × β) :=
  (k, v) :: m.filter fun e => e.1 != k

def assocGet? {β : Type} (m : List (Nat × β)) (k : Nat) : Option β :=
  (m.find? fun e => e.1 == k).map fun e => e.2

/-- The maps `allocToStage` and `allocToBarrierWait` (lines 787-788). -/
structure AllocMaps where
  allocToStage : List (Nat × Int) := []
  allocToBarrierWait : List (Nat × Nat) := []
  deriving DecidableEq, Repr

/-- The loop that fills `allocToStage` and `allocToBarrierWait` (lines
789-812). -/
def collectAllocStages (env : SchedEnv) (l : ForLoop) (s : CoarseSchedule) :
    Except Err AllocMaps :=
  l.bodyBlock.foldlM (fun (m : AllocMaps) o =>
    if o.kind = .waitBarrier then
      match o.operands.head? with
      | none => .error .operandOutOfRange
      | some alloc =>
        match env.findShmemAlloc l alloc with
        | none => .error .noShmemAlloc
        | some localAlloc =>
          if (assocGet? m.allocToBarrierWait localAlloc).isSome then
            .error .duplicateBarrierWait
          else .ok { m with allocToBarrierWait := assocSet m.allocToBarrierWait localAlloc o.id }
    else
      match s.stageOf (.op o.id) with
      | none => .ok m
      | some stage =>
        .ok (o.operands.foldl (fun (m : AllocMaps) arg =>
          if env.isMemDesc l arg then
            match env.findShmemAlloc l arg with
            | some localAlloc => { m with allocToStage := assocSet m.allocToStage localAlloc stage }
            | none => m
          else m) m)) {}

/-- The memory descriptor and the barrier of an asynchronous copy (lines
815-831), `none` for any other operation. -/
def asyncCopyOperands (env : SchedEnv) (o : Op) : Option (Value × Option Value) :=
  match o.kind with
  | .asyncCopyGlobalToLocal => some (env.getResult o, none)
  | .asyncTMACopyGlobalToLocal => some (env.getResult o, some (env.getBarrier o))
  | .asyncTMAGather => some (env.getResult o, some (env.getBarrier o))
  | .asyncTMACopyLocalToGlobal => some (env.getSrc o, none)
  | .asyncTMAScatter => some (env.getSrc o, none)
  | _ => none

/-- The loop that schedules the asynchronous copies in the stage of their
consumer (lines 814-848). An absent entry of `allocToStage` reads as stage 0;
when `allocToBarrierWait` has no wait for the barrier no operation gets an
entry. -/
def scheduleAsyncCopies (env : SchedEnv) (l : ForLoop) (m : AllocMaps) (s : CoarseSchedule) :
    Except Err CoarseSchedule :=
  l.bodyBlock.foldlM (fun (s : CoarseSchedule) o =>
    match asyncCopyOperands env o with
    | none => .ok s
    | some (memDesc, barrier) =>
      match env.findShmemAlloc l memDesc with
      | none => .error .noShmemAlloc
      | some localAlloc =>
        let stage := (assocGet? m.allocToStage localAlloc).getD 0
        let s := s.insert (.op o.id) stage
        match barrier with
        | none => .ok s
        | some barrier =>
          match env.findShmemAlloc l barrier with
          | none => .error .noShmemAlloc
          | some barrierAlloc =>
            match assocGet? m.allocToBarrierWait barrierAlloc with
            | some waitOp => .ok (s.insertMinimum (.op waitOp) stage)
            | none => .ok s) s

/-- The loop "schedule everything else to stage 0" (lines 853-858). -/
def scheduleRest (l : ForLoop) (s : CoarseSchedule) : CoarseSchedule :=
  l.bodyBlock.foldl (fun s o =>
    if s.count (.op o.id) then s else s.insert (.op o.id) 0) s

/-- Modelled from the spec: `CoarseSchedule::createFinalSchedule` is not in
this file. "Output: an ordered list of (operation, stage) pairs forming the
schedule": the operations of the body block that have an entry, in the order
of the block (there is one cluster), each with its stage. -/
def createFinalSchedule (l : ForLoop) (s : CoarseSchedule) : List (Nat × Int) :=
  l.bodyBlock.filterMap fun o => (s.stageOf (.op o.id)).map fun stage => (o.id, stage)

/-- The stage schedule built by `getTC05MMASchedule` (lines 748-858), before
it is made linear. -/
def coarseScheduleOf (env : SchedEnv) (l : ForLoop) (numStages : Nat) :
    Except Err CoarseSchedule :=
  let seeded : CoarseSchedule :=
    l.bodyBlock.foldl (fun s o =>
      match o.stage with
      | some stage => s.insert (.op o.id) stage
      | none => s) { numStages := numStages, entries := [] }
  match scheduleDependencies l (l.keyCount + 1) seeded with
  | .error e => .error e
  | .ok s1 =>
    match collectAllocStages env l s1 with
    | .error e => .error e
    | .ok maps =>
      match scheduleAsyncCopies env l maps s1 with
      | .error e => .error e
      | .ok s2 =>
        match scheduleDependencies l (l.keyCount + 1) s2 with
        | .error e => .error e
        | .ok s3 => .ok (scheduleRest l s3)

/-- The function `getTC05MMASchedule` (lines 746-873): the loop with the stage
annotations removed, and the schedule handed to the expander. -/
def getTC05MMASchedule (env : SchedEnv) (l : ForLoop) (numStages : Nat) :
    Except Err (ForLoop × List (Nat × Int)) :=
  match coarseScheduleOf env l numStages with
  | .error e => .error e
  | .ok s =>
    let cleared : List Op := l.body.map fun o =>
      if o.parent == none then { o with stage := none } else o
    .ok ({ l with body := cleared }, createFinalSchedule l s)

/-! ### Carried values that are yielded unchanged -/

/-- The integer a value stands for when an `arith.constant` of integer type
defines it. -/
def ForLoop.constantValue? (l : ForLoop) (v : Value) : Option Int :=
  match v with
  | .opResult id _ =>
    match l.anyOp? id with
    | some o =>
      match o.kind with
      | .constantInt c _ => some c
      | _ => none
    | none => none
  | _ => none

/-- The carried value of slot `slot` at the start of iteration `k`, for a slot
whose initial value is an integer constant and whose terminator operand is
the block argument of the slot itself (the value is yielded unchanged) or an
integer constant; `none` for any other slot. -/
def carriedValue (l : ForLoop) (slot : Nat) : Nat → Option Int
  | 0 =>
    match l.initArgs[slot]? with
    | some v => l.constantValue? v
    | none => none
  | k + 1 =>
    match l.yieldOperands[slot]? with
    | some (.loopArg argNo) => if argNo = slot + 1 then carriedValue l slot k else none
    | some v => l.constantValue? v
    | none => none

/-! ### Example loops -/

/-- An environment whose filter keeps every MMA and in which no backward
slice holds a stage annotation. -/
def exampleEnv : Env where
  getMMAsWithMultiBufferredOperands := fun _ mmaOps => mmaOps
  backwardSliceHasStage := fun _ _ => false

/-- A scheduler environment without shared-memory operands. -/
def exampleSchedEnv : SchedEnv where
  findShmemAlloc := fun _ v => v.definingOp
  isMemDesc := fun _ _ => false
  getResult := fun o => o.operands.headD (.loopArg 0)
  getSrc := fun o => o.operands.headD (.loopArg 0)
  getBarrier := fun o => o.operands.headD (.loopArg 0)

/-- The operands `a`, `b`, `d`, `useD`, `pred` of an MMA whose accumulator is
the allocation `acc`; `useD` and `pred` are the constant `true` defined before
the loop by operation 3. -/
def mmaOperands (acc : Nat) : List Value :=
  [.foreignArg 0 0, .foreignArg 0 1, .opResult acc 0, .opResult 3 0, .opResult 3 0]

/-- The operations before the example loops: the initial accumulator (a
constant tensor) and the constant `true`. -/
def exampleBefore : List Op :=
  [{ id := 2, kind := .constant, operands := [] },
   { id := 3, kind := .constantInt 1 1, operands := [] }]

/-- Acceptance scenario: the accumulator is loaded, yielded back into the
carried input of the storage, and read after the loop.
```
%r = scf.for ... iter_args(%acc = %c2) {
  %10 = tmem_alloc %acc
  tc_gen5_mma %a, %b, %10, %true, %true
  %12 = tmem_load %10
  scf.yield %12
}
"use"(%r)
``` -/
def exampleAccept : ForLoop where
  id := 1
  before := exampleBefore
  initArgs := [.opResult 2 0]
  body :=
    [{ id := 10, kind := .tmemAlloc, operands := [.loopArg 1], shape := [128, 128] },
     { id := 11, kind := .tcGen5MMA, operands := mmaOperands 10 },
     { id := 12, kind := .tmemLoad, operands := [.opResult 10 0] }]
  yieldOperands := [.opResult 12 0]
  after := [{ id := 20, kind := .other, operands := [.opResult 1 0] }]
  nextId := 30

/-- Rejection scenario (a): the load is yielded by an `scf.if`, whose result is
yielded by the loop into the carried input of the storage.
```
scf.for ... iter_args(%acc = %c2) {
  %10 = tmem_alloc %acc
  tc_gen5_mma %a, %b, %10, %true, %true
  %12 = tmem_load %10
  %13 = scf.if %cond { scf.yield %12 } else { scf.yield %c2 }
  scf.yield %13
}
``` -/
def exampleIfChain : ForLoop where
  id := 1
  before := exampleBefore
  initArgs := [.opResult 2 0]
  body :=
    [{ id := 10, kind := .tmemAlloc, operands := [.loopArg 1], shape := [128, 128] },
     { id := 11, kind := .tcGen5MMA, operands := mmaOperands 10 },
     { id := 12, kind := .tmemLoad, operands := [.opResult 10 0] },
     { id := 13, kind := .ifOp, operands := [.foreignArg 0 2] },
     { id := 14, kind := .yield, operands := [.opResult 12 0], parent := some (13, 0) },
     { id := 15, kind := .yield, operands := [.opResult 2 0], parent := some (13, 1) }]
  yieldOperands := [.opResult 13 0]
  after := []
  nextId := 30

/-- Rejection scenario (c): the override, a select with the constant on its
false side, reaches the storage two iterations later.
```
scf.for ... iter_args(%acc = %c2, %prev = %c2) {
  %10 = tmem_alloc %acc
  tc_gen5_mma %a, %b, %10, %true, %true
  %12 = tmem_load %10
  %13 = arith.select %cond, %12, %c2
  scf.yield %prev, %13
}
``` -/
def exampleDistanceTwo : ForLoop where
  id := 1
  before := exampleBefore
  initArgs := [.opResult 2 0, .opResult 2 0]
  body :=
    [{ id := 10, kind := .tmemAlloc, operands := [.loopArg 1], shape := [128, 128] },
     { id := 11, kind := .tcGen5MMA, operands := mmaOperands 10 },
     { id := 12, kind := .tmemLoad, operands := [.opResult 10 0] },
     { id := 13, kind := .select, operands := [.foreignArg 0 2, .opResult 12 0, .opResult 2 0] }]
  yieldOperands := [.loopArg 2, .opResult 13 0]
  after := []
  nextId := 30

/-- Rejection scenario (b): the load has a direct consumer inside the loop and
nothing overrides the accumulator.
```
scf.for ... iter_args(%acc = %c2) {
  %10 = tmem_alloc %acc
  tc_gen5_mma %a, %b, %10, %true, %true
  %12 = tmem_load %10
  "use"(%12)
  scf.yield %12
}
``` -/
def exampleNoOverride : ForLoop where
  id := 1
  before := exampleBefore
  initArgs := [.opResult 2 0]
  body :=
    [{ id := 10, kind := .tmemAlloc, operands := [.loopArg 1], shape := [128, 128] },
     { id := 11, kind := .tcGen5MMA, operands := mmaOperands 10 },
     { id := 12, kind := .tmemLoad, operands := [.opResult 10 0] },
     { id := 13, kind := .other, operands := [.opResult 12 0] }]
  yieldOperands := [.opResult 12 0]
  after := []
  nextId := 30

/-- The acceptance scenario after the driver has processed its MMA with
pipeline depth 2. -/
def exampleAcceptRewritten : ForLoop :=
  match processMMA exampleEnv 2 10 exampleAccept 11 with
  | .ok (l, _) => l
  | .error _ => exampleAccept

/-- The shapes of the operations of kind `k` in a list. -/
def shapesOfKind (k : OpKind) (ops : List Op) : List (List Nat) :=
  (ops.filter fun o => o.kind == k).map fun o => o.shape

/-- The slots named in the state of `trackAccChain` are slots of a terminator
with `n` operands. -/
def ChainState.SlotsBelow (n : Nat) (st : ChainState) : Prop :=
  (∀ e ∈ st.queue, ∀ k, e.yieldArgNo = some k → k < n) ∧
  (∀ k, st.yieldArgNo = some k → k < n)

/-- The keys a schedule of the loop can hold: the operations inside the loop
and the terminator. -/
def ForLoop.keys (l : ForLoop) : List SchedKey :=
  l.body.map (fun o => SchedKey.op o.id) ++ [SchedKey.terminator]

/-- The stages the scheduler can assign: stage 0, and the stage annotations
that operations of the body block carry. -/
def AllowedStage (l : ForLoop) (stage : Int) : Prop :=
  stage = 0 ∨ ∃ o ∈ l.bodyBlock, o.stage = some stage

/-- Invariant of the stage schedule of a loop: no key has two entries, every
key is an operation of the loop or its terminator, and every stage is stage
0 or a stage annotation of the body block. -/
structure SchedInv (l : ForLoop) (s : CoarseSchedule) : Prop where
  nodup : (s.entries.map fun e => e.1).Nodup
  keys : ∀ e ∈ s.entries, e.1 ∈ l.keys
  stages : ∀ e ∈ s.entries, AllowedStage l e.2

/-- What a propagation step (`insertUsersOfOp`, `insertDepsOfOp`) does to a
schedule `s`: the result `s'` satisfies the invariant, has the entries of `s`
and possibly more, and the flag `changed` tells whether it has more. -/
structure Propagated (l : ForLoop) (s s' : CoarseSchedule) (changed : Bool) : Prop where
  inv : SchedInv l s'
  numStages : s'.numStages = s.numStages
  length_le : s.entries.length ≤ s'.entries.length
  grew : changed = true → s.entries.length < s'.entries.length
  same : changed = false → s' = s
  counts : ∀ k, s.count k = true → s'.count k = true

/-- What a sweep of `scheduleDependencies` does to a schedule `s` and the flag
`fixedPoint`: the result satisfies the invariant and has at least as many
entries; the flag is still `true` only if the schedule is as before, and it
has become `false` only if the schedule has more entries. -/
structure Swept (l : ForLoop) (s : CoarseSchedule) (f : Bool) (s' : CoarseSchedule)
    (f' : Bool) : Prop where
  inv : SchedInv l s'
  numStages : s'.numStages = s.numStages
  length_le : s.entries.length ≤ s'.entries.length
  fixed : f' = true → f = true ∧ s' = s
  grew : f' = false → f = false ∨ s.entries.length < s'.entries.length

/-- A result that is not an exhausted step budget and, when it is a value,
satisfies `P`. -/
def Safe {α : Type} (P : α → Prop) : Except Err α → Prop
  | .ok a => P a
  | .error e => e ≠ .outOfFuel

/-- Invariant of the maps `allocToStage` and `allocToBarrierWait`: the stages
are stages the scheduler can assign and the waits are operations of the loop. -/
structure MapsOK (l : ForLoop) (m : AllocMaps) : Prop where
  stages : ∀ e ∈ m.allocToStage, AllowedStage l e.2
  waits : ∀ e ∈ m.allocToBarrierWait, SchedKey.op e.2 ∈ l.keys

/-- Every stage annotation of an operation inside the loop satisfies `P`. -/
def StagesIn (P : Int → Prop) (l : ForLoop) : Prop :=
  ∀ o ∈ l.body, ∀ st, o.stage = some st → P st

/-- The scheduled rewrite of the acceptance scenario with pipeline depth 3. -/
def exampleAcceptDepthThree : ForLoop :=
  match tagLoop exampleEnv exampleAccept 3 10 with
  | .ok l => l
  | .error _ => exampleAccept

/-- The tagged rewrite of the acceptance scenario with pipeline depth 2. -/
def exampleAcceptTagged : ForLoop :=
  match tagLoop exampleEnv exampleAccept 2 10 with
  | .ok l => l
  | .error _ => exampleAccept

/-! ### Invariants of the rewrite -/

/-- Every operation before and inside the loop, and the loop itself, has an
identifier below the next fresh identifier. -/
structure IdsBelow (l : ForLoop) : Prop where
  loop : l.id < l.nextId
  before : ∀ o ∈ l.before, o.id < l.nextId
  body : ∀ o ∈ l.body, o.id < l.nextId

/-- The operation `z` lies before the loop, has kind `k` and shape `s`, and no
operation inside the loop shares its identifier. -/
structure Keeps (z : Nat) (k : OpKind) (s : List Nat) (l : ForLoop) : Prop where
  fresh : z < l.nextId
  notLoop : l.id ≠ z
  body : ∀ o ∈ l.body, o.id ≠ z
  before : ∀ o ∈ l.before, o.id = z → o.kind = k ∧ o.shape = s
  present : ∃ o ∈ l.before, o.id = z

/-- A rewrite step that only adds, annotates or erases operations: the carried
values and the terminator are as before, and an operation `z` before the loop
is kept. -/
structure Grows (z : Nat) (k : OpKind) (s : List Nat) (l l' : ForLoop) : Prop where
  initArgs : l'.initArgs = l.initArgs
  yieldOperands : l'.yieldOperands = l.yieldOperands
  id : l'.id = l.id
  nextId : l.nextId ≤ l'.nextId
  pipeline : l'.pipeline = l.pipeline
  keeps : Keeps z k s l → Keeps z k s l'

/-- A rewrite step that may also replace operands of the terminator: the number
of terminator operands is as before. -/
structure Frame (z : Nat) (k : OpKind) (s : List Nat) (l l' : ForLoop) : Prop where
  initArgs : l'.initArgs = l.initArgs
  yieldLen : l'.yieldOperands.length = l.yieldOperands.length
  id : l'.id = l.id
  nextId : l.nextId ≤ l'.nextId
  pipeline : l'.pipeline = l.pipeline
  keeps : Keeps z k s l → Keeps z k s l'

/-! ### Notions the statements about the analysis use -/

/-- One hop of the backward walk: a carried value of the loop (block argument
`k + 1`) is replaced by the terminator operand of the same slot `k`; any other
value has no hop. -/
def carriedHop (l : ForLoop) : Value → Option Value
  | .loopArg (k + 1) => l.yieldOperands[k]?
  | _ => none

/-- The value reached from `v` after `n` hops, when there are that many. -/
def hops (l : ForLoop) : Nat → Value → Option Value
  | 0, v => some v
  | n + 1, v =>
    match carriedHop l v with
    | some v' => hops l n v'
    | none => none

/-- All operations of the graph: before the loop, inside it, behind it. -/
def ForLoop.allOps (l : ForLoop) : List Op :=
  l.before ++ l.body ++ l.after

/-! ### Further example loops -/

/-- A multi-buffered accumulator that is overridden by a select with two
constant sides.
```
scf.for ... iter_args(%acc = %c2) {
  %10 = tmem_alloc %acc
  tc_gen5_mma %a, %b, %10, %true, %true
  %12 = tmem_load %10
  "use"(%12)
  %14 = arith.select %cond, %c2, %c2
  scf.yield %14
}
``` -/
def exampleBothConstant : ForLoop where
  id := 1
  before := exampleBefore
  initArgs := [.opResult 2 0]
  body :=
    [{ id := 10, kind := .tmemAlloc, operands := [.loopArg 1], shape := [128, 128] },
     { id := 11, kind := .tcGen5MMA, operands := mmaOperands 10 },
     { id := 12, kind := .tmemLoad, operands := [.opResult 10 0] },
     { id := 13, kind := .other, operands := [.opResult 12 0] },
     { id := 14, kind := .select, operands := [.foreignArg 0 2, .opResult 2 0, .opResult 2 0] }]
  yieldOperands := [.opResult 14 0]
  after := []
  nextId := 30

/-- A multi-buffered accumulator that is reset by a select with the constant
on its true side.
```
scf.for ... iter_args(%acc = %c2) {
  %10 = tmem_alloc %acc
  tc_gen5_mma %a, %b, %10, %true, %true
  %12 = tmem_load %10
  "use"(%12)
  %14 = arith.select %cond, %c2, %12
  scf.yield %14
}
``` -/
def exampleConditionalSelect : ForLoop where
  id := 1
  before := exampleBefore
  initArgs := [.opResult 2 0]
  body :=
    [{ id := 10, kind := .tmemAlloc, operands := [.loopArg 1], shape := [128, 128] },
     { id := 11, kind := .tcGen5MMA, operands := mmaOperands 10 },
     { id := 12, kind := .tmemLoad, operands := [.opResult 10 0] },
     { id := 13, kind := .other, operands := [.opResult 12 0] },
     { id := 14, kind := .select, operands := [.foreignArg 0 2, .opResult 2 0, .opResult 12 0] }]
  yieldOperands := [.opResult 14 0]
  after := []
  nextId := 30

/-- The loop `exampleBothConstant` after the driver has processed its MMA with
pipeline depth 2. -/
def exampleBothConstantRewritten : ForLoop :=
  match processMMA exampleEnv 2 10 exampleBothConstant 11 with
  | .ok (l, _) => l
  | .error _ => exampleBothConstant

/-- The loop `exampleConditionalSelect` after the driver has processed its MMA
with pipeline depth 2. -/
def exampleConditionalSelectRewritten : ForLoop :=
  match processMMA exampleEnv 2 10 exampleConditionalSelect 11 with
  | .ok (l, _) => l
  | .error _ => exampleConditionalSelect

/-- A cyclic chain: the select of the carried value and the load is yielded
back into the same carried value.
```
scf.for ... iter_args(%acc = %c2) {
  %10 = tmem_alloc %acc
  tc_gen5_mma %a, %b, %10, %true, %true
  %12 = tmem_load %10
  %13 = arith.select %cond, %acc, %12
  scf.yield %13
}
``` -/
def exampleCyclic : ForLoop where
  id := 1
  before := exampleBefore
  initArgs := [.opResult 2 0]
  body :=
    [{ id := 10, kind := .tmemAlloc, operands := [.loopArg 1], shape := [128, 128] },
     { id := 11, kind := .tcGen5MMA, operands := mmaOperands 10 },
     { id := 12, kind := .tmemLoad, operands := [.opResult 10 0] },
     { id := 13, kind := .select, operands := [.foreignArg 0 2, .loopArg 1, .opResult 12 0] }]
  yieldOperands := [.opResult 13 0]
  after := []
  nextId := 30

/-- The accumulator is reset by a select in front of the storage (an override
in the same iteration) and the load is yielded back.
```
scf.for ... iter_args(%acc = %c2) {
  %9 = arith.select %cond, %c2, %acc
  %10 = tmem_alloc %9
  tc_gen5_mma %a, %b, %10, %true, %true
  %12 = tmem_load %10
  scf.yield %12
}
``` -/
def exampleSelectBeforeAlloc : ForLoop where
  id := 1
  before := exampleBefore
  initArgs := [.opResult 2 0]
  body :=
    [{ id := 9, kind := .select, operands := [.foreignArg 0 2, .opResult 2 0, .loopArg 1] },
     { id := 10, kind := .tmemAlloc, operands := [.opResult 9 0], shape := [128, 128] },
     { id := 11, kind := .tcGen5MMA, operands := mmaOperands 10 },
     { id := 12, kind := .tmemLoad, operands := [.opResult 10 0] }]
  yieldOperands := [.opResult 12 0]
  after := []
  nextId := 30

/-- The accumulator is reset by a select behind the load, and the load has no
other consumer.
```
scf.for ... iter_args(%acc = %c2) {
  %10 = tmem_alloc %acc
  tc_gen5_mma %a, %b, %10, %true, %true
  %12 = tmem_load %10
  %13 = arith.select %cond, %c2, %12
  scf.yield %13
}
``` -/
def exampleSelectReset : ForLoop where
  id := 1
  before := exampleBefore
  initArgs := [.opResult 2 0]
  body :=
    [{ id := 10, kind := .tmemAlloc, operands := [.loopArg 1], shape := [128, 128] },
     { id := 11, kind := .tcGen5MMA, operands := mmaOperands 10 },
     { id := 12, kind := .tmemLoad, operands := [.opResult 10 0] },
     { id := 13, kind := .select, operands := [.foreignArg 0 2, .opResult 2 0, .opResult 12 0] }]
  yieldOperands := [.opResult 13 0]
  after := []
  nextId := 30

/-- Every operation of `l` is still in `l'`, with its identifier and kind. -/
def Preserved (l l' : ForLoop) : Prop :=
  ∀ o ∈ l.allOps, ∃ o' ∈ l'.allOps, o'.id = o.id ∧ o'.kind = o.kind

/-- The override point of `exampleConditionalSelect`, as `updateAccDefsInLoop`
gets it: the select 14, its condition and the constant of its true side; the
insert and extract index are the carried values of the slots 3 and 4. -/
def exampleDefsInfo : MMAInfo where
  accAlloc := { id := 10, kind := .tmemAlloc, operands := [.loopArg 1], shape := [128, 128] }
  accLoad := { id := 12, kind := .tmemLoad, operands := [.opResult 10 0] }
  accDef := some { op := 14, condition := some (.foreignArg 0 2),
                   initValue := some (.opResult 2 0), distance := 1 }
  yieldArgNo := some 0
  accIsMultiBuffered := true
  phase := .loopArg 2
  barrierIdx := .loopArg 3
  accInsertIdx := .loopArg 4
  accExtractIdx := .loopArg 5

/-- The loop `exampleConditionalSelect` with the four new carried values and
the accumulator slot short-circuited, so that the select 14 has no user. -/
def exampleDefsInput : ForLoop :=
  { exampleConditionalSelect with
    initArgs := [.opResult 2 0, .opResult 4 0, .opResult 4 0, .opResult 4 0, .opResult 4 0]
    yieldOperands := [.opResult 2 0, .loopArg 2, .loopArg 3, .loopArg 4, .loopArg 5] }

/-- What `updateAccDefsInLoop` makes of `exampleDefsInput`. -/
def exampleDefsResult : ForLoop × MMAInfo :=
  match updateAccDefsInLoop exampleDefsInput exampleDefsInfo (.opResult 5 0) 2 with
  | .ok r => r
  | .error _ => (exampleDefsInput, exampleDefsInfo)

/-! ### Notions the statements about `trackAccChain` use -/

/-- A use leads over a divergent edge to the value `w`: the use by the loop
terminator leads to the carried value of the slot, the use by the terminator
of a region of an `scf.if` to the result of the `scf.if`, the use by a select
to the result of the select. -/
def UseEdge (l : ForLoop) (u : Use) (w : Value) : Prop :=
  (u.owner = .terminator ∧ w = .loopArg (u.operandNumber + 1)) ∨
  (∃ o p r, u.owner = .op o ∧ o.kind = .yield ∧ o.parent = some (p, r) ∧
    l.kindOf p = .ifOp ∧ w = .opResult p u.operandNumber) ∨
  (∃ o, u.owner = .op o ∧ o.kind = .select ∧ w = .opResult o.id 0)

/-- A use whose owner is neither a terminator (yield), a select, nor the
accumulator storage. -/
def UseOther (accAlloc : Op) (u : Use) : Prop :=
  ∃ o, u.owner = .op o ∧ o.kind ≠ .yield ∧ o.kind ≠ .select ∧ o.id ≠ accAlloc.id

/-- A divergent edge from the value `v` to the value `w`. -/
def ChainEdge (l : ForLoop) (v w : Value) : Prop :=
  ∃ u ∈ l.usesOf v, UseEdge l u w

/-- The value `v` has a use owned by an operation that is neither a
terminator, a select, nor the accumulator storage. -/
def OtherUse (l : ForLoop) (accAlloc : Op) (v : Value) : Prop :=
  ∃ u ∈ l.usesOf v, UseOther accAlloc u

/-- The loop of `trackAccChain` (lines 96-121) with the order in which
`getUses()` lists the uses of a value left open: `uses` is the enumeration. -/
def trackAccChainLoopWith (l : ForLoop) (uses : Value → List Use) (accAlloc : Op) :
    Nat → ChainState → Except Err ChainState
  | 0, st => if st.queue.isEmpty then .ok st else .error .outOfFuel
  | fuel + 1, st =>
    match st.queue with
    | [] => .ok st
    | info :: rest =>
      match (uses info.value).foldlM (trackAccChainUse l accAlloc info)
          { st with queue := rest } with
      | .ok st' => trackAccChainLoopWith l uses accAlloc fuel st'
      | .error e => .error e

/-- The function `trackAccChain` (lines 84-123) with the enumeration `uses` of
the uses of a value. -/
def trackAccChainWith (l : ForLoop) (uses : Value → List Use) (accDef accAlloc : Op)
    (fuel : Nat) : Except Err (Option Nat × Bool) :=
  match trackAccChainLoopWith l uses accAlloc fuel
      { queue := [⟨.opResult accDef.id 0, none, false⟩], yieldArgNo := none,
        hasDivergentUses := false } with
  | .ok st => .ok (st.yieldArgNo, st.hasDivergentUses)
  | .error e => .error e

/-- State of `trackAccChain` on `exampleCyclic` with the result of the select
on the work list. -/
def cyclicAtSelect : ChainState :=
  { queue := [⟨.opResult 13 0, some 0, true⟩], yieldArgNo := some 0,
    hasDivergentUses := false }

/-- State of `trackAccChain` on `exampleCyclic` with the carried value on the
work list. -/
def cyclicAtCarried : ChainState :=
  { queue := [⟨.loopArg 1, some 0, true⟩], yieldArgNo := some 0,
    hasDivergentUses := false }

/-! ### Notions the statements about the stage propagation use -/

/-- Representation invariant of a schedule of the loop: at most one entry for
a key, and every key is an operation inside the loop or the terminator. -/
structure KeyInv (l : ForLoop) (s : CoarseSchedule) : Prop where
  nodup : (s.entries.map fun e => e.1).Nodup
  keys : ∀ e ∈ s.entries, e.1 ∈ l.keys

/-- The key `k` is reached from `op` along user edges through operations that
have no entry in the schedule `s`. -/
inductive ReachedUnscheduled (l : ForLoop) (s : CoarseSchedule) (op : SchedKey) :
    SchedKey → Prop
  | user {k : SchedKey} : k ∈ usersOfKey l op → s.count k = false →
      ReachedUnscheduled l s op k
  | step {k k' : SchedKey} : ReachedUnscheduled l s op k → k' ∈ usersOfKey l k →
      s.count k' = false → ReachedUnscheduled l s op k'

/-- What a propagation along the edges `nbrs` does to a schedule `s`: entries
are added behind the old ones, each for a key without entry in `s` and in the
given stage, and the neighbours of every key that got an entry have an entry. -/
structure Extended (nbrs : SchedKey → List SchedKey) (stage : Int)
    (s s' : CoarseSchedule) : Prop where
  numStages : s'.numStages = s.numStages
  entries : ∃ added, s'.entries = s.entries ++ added ∧
    ∀ e ∈ added, e.2 = stage ∧ s.count e.1 = false
  closed : ∀ k, s'.count k = true → s.count k = false → ∀ u ∈ nbrs k, s'.count u = true

/-- The record `MMAInfo` the driver builds for the MMA of `exampleSelectReset`:
the chain closes on slot 0, the override is the select 13 at distance 1, and
the load has no direct consumer, so the rewrite is single-buffered. -/
def exampleSelectResetInfo : MMAInfo where
  accAlloc := { id := 10, kind := .tmemAlloc, operands := [.loopArg 1], shape := [128, 128] }
  accLoad := { id := 12, kind := .tmemLoad, operands := [.opResult 10 0] }
  accDef := some { op := 13, condition := some (.foreignArg 0 2),
                   initValue := some (.opResult 2 0), distance := 1 }
  yieldArgNo := some 0
  accIsMultiBuffered := false
  phase := .loopArg 2
  barrierIdx := .loopArg 3
  accInsertIdx := .loopArg 4
  accExtractIdx := .loopArg 5

/-- The loop `exampleSelectReset` as `rewriteMMA` hands it to
`hoistAndUseTMemAlloc` (lines 692-715): with the constant zero before the loop,
the four new carried values, and the MMA annotated with stage 0. -/
def exampleSelectResetSignature : ForLoop :=
  let b := ({ loop := exampleSelectReset, ip := .beforeLoop } : Builder).create
    (.constantInt 0 32) []
  let zeroVal := b.lastValue
  annotateWithPipelineStage
    (appendToForOpYield (replaceForOpWithNewSignature b.loop [zeroVal, zeroVal, zeroVal, zeroVal])
      [.loopArg 2, .loopArg 3, .loopArg 4, .loopArg 5]) 11 0

/-- The graph of `exampleSelectReset` inside `hoistAndUseTMemAlloc` right before
the old load is erased (line 541): the storage is hoisted, the MMA uses it, and
the terminator operand of slot 0 is short-circuited. -/
def exampleSelectResetBeforeErase : ForLoop :=
  match hoistAlloc exampleSelectResetSignature exampleSelectResetInfo 2 with
  | .error _ => exampleSelectResetSignature
  | .ok (l0, newAllocId) =>
    let newAlloc : Value := .opResult newAllocId 0
    let l1 := useHoistedAlloc l0 11 exampleSelectResetInfo newAlloc
    match updateAccUsesInLoop l1 exampleSelectResetInfo newAlloc 2 with
    | .error _ => l1
    | .ok l2 =>
      let l3 := updateAccUsesOutsideLoop l2 exampleSelectResetInfo newAlloc 4
      match shortCircuitAccumulator l3 exampleSelectResetInfo.yieldArgNo with
      | .error _ => l3
      | .ok l4 => l4

/-- An MMA inside an `scf.if` of the loop: the storage has no input, and the
load is consumed inside the `scf.if`.
```
scf.for ... {
  scf.if %cond {
    %10 = tmem_alloc
    tc_gen5_mma %a, %b, %10, %true, %true
    %12 = tmem_load %10
    "use"(%12)
  }
}
``` -/
def exampleNestedMMA : ForLoop where
  id := 1
  before := exampleBefore
  initArgs := []
  body :=
    [{ id := 9, kind := .ifOp, operands := [.foreignArg 0 2] },
     { id := 10, kind := .tmemAlloc, operands := [], parent := some (9, 0),
       shape := [128, 128] },
     { id := 11, kind := .tcGen5MMA, operands := mmaOperands 10, parent := some (9, 0) },
     { id := 12, kind := .tmemLoad, operands := [.opResult 10 0], parent := some (9, 0) },
     { id := 13, kind := .other, operands := [.opResult 12 0], parent := some (9, 0) }]
  yieldOperands := []
  after := []
  nextId := 30

/-- The loop `exampleNestedMMA` after the driver has processed its MMA with
pipeline depth 2. -/
def exampleNestedMMARewritten : ForLoop :=
  match processMMA exampleEnv 2 10 exampleNestedMMA 11 with
  | .ok (l, _) => l
  | .error _ => exampleNestedMMA

/-! ## Theorems of the arithmetic layer -/

theorem constI32_of_lt {n : Nat} (h : n < 2 ^ 32) : constI32 n = n :=
  Nat.mod_eq_of_lt h

/-- One step of the barrier ring on an in-range index. -/
theorem createBarrierAndWaitOpsSem_step (N i p : Nat) (hlt : N < 2 ^ 31) (hi : i < N) :
    (createBarrierAndWaitOpsSem N i p).newBarrierIdx = (if i + 1 = N then 0 else i + 1) ∧
    (createBarrierAndWaitOpsSem N i p).newPhase = (if i + 1 = N then xori p 1 else p) := by
  have h1 : constI32 1 = 1 := rfl
  have h0 : constI32 0 = 0 := rfl
  have hN : constI32 N = N := constI32_of_lt (by omega)
  have hadd : addi i 1 = i + 1 := Nat.mod_eq_of_lt (by omega)
  simp [createBarrierAndWaitOpsSem, h1, h0, hN, hadd, cmpiEq, arithSelect]

theorem accIdxState_eq (numStages : Nat) (conds : Option (Nat → Bool)) (k : Nat) :
    (accIdxState numStages conds k).2 = (accIdxState numStages conds k).1 := by
  induction k with
  | zero => rfl
  | succ k ih => simp only [accIdxState, updateAccDefsInLoopSem, ih]

/-- Claim C2, as stated, fails: with `numStages = 2` and no override condition
the carried extract index equals the carried insert index in iteration 0 (both
are the initial zero), and again in iteration 1 (both are 1). -/
theorem C2_extract_ne_insert_counterexample :
    ¬ (∀ numStages, 2 ≤ numStages → ∀ (conds : Option (Nat → Bool)) (k : Nat),
        (accIdxState numStages conds k).2 ≠ (accIdxState numStages conds k).1) := by
  intro h
  exact h 2 (by decide) none 0 rfl

/-- Claim C2, amended. For every pipeline depth, every iteration and every
sequence of override-condition values, the loop-carried accumulator extract
index is equal to the loop-carried accumulator insert index: both start at
zero and `updateAccDefsInLoop` updates both by the same rule under the same
condition. -/
theorem C2_extract_eq_insert (numStages : Nat) (conds : Option (Nat → Bool)) (k : Nat) :
    (accIdxState numStages conds k).2 = (accIdxState numStages conds k).1 :=
  accIdxState_eq numStages conds k

/-! ## Theorems of the structural layer: builder steps -/

theorem Grows.same (z : Nat) (k : OpKind) (s : List Nat) (l : ForLoop) : Grows z k s l l :=
  ⟨rfl, rfl, rfl, Nat.le_refl _, rfl, fun h => h⟩

theorem Grows.andThen {z : Nat} {k : OpKind} {s : List Nat} {a b c : ForLoop}
    (h1 : Grows z k s a b) (h2 : Grows z k s b c) : Grows z k s a c :=
  ⟨h2.initArgs.trans h1.initArgs, h2.yieldOperands.trans h1.yieldOperands,
   h2.id.trans h1.id, Nat.le_trans h1.nextId h2.nextId, h2.pipeline.trans h1.pipeline,
   fun h => h2.keeps (h1.keeps h)⟩

theorem Frame.unchanged (z : Nat) (k : OpKind) (s : List Nat) (l : ForLoop) : Frame z k s l l :=
  ⟨rfl, rfl, rfl, Nat.le_refl _, rfl, fun h => h⟩

theorem Frame.followedBy {z : Nat} {k : OpKind} {s : List Nat} {a b c : ForLoop}
    (h1 : Frame z k s a b) (h2 : Frame z k s b c) : Frame z k s a c :=
  ⟨h2.initArgs.trans h1.initArgs, h2.yieldLen.trans h1.yieldLen,
   h2.id.trans h1.id, Nat.le_trans h1.nextId h2.nextId, h2.pipeline.trans h1.pipeline,
   fun h => h2.keeps (h1.keeps h)⟩

theorem Grows.frame {z : Nat} {k : OpKind} {s : List Nat} {a b : ForLoop}
    (h : Grows z k s a b) : Frame z k s a b :=
  ⟨h.initArgs, by rw [h.yieldOperands], h.id, h.nextId, h.pipeline, h.keeps⟩

theorem mem_insertBefore {ref : Nat} {new x : Op} {ops : List Op}
    (h : x ∈ insertBefore ref new ops) : x ∈ ops ∨ x.id = new.id := by
  induction ops with
  | nil => simp [insertBefore] at h
  | cons o os ih =>
    unfold insertBefore at h
    split at h
    · rcases List.mem_cons.1 h with h | h
      · right; rw [h]
      · left; exact h
    · rcases List.mem_cons.1 h with h | h
      · left; rw [h]; exact List.mem_cons_self _ _
      · rcases ih h with h | h
        · left; exact List.mem_cons_of_mem _ h
        · right; exact h

theorem mem_insertBefore_of_mem {ref : Nat} {new x : Op} {ops : List Op}
    (h : x ∈ ops) : x ∈ insertBefore ref new ops := by
  induction ops with
  | nil => cases h
  | cons o os ih =>
    unfold insertBefore
    split
    · exact List.mem_cons_of_mem _ h
    · rcases List.mem_cons.1 h with h | h
      · rw [h]; exact List.mem_cons_self _ _
      · exact List.mem_cons_of_mem _ (ih h)

theorem mem_insertBehindNested {new x : Op} {sub : List Nat} {ops : List Op}
    (h : x ∈ insertBehindNested new sub ops) : x ∈ ops ∨ x = new := by
  induction ops generalizing sub with
  | nil =>
    simp only [insertBehindNested, List.mem_singleton] at h
    exact Or.inr h
  | cons o os ih =>
    unfold insertBehindNested at h
    split at h
    · split at h
      · rcases List.mem_cons.1 h with h | h
        · left; rw [h]; exact List.mem_cons_self _ _
        · rcases ih h with h | h
          · left; exact List.mem_cons_of_mem _ h
          · right; exact h
      · rcases List.mem_cons.1 h with h | h
        · right; exact h
        · left; exact h
    · rcases List.mem_cons.1 h with h | h
      · right; exact h
      · left; exact h

theorem mem_insertBehindNested_of_mem {new x : Op} {sub : List Nat} {ops : List Op}
    (h : x ∈ ops) : x ∈ insertBehindNested new sub ops := by
  induction ops generalizing sub with
  | nil => cases h
  | cons o os ih =>
    unfold insertBehindNested
    split
    · split
      · rcases List.mem_cons.1 h with h | h
        · rw [h]; exact List.mem_cons_self _ _
        · exact List.mem_cons_of_mem _ (ih h)
      · exact List.mem_cons_of_mem _ h
    · exact List.mem_cons_of_mem _ h

theorem mem_insertAfter {ref : Nat} {new x : Op} {ops : List Op}
    (h : x ∈ insertAfter ref new ops) : x ∈ ops ∨ x.id = new.id := by
  induction ops with
  | nil => simp [insertAfter] at h
  | cons o os ih =>
    unfold insertAfter at h
    split at h
    · rcases List.mem_cons.1 h with h | h
      · left; rw [h]; exact List.mem_cons_self _ _
      · rcases mem_insertBehindNested h with h | h
        · left; exact List.mem_cons_of_mem _ h
        · right; rw [h]
    · rcases List.mem_cons.1 h with h | h
      · left; rw [h]; exact List.mem_cons_self _ _
      · rcases ih h with h | h
        · left; exact List.mem_cons_of_mem _ h
        · right; exact h

theorem mem_insertAfter_of_mem {ref : Nat} {new x : Op} {ops : List Op}
    (h : x ∈ ops) : x ∈ insertAfter ref new ops := by
  induction ops with
  | nil => cases h
  | cons o os ih =>
    unfold insertAfter
    split
    · rcases List.mem_cons.1 h with h | h
      · rw [h]; exact List.mem_cons_self _ _
      · exact List.mem_cons_of_mem _ (mem_insertBehindNested_of_mem h)
    · rcases List.mem_cons.1 h with h | h
      · rw [h]; exact List.mem_cons_self _ _
      · exact List.mem_cons_of_mem _ (ih h)

/-- What `insertAt` does to the three lists of operations: an operation of the
new graph is an old one of the same list or carries the new identifier, and
the old operations stay in their list. -/
theorem insertAt_lists (l : ForLoop) (ip : InsertPt) (new : Op) :
    ((∀ x ∈ (l.insertAt ip new).before, x ∈ l.before ∨ x.id = new.id) ∧
     (∀ x ∈ (l.insertAt ip new).body, x ∈ l.body ∨ x.id = new.id) ∧
     (∀ x ∈ (l.insertAt ip new).after, x ∈ l.after ∨ x.id = new.id)) ∧
    ((∀ x ∈ l.before, x ∈ (l.insertAt ip new).before) ∧
     (∀ x ∈ l.body, x ∈ (l.insertAt ip new).body) ∧
     (∀ x ∈ l.after, x ∈ (l.insertAt ip new).after)) := by
  unfold ForLoop.insertAt
  cases ip with
  | beforeLoop =>
    refine ⟨⟨fun x hx => ?_, fun x hx => Or.inl hx, fun x hx => Or.inl hx⟩,
      fun x hx => List.mem_append_left _ hx, fun x hx => hx, fun x hx => hx⟩
    rcases List.mem_append.1 hx with h | h
    · exact Or.inl h
    · right; rw [List.mem_singleton.1 h]
  | afterLoop k =>
    refine ⟨⟨fun x hx => Or.inl hx, fun x hx => Or.inl hx, fun x hx => ?_⟩,
      fun x hx => hx, fun x hx => hx, fun x hx => ?_⟩
    · rcases List.mem_append.1 hx with h | h
      · exact Or.inl (List.mem_of_mem_take h)
      · rcases List.mem_cons.1 h with h | h
        · right; rw [h]
        · exact Or.inl (List.mem_of_mem_drop h)
    · have hx' : x ∈ List.take k l.after ++ List.drop k l.after := by
        rw [List.take_append_drop]; exact hx
      rcases List.mem_append.1 hx' with h | h
      · exact List.mem_append_left _ h
      · exact List.mem_append_right _ (List.mem_cons_of_mem _ h)
  | before ref =>
    simp only
    split
    · refine ⟨⟨fun x hx => ?_, fun x hx => Or.inl hx, fun x hx => Or.inl hx⟩,
        fun x hx => List.mem_append_left _ hx, fun x hx => hx, fun x hx => hx⟩
      rcases List.mem_append.1 hx with h | h
      · exact Or.inl h
      · right; rw [List.mem_singleton.1 h]
    · split
      · exact ⟨⟨fun x hx => Or.inl hx, fun x hx => mem_insertBefore hx, fun x hx => Or.inl hx⟩,
          fun x hx => hx, fun x hx => mem_insertBefore_of_mem hx, fun x hx => hx⟩
      · split
        · exact ⟨⟨fun x hx => mem_insertBefore hx, fun x hx => Or.inl hx,
            fun x hx => Or.inl hx⟩,
            fun x hx => mem_insertBefore_of_mem hx, fun x hx => hx, fun x hx => hx⟩
        · exact ⟨⟨fun x hx => Or.inl hx, fun x hx => Or.inl hx,
            fun x hx => mem_insertBefore hx⟩,
            fun x hx => hx, fun x hx => hx, fun x hx => mem_insertBefore_of_mem hx⟩
  | after ref =>
    simp only
    split
    · refine ⟨⟨fun x hx => Or.inl hx, fun x hx => Or.inl hx, fun x hx => ?_⟩,
        fun x hx => hx, fun x hx => hx, fun x hx => List.mem_cons_of_mem _ hx⟩
      rcases List.mem_cons.1 hx with h | h
      · right; rw [h]
      · exact Or.inl h
    · split
      · exact ⟨⟨fun x hx => Or.inl hx, fun x hx => mem_insertAfter hx, fun x hx => Or.inl hx⟩,
          fun x hx => hx, fun x hx => mem_insertAfter_of_mem hx, fun x hx => hx⟩
      · split
        · exact ⟨⟨fun x hx => mem_insertAfter hx, fun x hx => Or.inl hx,
            fun x hx => Or.inl hx⟩,
            fun x hx => mem_insertAfter_of_mem hx, fun x hx => hx, fun x hx => hx⟩
        · exact ⟨⟨fun x hx => Or.inl hx, fun x hx => Or.inl hx,
            fun x hx => mem_insertAfter hx⟩,
            fun x hx => hx, fun x hx => hx, fun x hx => mem_insertAfter_of_mem hx⟩

theorem insertAt_fields (l : ForLoop) (ip : InsertPt) (new : Op) :
    (l.insertAt ip new).initArgs = l.initArgs ∧
    (l.insertAt ip new).yieldOperands = l.yieldOperands ∧
    (l.insertAt ip new).id = l.id ∧
    (l.insertAt ip new).nextId = l.nextId ∧
    (l.insertAt ip new).pipeline = l.pipeline := by
  unfold ForLoop.insertAt
  cases ip with
  | beforeLoop => exact ⟨rfl, rfl, rfl, rfl, rfl⟩
  | afterLoop k => exact ⟨rfl, rfl, rfl, rfl, rfl⟩
  | before ref => simp only; (repeat' split) <;> exact ⟨rfl, rfl, rfl, rfl, rfl⟩
  | after ref => simp only; (repeat' split) <;> exact ⟨rfl, rfl, rfl, rfl, rfl⟩

theorem create_nextId (b : Builder) (kind : OpKind) (operands : List Value) (shape : List Nat) :
    (b.create kind operands shape).loop.nextId = b.loop.nextId + 1 := by
  simp only [Builder.create, (insertAt_fields _ _ _).2.2.2.1]

theorem grows_create {z : Nat} {k : OpKind} {s : List Nat} {l : ForLoop} {b : Builder}
    (kind : OpKind) (operands : List Value) (shape : List Nat)
    (h : Grows z k s l b.loop) : Grows z k s l (b.create kind operands shape).loop := by
  refine h.andThen ?_
  have hf := insertAt_fields b.loop b.ip (newOp b.loop.nextId kind operands shape)
  have hl := insertAt_lists b.loop b.ip (newOp b.loop.nextId kind operands shape)
  refine ⟨hf.1, hf.2.1, hf.2.2.1, ?_, hf.2.2.2.2, fun hk => ?_⟩
  · rw [create_nextId]; exact Nat.le_succ _
  · refine ⟨?_, ?_, ?_, ?_, ?_⟩
    · rw [create_nextId]; exact Nat.lt_succ_of_lt hk.fresh
    · exact hf.2.2.1 ▸ hk.notLoop
    · intro o ho
      rcases hl.1.2.1 o ho with h | h
      · exact hk.body o h
      · rw [h]; exact Nat.ne_of_gt hk.fresh
    · intro o ho hz
      rcases hl.1.1 o ho with h | h
      · exact hk.before o h hz
      · exact absurd (h.symm.trans hz) (Nat.ne_of_gt hk.fresh)
    · obtain ⟨o, ho, hz⟩ := hk.present
      exact ⟨o, hl.2.1 o ho, hz⟩

/-- An operation keeps its identifier, kind and shape. -/
theorem Keeps.of_map {z : Nat} {k : OpKind} {s : List Nat} {l l' : ForLoop}
    (g1 g2 : Op → Op)
    (h1 : ∀ o, (g1 o).id = o.id ∧ (g1 o).kind = o.kind ∧ (g1 o).shape = o.shape)
    (h2 : ∀ o, (g2 o).id = o.id)
    (hbefore : l'.before = l.before.map g1) (hbody : l'.body = l.body.map g2)
    (hid : l'.id = l.id) (hn : l.nextId ≤ l'.nextId) (hk : Keeps z k s l) :
    Keeps z k s l' := by
  refine ⟨Nat.lt_of_lt_of_le hk.fresh hn, hid ▸ hk.notLoop, ?_, ?_, ?_⟩
  · intro o ho
    rw [hbody] at ho
    obtain ⟨o0, ho0, rfl⟩ := List.mem_map.1 ho
    rw [h2 o0]; exact hk.body o0 ho0
  · intro o ho hz
    rw [hbefore] at ho
    obtain ⟨o0, ho0, rfl⟩ := List.mem_map.1 ho
    rw [(h1 o0).1] at hz
    rw [(h1 o0).2.1, (h1 o0).2.2]
    exact hk.before o0 ho0 hz
  · obtain ⟨o, ho, hz⟩ := hk.present
    refine ⟨g1 o, ?_, (h1 o).1.trans hz⟩
    rw [hbefore]; exact List.mem_map_of_mem _ ho

theorem grows_updateOp {z : Nat} {k : OpKind} {s : List Nat} (l : ForLoop) (id : Nat)
    (f : Op → Op)
    (hf : ∀ o, (f o).id = o.id ∧ (f o).kind = o.kind ∧ (f o).shape = o.shape) :
    Grows z k s l (l.updateOp id f) := by
  refine ⟨rfl, rfl, rfl, Nat.le_refl _, rfl, fun hk => ?_⟩
  have hg : ∀ o : Op, (if o.id = id then f o else o).id = o.id ∧
      (if o.id = id then f o else o).kind = o.kind ∧
      (if o.id = id then f o else o).shape = o.shape := by
    intro o; split
    · exact hf o
    · exact ⟨rfl, rfl, rfl⟩
  exact Keeps.of_map (fun o => if o.id = id then f o else o)
    (fun o => if o.id = id then f o else o) hg (fun o => (hg o).1) rfl rfl rfl
    (Nat.le_refl _) hk

theorem grows_annotate {z : Nat} {k : OpKind} {s : List Nat} {l0 : ForLoop} (l : ForLoop)
    (op : Nat) (stage : Int) (h : Grows z k s l0 l) :
    Grows z k s l0 (annotateWithPipelineStage l op stage) :=
  h.andThen (grows_updateOp l op _ fun _ => ⟨rfl, rfl, rfl⟩)

theorem grows_replaceUsesOfWith {z : Nat} {k : OpKind} {s : List Nat} {l0 : ForLoop}
    (l : ForLoop) (op : Nat) (old new : Value) (h : Grows z k s l0 l) :
    Grows z k s l0 (l.replaceUsesOfWith op old new) :=
  h.andThen (grows_updateOp l op _ fun _ => ⟨rfl, rfl, rfl⟩)

theorem grows_assignMMAOperand {z : Nat} {k : OpKind} {s : List Nat} {l0 : ForLoop}
    (l : ForLoop) (mmaOp : Nat) (i : Option Nat) (v : Value) (h : Grows z k s l0 l) :
    Grows z k s l0 (assignMMAOperand l mmaOp i v) := by
  unfold assignMMAOperand
  cases i with
  | none => exact h
  | some i =>
    refine h.andThen (grows_updateOp l mmaOp _ fun o => ?_)
    split <;> exact ⟨rfl, rfl, rfl⟩

theorem grows_eraseOp {z : Nat} {k : OpKind} {s : List Nat} {l l' : ForLoop} {id : Nat}
    (h : l.eraseOp id = .ok l') (hz : Keeps z k s l → id ≠ z) : Grows z k s l l' := by
  unfold ForLoop.eraseOp at h
  split at h
  · cases h
    refine ⟨rfl, rfl, rfl, Nat.le_refl _, rfl, fun hk => ?_⟩
    refine ⟨hk.fresh, hk.notLoop, ?_, ?_, ?_⟩
    · intro o ho
      exact hk.body o (List.mem_filter.1 ho).1
    · intro o ho
      exact hk.before o (List.mem_filter.1 ho).1
    · obtain ⟨o, ho, hoz⟩ := hk.present
      refine ⟨o, List.mem_filter.2 ⟨ho, ?_⟩, hoz⟩
      simp only [removeOp, bne_iff_ne, ne_eq]
      rw [hoz]; exact fun h => hz hk h.symm
  · cases h

theorem grows_createSingleBufferView {z : Nat} {k : OpKind} {s : List Nat} {l : ForLoop}
    {b : Builder} (alloc idx : Value) (h : Grows z k s l b.loop) :
    Grows z k s l (createSingleBufferView b alloc idx).loop := by
  unfold createSingleBufferView
  simp only
  split <;> repeat (first | exact h | apply grows_create)

theorem grows_createSingleBufferViewAt {z : Nat} {k : OpKind} {s : List Nat} {l : ForLoop}
    {b : Builder} (alloc : Value) (idx : Nat) (h : Grows z k s l b.loop) :
    Grows z k s l (createSingleBufferViewAt b alloc idx).loop := by
  unfold createSingleBufferViewAt
  exact grows_createSingleBufferView _ _ (grows_create _ _ _ h)

theorem grows_foldl {z : Nat} {k : OpKind} {s : List Nat} {l : ForLoop} {α : Type}
    (f : Builder → α → Builder)
    (hf : ∀ b x, Grows z k s l b.loop → Grows z k s l (f b x).loop)
    (xs : List α) (b : Builder) (h : Grows z k s l b.loop) :
    Grows z k s l (xs.foldl f b).loop := by
  induction xs generalizing b with
  | nil => exact h
  | cons x xs ih => exact ih (f b x) (hf b x h)

theorem grows_createBarrierAlloc {z : Nat} {k : OpKind} {s : List Nat} (l : ForLoop)
    (numStages : Nat) : Grows z k s l (createBarrierAlloc l numStages).1 := by
  unfold createBarrierAlloc
  simp only
  apply grows_foldl
  · intro b x hb
    exact grows_create _ _ _ (grows_createSingleBufferViewAt _ _ hb)
  · exact grows_create _ _ _ (Grows.same _ _ _ _)

theorem grows_invalidateAndDeallocBarrier {z : Nat} {k : OpKind} {s : List Nat}
    (l : ForLoop) (barrierAlloc : Value) (numStages : Nat) :
    Grows z k s l (invalidateAndDeallocBarrier l barrierAlloc numStages) := by
  unfold invalidateAndDeallocBarrier
  simp only
  apply grows_create
  apply grows_foldl
  · intro b x hb
    exact grows_create _ _ _ (grows_createSingleBufferViewAt _ _ hb)
  · exact Grows.same _ _ _ _

theorem grows_createTMemAlloc {z : Nat} {k : OpKind} {s : List Nat} {l : ForLoop}
    {b : Builder} (old : Op) (multi : Bool) (numStages : Nat) (h : Grows z k s l b.loop) :
    Grows z k s l (createTMemAlloc b old multi numStages).loop := by
  unfold createTMemAlloc
  exact grows_create _ _ _ h

theorem grows_createInitStore {z : Nat} {k : OpKind} {s : List Nat} {l : ForLoop}
    {b : Builder} (allocOp initVal : Value) (multi : Bool) (h : Grows z k s l b.loop) :
    Grows z k s l (createInitStore b allocOp initVal multi).loop := by
  unfold createInitStore
  simp only
  apply grows_create
  apply grows_create
  split
  · exact grows_createSingleBufferViewAt _ _ h
  · exact h

theorem grows_emitNextIdx {z : Nat} {k : OpKind} {s : List Nat} {l : ForLoop}
    {b : Builder} (idx numStagesVal : Value) (condition : Option Value)
    (h : Grows z k s l b.loop) :
    Grows z k s l (emitNextIdx b idx numStagesVal condition).loop := by
  unfold emitNextIdx
  simp only
  split <;> repeat (first | exact h | apply grows_create)

theorem grows_emitInitStore {z : Nat} {k : OpKind} {s : List Nat} {l : ForLoop}
    {b : Builder} (newAlloc newInsertIdx : Value) (accDef : AccOverridePoint)
    (h : Grows z k s l b.loop) :
    Grows z k s l (emitInitStore b newAlloc newInsertIdx accDef).loop := by
  unfold emitInitStore
  split
  · simp only
    apply grows_annotate
    apply grows_create
    apply grows_create
    exact grows_createSingleBufferView _ _ h
  · exact h

theorem grows_foldl_replaceUsesOfWith {z : Nat} {k : OpKind} {s : List Nat} {l0 : ForLoop}
    (old new : Value) (users : List Op) (l : ForLoop) (h : Grows z k s l0 l) :
    Grows z k s l0
      (users.foldl (fun l user => l.replaceUsesOfWith user.id old new) l) := by
  induction users generalizing l with
  | nil => exact h
  | cons u us ih => exact ih _ (grows_replaceUsesOfWith l u.id old new h)

theorem grows_loadFromBuffer {z : Nat} {k : OpKind} {s : List Nat} {l : ForLoop}
    {b : Builder} (multi : Bool) (newAlloc idx : Value) (h : Grows z k s l b.loop) :
    Grows z k s l (loadFromBuffer b multi newAlloc idx).loop := by
  unfold loadFromBuffer
  split
  · exact grows_create _ _ _ (grows_createSingleBufferView _ _ h)
  · exact grows_create _ _ _ h

theorem grows_annotateAncestorInBody {z : Nat} {k : OpKind} {s : List Nat} {l0 : ForLoop}
    (l : ForLoop) (op : Nat) (stage : Int) (h : Grows z k s l0 l) :
    Grows z k s l0 (annotateAncestorInBody l op stage) := by
  unfold annotateAncestorInBody
  split
  · split
    · exact grows_annotate _ _ _ h
    · exact h
  · exact h

theorem grows_updateAccUsesInLoop {z : Nat} {k : OpKind} {s : List Nat} {l l' : ForLoop}
    {info : MMAInfo} {newAlloc : Value} {numStages : Nat}
    (h : updateAccUsesInLoop l info newAlloc numStages = .ok l') : Grows z k s l l' := by
  unfold updateAccUsesInLoop at h
  simp only at h
  split at h
  · cases h; exact Grows.same _ _ _ _
  · split at h
    · cases h
    · cases h
      apply grows_foldl_replaceUsesOfWith
      apply grows_annotateAncestorInBody
      exact grows_loadFromBuffer _ _ _ (Grows.same _ _ _ _)

theorem findIn_eq_none {ops : List Op} {id : Nat} (h : ∀ o ∈ ops, o.id ≠ id) :
    findIn ops id = none := by
  unfold findIn
  rw [List.find?_eq_none]
  intro o ho
  simpa using h o ho

theorem findIn_some {ops : List Op} {id : Nat} {o : Op} (h : findIn ops id = some o) :
    o ∈ ops ∧ o.id = id := by
  unfold findIn at h
  refine ⟨List.mem_of_find?_eq_some h, ?_⟩
  simpa using List.find?_some h

theorem findIn_isSome_of_mem {ops : List Op} {o : Op} (h : o ∈ ops) :
    ∃ o', findIn ops o.id = some o' := by
  unfold findIn
  cases hf : ops.find? fun x => x.id == o.id with
  | some o' => exact ⟨o', rfl⟩
  | none =>
    rw [List.find?_eq_none] at hf
    exact absurd (by simp) (hf o h)

/-- The operation kept before the loop is what `kindOf` finds. -/
theorem Keeps.kindOf {z : Nat} {k : OpKind} {s : List Nat} {l : ForLoop}
    (hk : Keeps z k s l) : l.kindOf z = k := by
  unfold ForLoop.kindOf ForLoop.anyOp?
  rw [if_neg (fun h => hk.notLoop h.symm), findIn_eq_none hk.body]
  obtain ⟨o, ho, hz⟩ := hk.present
  obtain ⟨o', ho'⟩ := findIn_isSome_of_mem ho
  rw [hz] at ho'
  simp only [ho']
  exact (hk.before o' (findIn_some ho').1 (findIn_some ho').2).1

theorem frame_replaceAllUsesDominatedBy {z : Nat} {k : OpKind} {s : List Nat} {l0 : ForLoop}
    (l : ForLoop) (domOp : Nat) (newValue oldValue : Value) (h : Frame z k s l0 l) :
    Frame z k s l0 (replaceAllUsesDominatedBy l domOp newValue oldValue) := by
  refine h.followedBy ⟨rfl, ?_, rfl, Nat.le_refl _, rfl, fun hk => ?_⟩
  · unfold replaceAllUsesDominatedBy
    simp only
    split
    · simp [replaceValue]
    · rfl
  · refine Keeps.of_map (fun o => o)
      (fun o => if properlyDominates l domOp (.op o) then
        { o with operands := replaceValue oldValue newValue o.operands } else o)
      (fun _ => ⟨rfl, rfl, rfl⟩) (fun o => ?_) ?_ rfl rfl (Nat.le_refl _) hk
    · dsimp only
      split <;> rfl
    · simp [replaceAllUsesDominatedBy]

theorem frame_create {z : Nat} {k : OpKind} {s : List Nat} {l : ForLoop} {b : Builder}
    (kind : OpKind) (operands : List Value) (shape : List Nat)
    (h : Frame z k s l b.loop) : Frame z k s l (b.create kind operands shape).loop :=
  h.followedBy (grows_create kind operands shape (Grows.same _ _ _ _)).frame

theorem frame_annotate {z : Nat} {k : OpKind} {s : List Nat} {l0 : ForLoop} (l : ForLoop)
    (op : Nat) (stage : Int) (h : Frame z k s l0 l) :
    Frame z k s l0 (annotateWithPipelineStage l op stage) :=
  h.followedBy (grows_annotate l op stage (Grows.same _ _ _ _)).frame

theorem frame_replaceAllUsesWith {z : Nat} {k : OpKind} {s : List Nat} {l0 : ForLoop}
    (l : ForLoop) (old new : Value) (newOp : Nat) (h : Frame z k s l0 l) :
    Frame z k s l0 (l.replaceAllUsesWith old new newOp) := by
  refine h.followedBy ⟨rfl, ?_, rfl, Nat.le_refl _, rfl, fun hk => ?_⟩
  · simp [ForLoop.replaceAllUsesWith, replaceValue]
  · exact Keeps.of_map (fun o => { o with operands := replaceValue old new o.operands })
      (fun o => { o with operands := replaceValue old new o.operands })
      (fun _ => ⟨rfl, rfl, rfl⟩) (fun _ => rfl) rfl rfl rfl (Nat.le_refl _) hk

theorem frame_updateAccUsesOutsideLoop {z : Nat} {k : OpKind} {s : List Nat} (l : ForLoop)
    (info : MMAInfo) (newAlloc : Value) (extractIdxArgNo : Nat) :
    Frame z k s l (updateAccUsesOutsideLoop l info newAlloc extractIdxArgNo) := by
  unfold updateAccUsesOutsideLoop
  split
  · exact Frame.unchanged _ _ _ _
  · simp only
    split
    · exact Frame.unchanged _ _ _ _
    · apply frame_replaceAllUsesWith
      apply Grows.frame
      apply grows_loadFromBuffer
      exact Grows.same _ _ _ _

theorem grows_emitAccDefs {z : Nat} {k : OpKind} {s : List Nat} (l : ForLoop)
    (info : MMAInfo) (accDef : AccOverridePoint) (newAlloc : Value) (numStages : Nat) :
    Grows z k s l (emitAccDefs l info accDef newAlloc numStages).loop := by
  unfold emitAccDefs
  simp only
  apply grows_emitInitStore
  apply grows_annotate
  apply grows_emitNextIdx
  apply grows_annotate
  apply grows_emitNextIdx
  apply grows_create
  exact Grows.same _ _ _ _

theorem frame_yieldNewIndices {z : Nat} {k : OpKind} {s : List Nat} {l0 : ForLoop}
    (l : ForLoop) (info : MMAInfo) (a b : Value) (h : Frame z k s l0 l) :
    Frame z k s l0 (yieldNewIndices l info a b) := by
  refine h.followedBy ⟨rfl, ?_, rfl, Nat.le_refl _, rfl, fun hk => ?_⟩
  · simp [yieldNewIndices, replaceValue]
  · exact ⟨hk.fresh, hk.notLoop, hk.body, hk.before, hk.present⟩

theorem frame_updateAccDefsInLoop {z : Nat} {k : OpKind} {s : List Nat}
    {l l' : ForLoop} {info info' : MMAInfo} {newAlloc : Value} {numStages : Nat}
    (hsel : k ≠ .select)
    (h : updateAccDefsInLoop l info newAlloc numStages = .ok (l', info')) :
    Frame z k s l l' := by
  unfold updateAccDefsInLoop at h
  split at h
  · cases h
  · rename_i accDef _
    have he := grows_emitAccDefs (z := z) (k := k) (s := s) l info accDef newAlloc numStages
    generalize emitAccDefs l info accDef newAlloc numStages = e at h he
    simp only at h
    have h1 : Frame z k s l
        (if accDef.distance = 0 then
          replaceAllUsesDominatedBy
            (replaceAllUsesDominatedBy
              (yieldNewIndices e.loop info e.newInsertIdx e.newExtractIdx)
              e.newInsertIdxOp e.newInsertIdx info.accInsertIdx)
            e.newExtractIdxOp e.newExtractIdx info.accExtractIdx
        else yieldNewIndices e.loop info e.newInsertIdx e.newExtractIdx) := by
      split
      · apply frame_replaceAllUsesDominatedBy
        apply frame_replaceAllUsesDominatedBy
        exact frame_yieldNewIndices _ _ _ _ he.frame
      · exact frame_yieldNewIndices _ _ _ _ he.frame
    generalize (if accDef.distance = 0 then
          replaceAllUsesDominatedBy
            (replaceAllUsesDominatedBy
              (yieldNewIndices e.loop info e.newInsertIdx e.newExtractIdx)
              e.newInsertIdxOp e.newInsertIdx info.accInsertIdx)
            e.newExtractIdxOp e.newExtractIdx info.accExtractIdx
        else yieldNewIndices e.loop info e.newInsertIdx e.newExtractIdx) = l1 at h h1
    split at h
    · split at h
      · rename_i hkind
        split at h
        · rename_i l2 herase
          cases h
          refine h1.followedBy (grows_eraseOp herase fun hk heq => ?_).frame
          rw [heq, hk.kindOf] at hkind
          exact hsel hkind
        · cases h
      · cases h
    · cases h
      exact h1

theorem updateAccDefsInLoop_info {l l' : ForLoop} {info info' : MMAInfo} {newAlloc : Value}
    {numStages : Nat} (h : updateAccDefsInLoop l info newAlloc numStages = .ok (l', info')) :
    info'.accLoad = info.accLoad ∧ info'.accAlloc = info.accAlloc := by
  unfold updateAccDefsInLoop at h
  simp only at h
  repeat' split at h
  all_goals first | (cases h; done) | (cases h; exact ⟨rfl, rfl⟩)

theorem grows_hoistAlloc {z : Nat} {k : OpKind} {s : List Nat} {l l' : ForLoop}
    {info : MMAInfo} {numStages newAllocId : Nat}
    (h : hoistAlloc l info numStages = .ok (l', newAllocId)) : Grows z k s l l' := by
  unfold hoistAlloc at h
  simp only at h
  split at h
  · split at h
    · cases h
      apply grows_createInitStore
      apply grows_createTMemAlloc
      repeat apply grows_create
      exact Grows.same _ _ _ _
    · cases h
  · cases h
    apply grows_createTMemAlloc
    repeat apply grows_create
    exact Grows.same _ _ _ _

theorem grows_useHoistedAlloc {z : Nat} {k : OpKind} {s : List Nat} {l0 : ForLoop}
    (l : ForLoop) (mmaOp : Nat) (info : MMAInfo) (newAlloc : Value) (h : Grows z k s l0 l) :
    Grows z k s l0 (useHoistedAlloc l mmaOp info newAlloc) := by
  unfold useHoistedAlloc
  split
  · apply grows_assignMMAOperand
    apply grows_createSingleBufferView
    exact h
  · exact grows_assignMMAOperand _ _ _ _ h

theorem frame_shortCircuitAccumulator {z : Nat} {k : OpKind} {s : List Nat}
    {l l' : ForLoop} {yieldArgNo : Option Nat}
    (h : shortCircuitAccumulator l yieldArgNo = .ok l') : Frame z k s l l' := by
  unfold shortCircuitAccumulator at h
  split at h
  · split at h
    · cases h
      refine ⟨rfl, ?_, rfl, Nat.le_refl _, rfl, fun hk => ?_⟩
      · simp
      · exact ⟨hk.fresh, hk.notLoop, hk.body, hk.before, hk.present⟩
    · cases h
  · cases h
    exact Frame.unchanged _ _ _ _

theorem frame_hoistAndUseTMemAlloc {z : Nat} {k : OpKind} {s : List Nat}
    {l l' : ForLoop} {mmaOp : Nat} {info info' : MMAInfo} {numStages : Nat}
    (hsel : k ≠ .select) (hload : info.accLoad.id ≠ z) (halloc : info.accAlloc.id ≠ z)
    (h : hoistAndUseTMemAlloc l mmaOp info numStages = .ok (l', info')) :
    Frame z k s l l' := by
  unfold hoistAndUseTMemAlloc at h
  split at h
  · cases h
  · rename_i l0 newAllocId h0
    simp only at h
    split at h
    · cases h
    · rename_i l2 h2
      split at h
      · rename_i extractIdxArgNo _
        split at h
        · cases h
        · rename_i l4 h4
          split at h
          · cases h
          · rename_i l5 info5 h5
            split at h
            · cases h
            · rename_i l6 h6
              split at h
              · cases h
              · rename_i l7 h7
                cases h
                have f0 : Frame z k s l l0 := (grows_hoistAlloc h0).frame
                have f2 : Frame z k s l0 l2 :=
                  (grows_useHoistedAlloc _ _ _ _ (Grows.same _ _ _ _)).frame.followedBy
                    (grows_updateAccUsesInLoop h2).frame
                have f4 : Frame z k s l2 l4 :=
                  (frame_updateAccUsesOutsideLoop _ _ _ _).followedBy
                    (frame_shortCircuitAccumulator h4)
                have f5 : Frame z k s l4 l5 ∧ info5.accLoad = info.accLoad ∧
                    info5.accAlloc = info.accAlloc := by
                  split at h5
                  · exact ⟨frame_updateAccDefsInLoop hsel h5, updateAccDefsInLoop_info h5⟩
                  · cases h5
                    exact ⟨Frame.unchanged _ _ _ _, rfl, rfl⟩
                have f6 : Frame z k s l5 l6 :=
                  (grows_eraseOp h6 fun _ => f5.2.1 ▸ hload).frame
                have f7 := (grows_eraseOp (z := z) (k := k) (s := s) h7
                  fun _ => f5.2.2 ▸ halloc).frame
                exact f0.followedBy (f2.followedBy (f4.followedBy (f5.1.followedBy (f6.followedBy f7))))
      · cases h

theorem frame_emitWaitAndAdvance {z : Nat} {k : OpKind} {s : List Nat} {l0 : ForLoop}
    (l : ForLoop) (mmaOp : Nat) (info : MMAInfo) (numStages : Nat)
    (zeroVal one numStagesVal barrierSlice : Value) (h : Frame z k s l0 l) :
    Frame z k s l0
      (emitWaitAndAdvance l mmaOp info numStages zeroVal one numStagesVal barrierSlice).1 := by
  unfold emitWaitAndAdvance
  simp only
  apply frame_annotate
  apply frame_replaceAllUsesDominatedBy
  apply frame_create
  apply frame_create
  apply frame_annotate
  apply frame_replaceAllUsesDominatedBy
  apply frame_create
  apply frame_create
  apply frame_create
  apply frame_annotate
  apply frame_create
  exact h

theorem frame_createBarrierAndWaitOps {z : Nat} {k : OpKind} {s : List Nat} (l : ForLoop)
    (mmaOp : Nat) (info : MMAInfo) (numStages : Nat) :
    Frame z k s l (createBarrierAndWaitOps l mmaOp info numStages).1 := by
  unfold createBarrierAndWaitOps
  simp only
  apply frame_emitWaitAndAdvance
  apply Grows.frame
  apply grows_assignMMAOperand
  apply grows_createSingleBufferView
  refine Grows.andThen ?_ (grows_createBarrierAlloc _ _)
  repeat apply grows_create
  exact Grows.same _ _ _ _

/-! ## Theorems of the structural layer: analysis -/

theorem grows_negate {z : Nat} {k : OpKind} {s : List Nat} (l : ForLoop) (ip : InsertPt)
    (x : Value) : Grows z k s l (negate l ip x).1 := by
  unfold negate
  simp only
  apply grows_create
  apply grows_create
  exact Grows.same _ _ _ _

/-- The detector `getAccOverridePointInLoop` leaves the graph as it is, or adds
the negation of a condition; it leaves the graph as it is when it finds no
override point. -/
theorem getAccOverridePointInLoop_effect {l l1 : ForLoop} {accUse accDef : Op}
    {p : Option AccOverridePoint}
    (h : getAccOverridePointInLoop l accUse accDef = .ok (l1, p)) :
    (p = none → l1 = l) ∧
    (l1 = l ∨ ∃ ip x, l1 = (negate l ip x).1 ∧
      ∃ q, p = some q ∧ q.condition = some (negate l ip x).2) := by
  unfold getAccOverridePointInLoop at h
  simp only at h
  repeat' split at h
  all_goals first
    | (cases h; done)
    | (cases h; exact ⟨fun _ => rfl, Or.inl rfl⟩)
    | (cases h; exact ⟨fun hp => (by cases hp), Or.inr ⟨_, _, rfl, _, rfl, rfl⟩⟩)

theorem getAccUseFlagFalseInLoop_effect {l l1 : ForLoop} {flag : Value}
    {p : Option AccOverridePoint}
    (h : getAccUseFlagFalseInLoop l flag = .ok (l1, p)) :
    (p = none → l1 = l) ∧
    (l1 = l ∨ ∃ ip x, l1 = (negate l ip x).1 ∧
      ∃ q, p = some q ∧ q.condition = some (negate l ip x).2) := by
  unfold getAccUseFlagFalseInLoop at h
  simp only at h
  repeat' split at h
  all_goals first
    | (cases h; done)
    | (cases h; exact ⟨fun _ => rfl, Or.inl rfl⟩)
    | (cases h; exact ⟨fun hp => (by cases hp), Or.inr ⟨_, _, rfl, _, rfl, rfl⟩⟩)

theorem getAccOverrideOrFlagFalseInLoop_effect {l l1 : ForLoop} {mmaOp : Nat}
    {p : Option AccOverridePoint}
    (h : getAccOverrideOrFlagFalseInLoop l mmaOp = .ok (l1, p)) :
    (p = none → l1 = l) ∧
    (l1 = l ∨ ∃ ip x, l1 = (negate l ip x).1 ∧
      ∃ q, p = some q ∧ q.condition = some (negate l ip x).2) := by
  unfold getAccOverrideOrFlagFalseInLoop at h
  split at h
  · cases h
  · split at h
    · cases h
    · rename_i l' q h1
      cases h
      exact getAccOverridePointInLoop_effect h1
    · rename_i l' h1
      have hl := (getAccOverridePointInLoop_effect h1).1 rfl
      subst hl
      split at h
      · cases h; exact ⟨fun _ => rfl, Or.inl rfl⟩
      · split at h
        · cases h; exact ⟨fun _ => rfl, Or.inl rfl⟩
        · split at h
          · cases h
          · exact getAccUseFlagFalseInLoop_effect h

theorem grows_getAccOverrideOrFlagFalseInLoop {z : Nat} {k : OpKind} {s : List Nat}
    {l l1 : ForLoop} {mmaOp : Nat} {p : Option AccOverridePoint}
    (h : getAccOverrideOrFlagFalseInLoop l mmaOp = .ok (l1, p)) : Grows z k s l l1 := by
  rcases (getAccOverrideOrFlagFalseInLoop_effect h).2 with h | ⟨ip, x, h, _⟩
  · rw [h]; exact Grows.same _ _ _ _
  · rw [h]; exact grows_negate _ _ _

theorem idsBelow_create {b : Builder} (kind : OpKind) (operands : List Value)
    (shape : List Nat) (h : IdsBelow b.loop) :
    IdsBelow (b.create kind operands shape).loop := by
  have hf := insertAt_fields b.loop b.ip (newOp b.loop.nextId kind operands shape)
  have hl := insertAt_lists b.loop b.ip (newOp b.loop.nextId kind operands shape)
  refine ⟨?_, ?_, ?_⟩
  · rw [create_nextId]
    show (b.loop.insertAt _ _).id < _
    rw [hf.2.2.1]; exact Nat.lt_succ_of_lt h.loop
  · intro o ho
    rw [create_nextId]
    rcases hl.1.1 o ho with h' | h'
    · exact Nat.lt_succ_of_lt (h.before o h')
    · rw [h']; exact Nat.lt_succ_self _
  · intro o ho
    rw [create_nextId]
    rcases hl.1.2.1 o ho with h' | h'
    · exact Nat.lt_succ_of_lt (h.body o h')
    · rw [h']; exact Nat.lt_succ_self _

theorem idsBelow_negate (l : ForLoop) (ip : InsertPt) (x : Value) (h : IdsBelow l) :
    IdsBelow (negate l ip x).1 := by
  unfold negate
  simp only
  apply idsBelow_create
  apply idsBelow_create
  exact h

theorem idsBelow_getAccOverrideOrFlagFalseInLoop {l l1 : ForLoop} {mmaOp : Nat}
    {p : Option AccOverridePoint}
    (h : getAccOverrideOrFlagFalseInLoop l mmaOp = .ok (l1, p)) (hl : IdsBelow l) :
    IdsBelow l1 := by
  rcases (getAccOverrideOrFlagFalseInLoop_effect h).2 with h | ⟨ip, x, h, _⟩
  · rw [h]; exact hl
  · rw [h]; exact idsBelow_negate _ _ _ hl

theorem usesIn_owner_mem {ops : List Op} {v : Value} {u : Use} {o : Op}
    (h : u ∈ usesIn ops v) (ho : u.owner = .op o) : o ∈ ops := by
  unfold usesIn at h
  rw [List.mem_flatMap] at h
  obtain ⟨o', ho', hu⟩ := h
  rw [List.mem_map] at hu
  obtain ⟨i, _, rfl⟩ := hu
  simp only [Owner.op.injEq] at ho
  exact ho ▸ ho'

/-- The storage and the load found for an MMA are operations of the loop
body. -/
theorem getTMemAllocAndLoad_mem {l : ForLoop} {mmaOp : Nat} {acc load : Op}
    (h : getTMemAllocAndLoad l mmaOp = some (acc, load)) :
    acc ∈ l.body ∧ load ∈ l.body := by
  unfold getTMemAllocAndLoad at h
  split at h
  · cases h
  · split at h
    · rename_i a _ _
      split at h
      · rename_i acc0 hacc
        split at h
        · simp only at h
          split at h
          · rename_i ld rest hloads
            cases h
            refine ⟨(findIn_some hacc).1, ?_⟩
            have hmem := List.mem_cons_self load rest
            rw [← hloads] at hmem
            rw [List.mem_filterMap] at hmem
            obtain ⟨u, hu, hsome⟩ := hmem
            split at hsome
            · rename_i o howner
              split at hsome
              · cases hsome
                exact usesIn_owner_mem hu howner
              · cases hsome
            · cases hsome
          · cases h
        · cases h
      · cases h
    · cases h

/-! ## Theorems of the structural layer: the rewrite of one MMA -/

theorem keeps_replaceForOpWithNewSignature {z : Nat} {k : OpKind} {s : List Nat}
    (l : ForLoop) (newOperands : List Value) (h : Keeps z k s l) :
    Keeps z k s (replaceForOpWithNewSignature l newOperands) :=
  ⟨Nat.lt_succ_of_lt h.fresh, Nat.ne_of_gt h.fresh, h.body, h.before, h.present⟩

theorem keeps_appendToForOpYield {z : Nat} {k : OpKind} {s : List Nat}
    (l : ForLoop) (vs : List Value) (h : Keeps z k s l) :
    Keeps z k s (appendToForOpYield l vs) :=
  ⟨h.fresh, h.notLoop, h.body, h.before, h.present⟩

/-- The constant created before the loop at the start of the rewrite is kept
there. -/
theorem keeps_create_beforeLoop (l : ForLoop) (kind : OpKind) (h : IdsBelow l) :
    Keeps l.nextId kind []
      (({ loop := l, ip := .beforeLoop } : Builder).create kind []).loop := by
  have hb : (({ loop := l, ip := .beforeLoop } : Builder).create kind []).loop.before
      = l.before ++ [newOp l.nextId kind [] []] := by
    simp [Builder.create, ForLoop.insertAt]
  have hbody : (({ loop := l, ip := .beforeLoop } : Builder).create kind []).loop.body
      = l.body := by
    simp [Builder.create, ForLoop.insertAt]
  have hid : (({ loop := l, ip := .beforeLoop } : Builder).create kind []).loop.id
      = l.id := by
    simp [Builder.create, ForLoop.insertAt]
  refine ⟨?_, ?_, ?_, ?_, ?_⟩
  · rw [create_nextId]; exact Nat.lt_succ_self _
  · rw [hid]; exact Nat.ne_of_lt h.loop
  · intro o ho
    rw [hbody] at ho
    exact Nat.ne_of_lt (h.body o ho)
  · intro o ho hz
    rw [hb] at ho
    rcases List.mem_append.1 ho with ho | ho
    · exact absurd hz (Nat.ne_of_lt (h.before o ho))
    · rw [List.mem_singleton.1 ho]; exact ⟨rfl, rfl⟩
  · refine ⟨newOp l.nextId kind [] [], ?_, rfl⟩
    rw [hb]; exact List.mem_append_right _ (List.mem_singleton_self _)

/-- The carried signature after the rewrite of one MMA. -/
theorem rewriteMMA_signature {l l' : ForLoop} {mmaOp : Nat} {accAlloc accLoad : Op}
    {pt : Option AccOverridePoint} {y : Option Nat} {req : Bool} {numStages : Nat}
    (h : rewriteMMA l mmaOp accAlloc accLoad pt y req numStages = .ok l') :
    l'.initArgs = l.initArgs ++ List.replicate 4 (Value.opResult l.nextId 0) ∧
    l'.yieldOperands.length = l.yieldOperands.length + 4 ∧
    (IdsBelow l → accAlloc.id < l.nextId → accLoad.id < l.nextId →
      Keeps l.nextId (.constantInt 0 32) [] l') := by
  unfold rewriteMMA at h
  simp only at h
  split at h
  · cases h
  · rename_i l4 info4 hhoist
    cases h
    have key : ∀ z k s, k ≠ OpKind.select → accLoad.id ≠ z → accAlloc.id ≠ z →
        Frame z k s _ ((invalidateAndDeallocBarrier
          (createBarrierAndWaitOps l4 mmaOp info4 numStages).1
          ((createBarrierAndWaitOps l4 mmaOp info4 numStages).2.barrierAlloc.getD
            (Value.opResult 0 0)) numStages)) := fun z k s hk hld hal =>
      (frame_hoistAndUseTMemAlloc (z := z) (k := k) (s := s) hk hld hal hhoist).followedBy
        ((frame_createBarrierAndWaitOps _ _ _ _).followedBy
          (grows_invalidateAndDeallocBarrier _ _ _).frame)
    have f := key (accLoad.id + accAlloc.id + 1) .other [] (by decide) (by omega) (by omega)
    refine ⟨?_, ?_, fun hids hal hld => ?_⟩
    · rw [f.initArgs]
      simp [annotateWithPipelineStage, ForLoop.updateOp, appendToForOpYield,
        replaceForOpWithNewSignature, Builder.create, ForLoop.insertAt, Builder.lastValue,
        List.replicate]
    · rw [f.yieldLen]
      simp [annotateWithPipelineStage, ForLoop.updateOp, appendToForOpYield,
        replaceForOpWithNewSignature, Builder.create, ForLoop.insertAt]
    · refine (key l.nextId (.constantInt 0 32) [] (by simp) (Nat.ne_of_lt hld)
        (Nat.ne_of_lt hal)).keeps ?_
      apply (grows_annotate _ _ _ (Grows.same _ _ _ _)).keeps
      apply keeps_appendToForOpYield
      apply keeps_replaceForOpWithNewSignature
      exact keeps_create_beforeLoop l _ hids

/-- What a pass of the driver over one MMA can do: when the MMA is rewritten,
the analysis succeeded and `rewriteMMA` ran on the graph the detector left;
when the MMA is skipped, the graph is the one the driver started with or the
one the detector left. -/
theorem processMMA_inv {env : Env} {numStages fuel : Nat} {l l' : ForLoop} {mmaOp : Nat}
    {rewritten : Bool}
    (h : processMMA env numStages fuel l mmaOp = .ok (l', rewritten)) :
    (rewritten = true →
      ∃ accAlloc accLoad y l1 pt,
        getTMemAllocAndLoad l mmaOp = some (accAlloc, accLoad) ∧
        trackAccChain l accLoad accAlloc fuel = .ok (y, false) ∧
        getAccOverrideOrFlagFalseInLoop l mmaOp = .ok (l1, pt) ∧
        rewriteMMA l1 mmaOp accAlloc accLoad pt y (!(getDirectAccUses l1 accLoad).isEmpty)
          numStages = .ok l') ∧
    (rewritten = false →
      l' = l ∨ ∃ pt, getAccOverrideOrFlagFalseInLoop l mmaOp = .ok (l', pt)) := by
  unfold processMMA at h
  split at h
  · cases h; exact ⟨fun h => (by cases h), fun _ => Or.inl rfl⟩
  · split at h
    · cases h; exact ⟨fun h => (by cases h), fun _ => Or.inl rfl⟩
    · rename_i accAlloc accLoad halloc
      split at h
      · cases h
      · rename_i y div htrack
        split at h
        · cases h; exact ⟨fun h => (by cases h), fun _ => Or.inl rfl⟩
        · rename_i hdiv
          split at h
          · cases h
          · split at h
            · cases h
            · rename_i l1 pt hdet
              split at h
              · cases h; exact ⟨fun h => (by cases h), fun _ => Or.inr ⟨_, hdet⟩⟩
              · simp only at h
                split at h
                · cases h; exact ⟨fun h => (by cases h), fun _ => Or.inr ⟨_, hdet⟩⟩
                · split at h
                  · cases h
                  · rename_i l2 hrw
                    cases h
                    refine ⟨fun _ => ⟨accAlloc, accLoad, y, l1, pt, halloc, ?_, hdet, hrw⟩,
                      fun h => by cases h⟩
                    have : div = false := by simpa using hdiv
                    rw [← this]; exact htrack

/-- A skipped MMA leaves the carried values and the terminator as they are. -/
theorem processMMA_skip_signature {env : Env} {numStages fuel : Nat} {l l' : ForLoop}
    {mmaOp : Nat} (h : processMMA env numStages fuel l mmaOp = .ok (l', false)) :
    l'.initArgs = l.initArgs ∧ l'.yieldOperands = l.yieldOperands := by
  rcases (processMMA_inv h).2 rfl with h | ⟨pt, h⟩
  · rw [h]; exact ⟨rfl, rfl⟩
  · have g := grows_getAccOverrideOrFlagFalseInLoop (z := 0) (k := .other) (s := []) h
    exact ⟨g.initArgs, g.yieldOperands⟩

theorem processMMA_rewrite_signature {env : Env} {numStages fuel : Nat} {l l' : ForLoop}
    {mmaOp : Nat} (h : processMMA env numStages fuel l mmaOp = .ok (l', true)) :
    ∃ z, l'.initArgs = l.initArgs ++ List.replicate 4 (Value.opResult z 0) ∧
      l'.yieldOperands.length = l.yieldOperands.length + 4 ∧
      (IdsBelow l → Keeps z (.constantInt 0 32) [] l') := by
  obtain ⟨accAlloc, accLoad, y, l1, pt, halloc, _, hdet, hrw⟩ := (processMMA_inv h).1 rfl
  have g := grows_getAccOverrideOrFlagFalseInLoop (z := 0) (k := .other) (s := []) hdet
  have hs := rewriteMMA_signature hrw
  refine ⟨l1.nextId, ?_, ?_, fun hids => ?_⟩
  · rw [hs.1, g.initArgs]
  · rw [hs.2.1, g.yieldOperands]
  · have hmem := getTMemAllocAndLoad_mem halloc
    exact hs.2.2 (idsBelow_getAccOverrideOrFlagFalseInLoop hdet hids)
      (Nat.lt_of_lt_of_le (hids.body _ hmem.1) g.nextId)
      (Nat.lt_of_lt_of_le (hids.body _ hmem.2) g.nextId)

theorem processMMAs_signature {env : Env} {numStages fuel : Nat} (mmaOps : List Nat) :
    ∀ (l l' : ForLoop) (c c' : Nat),
      processMMAs env numStages fuel mmaOps (l, c) = .ok (l', c') →
      c ≤ c' ∧ l'.initArgs.length = l.initArgs.length + 4 * (c' - c) ∧
      l'.yieldOperands.length = l.yieldOperands.length + 4 * (c' - c) := by
  induction mmaOps with
  | nil =>
    intro l l' c c' h
    simp only [processMMAs] at h
    cases h
    simp
  | cons m rest ih =>
    intro l l' c c' h
    simp only [processMMAs] at h
    split at h
    · cases h
    · rename_i l1 h1
      obtain ⟨hc, hi, hy⟩ := ih _ _ _ _ h
      obtain ⟨z, hi1, hy1, _⟩ := processMMA_rewrite_signature h1
      refine ⟨by omega, ?_, ?_⟩
      · rw [hi, hi1]; simp; omega
      · rw [hy, hy1]; omega
    · rename_i l1 h1
      obtain ⟨hc, hi, hy⟩ := ih _ _ _ _ h
      obtain ⟨hi1, hy1⟩ := processMMA_skip_signature h1
      exact ⟨hc, by rw [hi, hi1], by rw [hy, hy1]⟩

/-- Claim C3. Carried-value arity invariant: when the driver rewrites one MMA of
a loop with `n` carried values and `n` terminator operands (whose operations
carry identifiers below the next fresh one), the rebuilt loop has the old
initial values, in their positions, followed by four times the result of one
operation `z`, which lies before the loop and is the constant zero of type
`i32`; it has `n + 4` terminator operands. After the loop over the MMAs has
rewritten `m` of them, the loop has `n + 4 m` carried values and as many
terminator operands. -/
theorem C3_carried_value_arity (env : Env) (numStages fuel : Nat) :
    (∀ l mmaOp l', processMMA env numStages fuel l mmaOp = .ok (l', true) →
      IdsBelow l → l.yieldOperands.length = l.initArgs.length →
      ∃ z, l'.initArgs = l.initArgs ++
            [Value.opResult z 0, Value.opResult z 0, Value.opResult z 0, Value.opResult z 0] ∧
        l'.kindOf z = .constantInt 0 32 ∧ (∃ o ∈ l'.before, o.id = z) ∧
        l'.initArgs.length = l.initArgs.length + 4 ∧
        l'.yieldOperands.length = l.initArgs.length + 4) ∧
    (∀ l l' m, preProcessLoopCounting env l numStages fuel = .ok (some (l', m)) →
      l.yieldOperands.length = l.initArgs.length →
      l'.initArgs.length = l.initArgs.length + 4 * m ∧
      l'.yieldOperands.length = l.initArgs.length + 4 * m) := by
  constructor
  · intro l mmaOp l' h hids harity
    obtain ⟨z, hi, hy, hk⟩ := processMMA_rewrite_signature h
    refine ⟨z, hi, (hk hids).kindOf, (hk hids).present, ?_, ?_⟩
    · rw [hi]; simp
    · rw [hy, harity]
  · intro l l' m h harity
    unfold preProcessLoopCounting at h
    simp only at h
    split at h
    · cases h
    · split at h
      · cases h
      · split at h
        · cases h
        · rename_i r hr
          cases h
          obtain ⟨_, hi, hy⟩ := processMMAs_signature _ _ _ _ _ hr
          exact ⟨by simpa using hi, by rw [hy, harity]; simp⟩

/-- Witness of claim C3: the acceptance scenario, with one carried value, has
five carried values and five terminator operands after its MMA is rewritten. -/
theorem C3_carried_value_arity_witness :
    processMMA exampleEnv 2 10 exampleAccept 11 = .ok (exampleAcceptRewritten, true) ∧
    exampleAcceptRewritten.initArgs.length = 1 + 4 ∧
    exampleAcceptRewritten.yieldOperands.length = 1 + 4 := by
  have hrun : processMMA exampleEnv 2 10 exampleAccept 11
      = .ok (exampleAcceptRewritten, true) := by rfl
  have hids : IdsBelow exampleAccept := ⟨by decide, by decide, by decide⟩
  obtain ⟨z, _, _, _, h1, h2⟩ :=
    (C3_carried_value_arity exampleEnv 2 10).1 exampleAccept 11 exampleAcceptRewritten
      hrun hids rfl
  exact ⟨hrun, h1, h2⟩

/-! ## Theorems of the structural layer: barrier storage -/

/-- The pass of the driver over one MMA once the analysis has succeeded. -/
theorem processMMA_of_analysis {env : Env} {numStages fuel : Nat} {l l1 : ForLoop}
    {mmaOp : Nat} {accAlloc accLoad : Op} {y : Option Nat} {pt : Option AccOverridePoint}
    (hslice : env.backwardSliceHasStage l mmaOp = false)
    (halloc : getTMemAllocAndLoad l mmaOp = some (accAlloc, accLoad))
    (htrack : trackAccChain l accLoad accAlloc fuel = .ok (y, false))
    (hidx : chainIndexOk accAlloc y = true)
    (hdet : getAccOverrideOrFlagFalseInLoop l mmaOp = .ok (l1, pt)) :
    processMMA env numStages fuel l mmaOp =
      if (pt.map fun p => decide (p.distance > 1)).getD false then .ok (l1, false)
      else if (!(getDirectAccUses l1 accLoad).isEmpty && !pt.isSome) then .ok (l1, false)
      else
        match rewriteMMA l1 mmaOp accAlloc accLoad pt y
            (!(getDirectAccUses l1 accLoad).isEmpty) numStages with
        | .error e => .error e
        | .ok l2 => .ok (l2, true) := by
  unfold processMMA
  simp only [hslice, halloc, htrack, hidx, hdet, Bool.false_eq_true, if_false, Bool.not_true]

/-- Claim C5 (the code does not reject scenario (a)): in the loop
`exampleIfChain` the load reaches the input of the storage only through the
yield of an `scf.if`, the result of the `scf.if`, the terminator of the loop and
the carried value. `trackAccChain` returns slot 0 and leaves
`hasDivergentUses` false, so the driver does not skip the MMA; the override
detector then fails its assertion "Expected unconditional override op". -/
theorem C5_if_chain_reaches_assertion :
    getTMemAllocAndLoad exampleIfChain 11
      = some ({ id := 10, kind := .tmemAlloc, operands := [.loopArg 1], shape := [128, 128] },
              { id := 12, kind := .tmemLoad, operands := [.opResult 10 0] }) ∧
    trackAccChain exampleIfChain
      { id := 12, kind := .tmemLoad, operands := [.opResult 10 0] }
      { id := 10, kind := .tmemAlloc, operands := [.loopArg 1], shape := [128, 128] } 10
      = .ok (some 0, false) ∧
    processMMA exampleEnv 2 10 exampleIfChain 11 = .error .expectedUnconditionalOverride ∧
    tagLoop exampleEnv exampleIfChain 2 10 = .error .expectedUnconditionalOverride := by
  refine ⟨by rfl, by rfl, by rfl, by rfl⟩

/-- Claim C10 (the code tags a loop none of whose MMAs was rewritten): in the
loop `exampleNoOverride` the only MMA is skipped for infeasible buffering, the
rewriter returns the loop unchanged with zero rewritten MMAs, reports success,
and the driver sets `triton.pipeline`. -/
theorem C10_tagged_without_rewrite :
    preProcessLoopCounting exampleEnv exampleNoOverride 2 10
      = .ok (some (exampleNoOverride, 0)) ∧
    tagLoop exampleEnv exampleNoOverride 2 10
      = .ok { exampleNoOverride with pipeline := true } := by
  refine ⟨by rfl, by rfl⟩

/-! ## Theorems of the structural layer: the accumulator chain -/

/-- A property that every step of a fold keeps holds at its end. -/
theorem foldlM_invariant {σ α : Type} (P : σ → Prop) (f : σ → α → Except Err σ)
    (xs : List α) (hf : ∀ s x s', x ∈ xs → P s → f s x = .ok s' → P s') :
    ∀ s s', P s → xs.foldlM f s = .ok s' → P s' := by
  induction xs with
  | nil =>
    intro s s' hs h
    simp only [List.foldlM_nil, pure, Except.pure] at h
    cases h
    exact hs
  | cons x xs ih =>
    intro s s' hs h
    simp only [List.foldlM_cons, bind, Except.bind] at h
    split at h
    · cases h
    · rename_i s1 h1
      exact ih (fun s x s' hx => hf s x s' (List.mem_cons_of_mem _ hx)) s1 s'
        (hf s x s1 (List.mem_cons_self _ _) hs h1) h

theorem operandPositions_lt {v : Value} {operands : List Value} {i : Nat}
    (h : i ∈ operandPositions v operands) : i < operands.length := by
  unfold operandPositions at h
  rw [List.mem_map] at h
  obtain ⟨p, hp, rfl⟩ := h
  exact List.fst_lt_of_mem_enum (List.mem_filter.1 hp).1

theorem usesIn_owner {ops : List Op} {v : Value} {u : Use} (h : u ∈ usesIn ops v) :
    ∃ o, u.owner = .op o := by
  unfold usesIn at h
  rw [List.mem_flatMap] at h
  obtain ⟨o, _, hu⟩ := h
  rw [List.mem_map] at hu
  obtain ⟨i, _, rfl⟩ := hu
  exact ⟨o, rfl⟩

/-- A use by the terminator names an operand the terminator has. -/
theorem usesOf_terminator_lt {l : ForLoop} {v : Value} {u : Use} (h : u ∈ l.usesOf v)
    (ht : u.owner = .terminator) : u.operandNumber < l.yieldOperands.length := by
  unfold ForLoop.usesOf at h
  simp only [List.mem_append] at h
  rcases h with ((h | h) | h) | h
  · obtain ⟨o, ho⟩ := usesIn_owner h; rw [ho] at ht; cases ht
  · obtain ⟨o, ho⟩ := usesIn_owner h; rw [ho] at ht; cases ht
  · rw [List.mem_map] at h
    obtain ⟨i, hi, rfl⟩ := h
    exact operandPositions_lt hi
  · obtain ⟨o, ho⟩ := usesIn_owner h; rw [ho] at ht; cases ht

theorem trackAccChainUse_slots {l : ForLoop} {accAlloc : Op} {info : UseInfo}
    {st st' : ChainState} {use : Use} (hu : use ∈ l.usesOf info.value)
    (hinfo : ∀ k, info.yieldArgNo = some k → k < l.yieldOperands.length)
    (hst : st.SlotsBelow l.yieldOperands.length)
    (h : trackAccChainUse l accAlloc info st use = .ok st') :
    st'.SlotsBelow l.yieldOperands.length := by
  unfold trackAccChainUse at h
  split at h
  · rename_i hown
    cases h
    refine ⟨fun e he k hk => ?_, hst.2⟩
    rcases List.mem_cons.1 he with he | he
    · subst he
      simp only [Option.some.injEq] at hk
      rw [← hk]; exact usesOf_terminator_lt hu hown
    · exact hst.1 e he k hk
  · repeat' split at h
    all_goals first
      | (cases h; done)
      | (cases h
         refine ⟨fun e he k hk => ?_, hst.2⟩
         rcases List.mem_cons.1 he with he | he
         · subst he; exact hinfo k hk
         · exact hst.1 e he k hk)
      | (cases h; exact ⟨hst.1, hinfo⟩)
      | (cases h; exact ⟨hst.1, hst.2⟩)

theorem trackAccChainLoop_slots {l : ForLoop} {accAlloc : Op} (fuel : Nat) :
    ∀ st st', st.SlotsBelow l.yieldOperands.length →
      trackAccChainLoop l accAlloc fuel st = .ok st' →
      st'.SlotsBelow l.yieldOperands.length := by
  induction fuel with
  | zero =>
    intro st st' hst h
    unfold trackAccChainLoop at h
    split at h
    · cases h; exact hst
    · cases h
  | succ fuel ih =>
    intro st st' hst h
    unfold trackAccChainLoop at h
    split at h
    · cases h; exact hst
    · rename_i info rest hq
      split at h
      · rename_i st1 h1
        refine ih st1 st' ?_ h
        have hinfo : ∀ k, info.yieldArgNo = some k → k < l.yieldOperands.length :=
          fun k hk => hst.1 info (by rw [hq]; exact List.mem_cons_self _ _) k hk
        refine foldlM_invariant (fun s => s.SlotsBelow l.yieldOperands.length) _ _
          (fun s x s' hx hs hf => trackAccChainUse_slots hx hinfo hs hf) _ _ ?_ h1
        exact ⟨fun e he => hst.1 e (by rw [hq]; exact List.mem_cons_of_mem _ he), hst.2⟩
      · cases h

/-- The slot `trackAccChain` returns is a slot of the terminator. -/
theorem trackAccChain_slot_lt {l : ForLoop} {accDef accAlloc : Op} {fuel k : Nat} {d : Bool}
    (h : trackAccChain l accDef accAlloc fuel = .ok (some k, d)) :
    k < l.yieldOperands.length := by
  unfold trackAccChain at h
  split at h
  · rename_i st hst
    simp only [Except.ok.injEq, Prod.mk.injEq] at h
    refine (trackAccChainLoop_slots fuel _ _ ?_ hst).2 k h.1
    refine ⟨fun e he k hk => ?_, fun k hk => by cases hk⟩
    rw [List.mem_singleton.1 he] at hk
    cases hk
  · cases h

/-! ## Theorems of the structural layer: the single-buffered rewrite -/

theorem replaceValue_getElem? {old new v : Value} {vs : List Value} {j : Nat}
    (hv : v ≠ old) (h : vs[j]? = some v) : (replaceValue old new vs)[j]? = some v := by
  unfold replaceValue
  rw [List.getElem?_map, h]
  simp [hv]

theorem yield_replaceAllUsesDominatedBy {l : ForLoop} {j : Nat} {v : Value}
    (domOp : Nat) (newValue oldValue : Value) (hv : v ≠ oldValue)
    (h : l.yieldOperands[j]? = some v) :
    (replaceAllUsesDominatedBy l domOp newValue oldValue).yieldOperands[j]? = some v := by
  unfold replaceAllUsesDominatedBy
  simp only
  split
  · exact replaceValue_getElem? hv h
  · exact h

theorem create_yieldOperands (b : Builder) (kind : OpKind) (operands : List Value)
    (shape : List Nat) :
    (b.create kind operands shape).loop.yieldOperands = b.loop.yieldOperands := by
  simp only [Builder.create, (insertAt_fields _ _ _).2.1]

theorem annotate_yieldOperands (l : ForLoop) (op : Nat) (stage : Int) :
    (annotateWithPipelineStage l op stage).yieldOperands = l.yieldOperands := rfl

/-- The operations placed behind the MMA leave a terminator operand as it is
unless it is the carried barrier index or the carried phase. -/
theorem yield_emitWaitAndAdvance {l : ForLoop} {j : Nat} {v : Value} (mmaOp : Nat)
    (info : MMAInfo) (numStages : Nat) (zeroVal one numStagesVal barrierSlice : Value)
    (hidx : v ≠ info.barrierIdx) (hphase : v ≠ info.phase)
    (h : l.yieldOperands[j]? = some v) :
    (emitWaitAndAdvance l mmaOp info numStages zeroVal one numStagesVal
      barrierSlice).1.yieldOperands[j]? = some v := by
  unfold emitWaitAndAdvance
  simp only
  rw [annotate_yieldOperands]
  apply yield_replaceAllUsesDominatedBy _ _ _ hphase
  rw [create_yieldOperands, create_yieldOperands, annotate_yieldOperands]
  apply yield_replaceAllUsesDominatedBy _ _ _ hidx
  rw [create_yieldOperands, create_yieldOperands, create_yieldOperands,
    annotate_yieldOperands, create_yieldOperands]
  exact h

theorem yield_of_grows {z : Nat} {k : OpKind} {s : List Nat} {l l' : ForLoop} {j : Nat}
    {v : Value} (g : Grows z k s l l') (h : l.yieldOperands[j]? = some v) :
    l'.yieldOperands[j]? = some v := by
  rw [g.yieldOperands]; exact h

theorem yield_createBarrierAndWaitOps {l : ForLoop} {j : Nat} {v : Value} (mmaOp : Nat)
    (info : MMAInfo) (numStages : Nat)
    (hidx : v ≠ info.barrierIdx) (hphase : v ≠ info.phase)
    (h : l.yieldOperands[j]? = some v) :
    (createBarrierAndWaitOps l mmaOp info numStages).1.yieldOperands[j]? = some v := by
  unfold createBarrierAndWaitOps
  simp only
  apply yield_emitWaitAndAdvance _ _ _ _ _ _ _ hidx hphase
  refine yield_of_grows (z := 0) (k := .other) (s := []) ?_ h
  apply grows_assignMMAOperand
  apply grows_createSingleBufferView
  refine Grows.andThen ?_ (grows_createBarrierAlloc _ _)
  repeat apply grows_create
  exact Grows.same _ _ _ _

theorem createBarrierAndWaitOps_indices (l : ForLoop) (mmaOp : Nat) (info : MMAInfo)
    (numStages : Nat) :
    (createBarrierAndWaitOps l mmaOp info numStages).2.accInsertIdx = info.accInsertIdx ∧
    (createBarrierAndWaitOps l mmaOp info numStages).2.accExtractIdx = info.accExtractIdx :=
  ⟨rfl, rfl⟩

theorem yield_updateAccUsesOutsideLoop {l : ForLoop} {j a : Nat} (info : MMAInfo)
    (newAlloc : Value) (extractIdxArgNo : Nat)
    (h : l.yieldOperands[j]? = some (.loopArg a)) :
    (updateAccUsesOutsideLoop l info newAlloc extractIdxArgNo).yieldOperands[j]?
      = some (.loopArg a) := by
  unfold updateAccUsesOutsideLoop
  split
  · exact h
  · simp only
    split
    · exact h
    · unfold ForLoop.replaceAllUsesWith
      simp only
      apply replaceValue_getElem? (by simp)
      refine yield_of_grows (z := 0) (k := .other) (s := []) ?_ h
      apply grows_loadFromBuffer
      exact Grows.same _ _ _ _

theorem yield_shortCircuitAccumulator {l l' : ForLoop} {yieldArgNo : Option Nat} {j : Nat}
    {v : Value} (hj : ∀ k, yieldArgNo = some k → j ≠ k)
    (hy : l.yieldOperands[j]? = some v)
    (h : shortCircuitAccumulator l yieldArgNo = .ok l') :
    l'.yieldOperands[j]? = some v := by
  unfold shortCircuitAccumulator at h
  split at h
  · rename_i k
    split at h
    · cases h
      simp only
      rw [List.getElem?_set_ne (fun hk => hj k rfl hk.symm)]
      exact hy
    · cases h
  · cases h
    exact hy

/-- The single-buffered `hoistAndUseTMemAlloc` leaves a terminator operand
that is a block argument as it is, except in the slot of the accumulator; it
does not touch the carried indices of the `MMAInfo`. -/
theorem yield_hoistAndUseTMemAlloc_single {l l' : ForLoop} {mmaOp : Nat}
    {info info' : MMAInfo} {numStages : Nat} {j a : Nat}
    (hsingle : info.accIsMultiBuffered = false)
    (hj : ∀ k, info.yieldArgNo = some k → j ≠ k)
    (hy : l.yieldOperands[j]? = some (.loopArg a))
    (h : hoistAndUseTMemAlloc l mmaOp info numStages = .ok (l', info')) :
    l'.yieldOperands[j]? = some (.loopArg a) ∧
    info'.barrierIdx = info.barrierIdx ∧ info'.phase = info.phase ∧
    info'.accInsertIdx = info.accInsertIdx ∧ info'.accExtractIdx = info.accExtractIdx := by
  unfold hoistAndUseTMemAlloc at h
  split at h
  · cases h
  · rename_i l0 newAllocId h0
    simp only at h
    split at h
    · cases h
    · rename_i l2 h2
      split at h
      · rename_i extractIdxArgNo _
        split at h
        · cases h
        · rename_i l4 h4
          rw [hsingle] at h
          simp only [Bool.false_eq_true, if_false] at h
          split at h
          · cases h
          · rename_i l6 h6
            split at h
            · cases h
            · rename_i l7 h7
              cases h
              refine ⟨?_, rfl, rfl, rfl, rfl⟩
              refine yield_of_grows (grows_eraseOp (z := info.accAlloc.id + 1) (k := .other)
                (s := []) h7 fun _ => Nat.ne_of_lt (Nat.lt_succ_self _)) ?_
              refine yield_of_grows (grows_eraseOp (z := info.accLoad.id + 1) (k := .other)
                (s := []) h6 fun _ => Nat.ne_of_lt (Nat.lt_succ_self _)) ?_
              refine yield_shortCircuitAccumulator hj ?_ h4
              apply yield_updateAccUsesOutsideLoop
              refine yield_of_grows (grows_updateAccUsesInLoop (z := 0) (k := .other)
                (s := []) h2) ?_
              refine yield_of_grows (z := 0) (k := .other) (s := []) ?_ hy
              apply grows_useHoistedAlloc
              exact grows_hoistAlloc h0
      · cases h

theorem keeps_constantValue {z : Nat} {c : Int} {w : Nat} {s : List Nat} {l : ForLoop}
    (hk : Keeps z (.constantInt c w) s l) (i : Nat) :
    l.constantValue? (.opResult z i) = some c := by
  unfold ForLoop.constantValue? ForLoop.anyOp?
  simp only
  rw [findIn_eq_none hk.body]
  obtain ⟨o, ho, hz⟩ := hk.present
  obtain ⟨o', ho'⟩ := findIn_isSome_of_mem ho
  rw [hz] at ho'
  simp only [ho']
  rw [(hk.before o' (findIn_some ho').1 (findIn_some ho').2).1]

/-- A carried value whose initial value is the constant `c` and which is
yielded unchanged is `c` in every iteration. -/
theorem carriedValue_unchanged {l : ForLoop} {slot : Nat} {v : Value} {c : Int}
    (hinit : l.initArgs[slot]? = some v) (hc : l.constantValue? v = some c)
    (hyield : l.yieldOperands[slot]? = some (.loopArg (slot + 1))) (k : Nat) :
    carriedValue l slot k = some c := by
  induction k with
  | zero => simp [carriedValue, hinit, hc]
  | succ k ih => simp [carriedValue, hyield, ih]

/-- The terminator operands of the new insert and extract slot after a
single-buffered rewrite: the block arguments of the two slots. -/
theorem rewriteMMA_single_yield {l l' : ForLoop} {mmaOp : Nat} {accAlloc accLoad : Op}
    {pt : Option AccOverridePoint} {y : Option Nat} {numStages : Nat}
    (harity : l.yieldOperands.length = l.initArgs.length)
    (hy : ∀ k, y = some k → k < l.initArgs.length)
    (h : rewriteMMA l mmaOp accAlloc accLoad pt y false numStages = .ok l') :
    l'.yieldOperands[l.initArgs.length + 2]? = some (.loopArg (l.initArgs.length + 3)) ∧
    l'.yieldOperands[l.initArgs.length + 3]? = some (.loopArg (l.initArgs.length + 4)) := by
  unfold rewriteMMA at h
  simp only at h
  split at h
  · cases h
  · rename_i l4 info4 hhoist
    cases h
    have hn : (({ loop := l, ip := InsertPt.beforeLoop } : Builder).create
        (OpKind.constantInt 0 32) []).loop.initArgs.length = l.initArgs.length := by
      simp [Builder.create, ForLoop.insertAt]
    have key : ∀ j, j < 4 → 2 ≤ j →
        (invalidateAndDeallocBarrier (createBarrierAndWaitOps l4 mmaOp info4 numStages).1
          ((createBarrierAndWaitOps l4 mmaOp info4 numStages).2.barrierAlloc.getD
            (Value.opResult 0 0)) numStages).yieldOperands[l.initArgs.length + j]?
          = some (.loopArg (l.initArgs.length + j + 1)) := by
      intro j hj4 hj2
      refine yield_of_grows
        (grows_invalidateAndDeallocBarrier (z := 0) (k := .other) (s := []) _ _ _) ?_
      have hh := yield_hoistAndUseTMemAlloc_single (j := l.initArgs.length + j)
        (a := l.initArgs.length + j + 1) rfl
        (fun k hk => by have := hy k hk; omega) ?_ hhoist
      · obtain ⟨hy4, hidx, hphase, _, _⟩ := hh
        apply yield_createBarrierAndWaitOps _ _ _ ?_ ?_ hy4
        · rw [hidx, hn]; simp; omega
        · rw [hphase, hn]; simp; omega
      · simp only [annotateWithPipelineStage, ForLoop.updateOp, appendToForOpYield,
          replaceForOpWithNewSignature, create_yieldOperands, hn]
        rw [List.getElem?_append_right (by omega)]
        rw [show l.initArgs.length + j - l.yieldOperands.length = j by omega]
        interval_cases j <;> simp
    exact ⟨key 2 (by omega) (by omega), key 3 (by omega) (by omega)⟩

/-- Claim C8. Acceptance scenario, buffering: when the load of the accumulator
has no direct consumer inside the loop at the time the driver checks, and the
driver rewrites the MMA, then the rewrite runs with `accIsMultiBuffered = false`
(so `createTMemAlloc` gives the new storage the shape of the old one and
`updateAccDefsInLoop` is not applied), the terminator yields the block
arguments of the insert slot and of the extract slot unchanged, both slots are
initialised with the constant zero, and both carried indices are zero at the
start of every iteration. -/
theorem C8_single_buffered (env : Env) (numStages fuel : Nat) (l l' : ForLoop) (mmaOp : Nat)
    (accAlloc accLoad : Op)
    (hids : IdsBelow l) (harity : l.yieldOperands.length = l.initArgs.length)
    (halloc : getTMemAllocAndLoad l mmaOp = some (accAlloc, accLoad))
    (hdirect : ∀ l1 pt, getAccOverrideOrFlagFalseInLoop l mmaOp = .ok (l1, pt) →
      getDirectAccUses l1 accLoad = [])
    (h : processMMA env numStages fuel l mmaOp = .ok (l', true)) :
    (∃ l1 pt y, getAccOverrideOrFlagFalseInLoop l mmaOp = .ok (l1, pt) ∧
      rewriteMMA l1 mmaOp accAlloc accLoad pt y false numStages = .ok l') ∧
    (∀ b : Builder, b.ip = .beforeLoop →
      (createTMemAlloc b accAlloc false numStages).loop.before
        = b.loop.before ++ [newOp b.loop.nextId .tmemAlloc [] accAlloc.shape]) ∧
    l'.yieldOperands[l.initArgs.length + 2]? = some (.loopArg (l.initArgs.length + 3)) ∧
    l'.yieldOperands[l.initArgs.length + 3]? = some (.loopArg (l.initArgs.length + 4)) ∧
    (∀ k, carriedValue l' (l.initArgs.length + 2) k = some 0 ∧
          carriedValue l' (l.initArgs.length + 3) k = some 0) := by
  obtain ⟨a, ld, y, l1, pt, halloc', htrack, hdet, hrw⟩ := (processMMA_inv h).1 rfl
  rw [halloc] at halloc'
  cases halloc'
  rw [hdirect l1 pt hdet] at hrw
  simp only [List.isEmpty_nil, Bool.not_true] at hrw
  have g := grows_getAccOverrideOrFlagFalseInLoop (z := 0) (k := .other) (s := []) hdet
  have harity1 : l1.yieldOperands.length = l1.initArgs.length := by
    rw [g.yieldOperands, g.initArgs, harity]
  have hy : ∀ k, y = some k → k < l1.initArgs.length := by
    intro k hk
    subst hk
    rw [g.initArgs, ← harity]
    exact trackAccChain_slot_lt htrack
  have hyield := rewriteMMA_single_yield harity1 hy hrw
  rw [g.initArgs] at hyield
  have hsig := rewriteMMA_signature hrw
  have hmem := getTMemAllocAndLoad_mem halloc
  have hkeeps := hsig.2.2 (idsBelow_getAccOverrideOrFlagFalseInLoop hdet hids)
    (Nat.lt_of_lt_of_le (hids.body _ hmem.1) g.nextId)
    (Nat.lt_of_lt_of_le (hids.body _ hmem.2) g.nextId)
  have hinit : ∀ j, j < 4 →
      l'.initArgs[l.initArgs.length + j]? = some (Value.opResult l1.nextId 0) := by
    intro j hj
    rw [hsig.1, g.initArgs, List.getElem?_append_right (by omega)]
    simp only [Nat.add_sub_cancel_left]
    rw [List.getElem?_replicate]
    simp [hj]
  refine ⟨⟨l1, pt, y, hdet, hrw⟩, ?_, hyield.1, hyield.2, fun k => ⟨?_, ?_⟩⟩
  · intro b hb
    simp [createTMemAlloc, Builder.create, ForLoop.insertAt, hb]
  · exact carriedValue_unchanged (hinit 2 (by omega)) (keeps_constantValue hkeeps 0)
      hyield.1 k
  · exact carriedValue_unchanged (hinit 3 (by omega)) (keeps_constantValue hkeeps 0)
      hyield.2 k

/-- Witness of claim C8: the acceptance scenario; the new storage before the
rewritten loop has the shape of the old one, and the insert and the extract
index are zero in iteration 5. -/
theorem C8_single_buffered_witness :
    processMMA exampleEnv 2 10 exampleAccept 11 = .ok (exampleAcceptRewritten, true) ∧
    shapesOfKind .tmemAlloc exampleAcceptRewritten.before = [[128, 128]] ∧
    carriedValue exampleAcceptRewritten 3 5 = some 0 ∧
    carriedValue exampleAcceptRewritten 4 5 = some 0 := by
  have hrun : processMMA exampleEnv 2 10 exampleAccept 11
      = .ok (exampleAcceptRewritten, true) := by rfl
  have hdet : getAccOverrideOrFlagFalseInLoop exampleAccept 11
      = .ok (exampleAccept, none) := by rfl
  have h := C8_single_buffered exampleEnv 2 10 exampleAccept exampleAcceptRewritten 11
    { id := 10, kind := .tmemAlloc, operands := [.loopArg 1], shape := [128, 128] }
    { id := 12, kind := .tmemLoad, operands := [.opResult 10 0] }
    ⟨by decide, by decide, by decide⟩ rfl (by rfl)
    (fun l1 pt hd => by
      rw [hdet] at hd
      cases hd
      decide)
    hrun
  exact ⟨hrun, by decide, (h.2.2.2.2 5).1, (h.2.2.2.2 5).2⟩

/-! ## Theorems of the stage scheduler -/

theorem count_eq_true {s : CoarseSchedule} {k : SchedKey} :
    s.count k = true ↔ k ∈ s.entries.map fun e => e.1 := by
  unfold CoarseSchedule.count
  rw [List.any_eq_true, List.mem_map]
  constructor
  · rintro ⟨e, he, hk⟩
    exact ⟨e, he, by simpa using hk⟩
  · rintro ⟨e, he, hk⟩
    exact ⟨e, he, by simpa using hk⟩

theorem stageOf_mem {s : CoarseSchedule} {k : SchedKey} {stage : Int}
    (h : s.stageOf k = some stage) : (k, stage) ∈ s.entries := by
  unfold CoarseSchedule.stageOf at h
  rw [Option.map_eq_some'] at h
  obtain ⟨e, he, hst⟩ := h
  have hk : e.1 = k := by simpa using List.find?_some he
  have hm := List.mem_of_find?_eq_some he
  rw [← hk, ← hst]
  exact hm

theorem stageOf_isSome_of_count {s : CoarseSchedule} {k : SchedKey} (h : s.count k = true) :
    ∃ stage, s.stageOf k = some stage := by
  unfold CoarseSchedule.count at h
  unfold CoarseSchedule.stageOf
  cases hf : s.entries.find? fun e => e.1 == k with
  | some e => exact ⟨e.2, rfl⟩
  | none =>
    rw [List.find?_eq_none] at hf
    rw [List.any_eq_true] at h
    obtain ⟨e, he, hk⟩ := h
    exact absurd hk (hf e he)

/-- What `insert` does to a schedule that satisfies the invariant. -/
theorem insert_inv {l : ForLoop} {s : CoarseSchedule} (k : SchedKey) (stage : Int)
    (hs : SchedInv l s) (hk : k ∈ l.keys) (hst : AllowedStage l stage) :
    SchedInv l (s.insert k stage) ∧
    (s.insert k stage).numStages = s.numStages ∧
    (s.count k = false → (s.insert k stage).entries.length = s.entries.length + 1) ∧
    (s.count k = true → (s.insert k stage).entries.length = s.entries.length) ∧
    (s.insert k stage).count k = true ∧
    (∀ k', s.count k' = true → (s.insert k stage).count k' = true) := by
  unfold CoarseSchedule.insert
  cases hc : s.count k with
  | true =>
    simp only [if_true]
    have hkeys : (s.entries.map fun e => if e.1 = k then (k, stage) else e).map
        (fun e => e.1) = s.entries.map fun e => e.1 := by
      rw [List.map_map]
      apply List.map_congr_left
      intro e _
      simp only [Function.comp]
      split
      · rename_i h; exact h.symm
      · rfl
    refine ⟨⟨?_, ?_, ?_⟩, ?_, ?_, ?_, ?_, ?_⟩
    rotate_left 3
    · trivial
    · intro h; cases h
    · intro _; simp
    rotate_left 2
    · simp only; rw [hkeys]; exact hs.nodup
    · intro e he
      simp only [List.mem_map] at he
      obtain ⟨e0, he0, rfl⟩ := he
      split
      · exact hk
      · exact hs.keys e0 he0
    · intro e he
      simp only [List.mem_map] at he
      obtain ⟨e0, he0, rfl⟩ := he
      split
      · exact hst
      · exact hs.stages e0 he0
    · rw [count_eq_true]; simp only; rw [hkeys]; exact count_eq_true.1 hc
    · intro k' hk'
      rw [count_eq_true]; simp only; rw [hkeys]; exact count_eq_true.1 hk'
  | false =>
    simp only [Bool.false_eq_true, if_false]
    have hnot : k ∉ s.entries.map fun e => e.1 := by
      intro h
      rw [← count_eq_true, hc] at h
      cases h
    refine ⟨⟨?_, ?_, ?_⟩, ?_, ?_, ?_, ?_, ?_⟩
    rotate_left 3
    · trivial
    · intro _; simp
    · intro h; cases h
    rotate_left 2
    · simp only [List.map_append, List.map_cons, List.map_nil]
      rw [List.nodup_append]
      refine ⟨hs.nodup, List.nodup_singleton _, ?_⟩
      intro x hx hx'
      rw [List.mem_singleton] at hx'
      exact hnot (hx' ▸ hx)
    · intro e he
      rcases List.mem_append.1 he with he | he
      · exact hs.keys e he
      · rw [List.mem_singleton.1 he]; exact hk
    · intro e he
      rcases List.mem_append.1 he with he | he
      · exact hs.stages e he
      · rw [List.mem_singleton.1 he]; exact hst
    · rw [count_eq_true]; simp
    · intro k' hk'
      rw [count_eq_true] at hk' ⊢
      simp only [List.map_append]
      exact List.mem_append_left _ hk'

theorem keys_length (l : ForLoop) : l.keys.length = l.keyCount := by
  simp [ForLoop.keys, ForLoop.keyCount]

/-- A schedule that satisfies the invariant has at most as many entries as the
loop has keys. -/
theorem SchedInv.length_le {l : ForLoop} {s : CoarseSchedule} (hs : SchedInv l s) :
    s.entries.length ≤ l.keyCount := by
  have hsub : (s.entries.map fun e => e.1) ⊆ l.keys := by
    intro k hk
    rw [List.mem_map] at hk
    obtain ⟨e, he, rfl⟩ := hk
    exact hs.keys e he
  have := (List.subperm_of_subset hs.nodup hsub).length_le
  rw [List.length_map, keys_length] at this
  exact this

/-- The loop over the neighbours in a propagation step returns, given that the
recursive calls with `fuel` return. -/
theorem propagateLoop_total {l : ForLoop}
    {F : CoarseSchedule → SchedKey → Int → Except Err (CoarseSchedule × Bool)}
    {s : CoarseSchedule} {stage : Int} {fuel : Nat}
    (hst : AllowedStage l stage)
    (hfuel : l.keyCount + 1 ≤ s.entries.length + (fuel + 1))
    (ih : ∀ s1 op, SchedInv l s1 → l.keyCount + 1 ≤ s1.entries.length + fuel →
      ∃ s' ch, F s1 op stage = .ok (s', ch) ∧ Propagated l s1 s' ch)
    (us : List SchedKey) (hus : ∀ u ∈ us, u ∈ l.keys) :
    ∀ acc : CoarseSchedule × Bool, Propagated l s acc.1 acc.2 →
      ∃ acc', us.foldlM (propagateStep F stage) acc = .ok acc' ∧
        Propagated l s acc'.1 acc'.2 := by
  induction us with
  | nil =>
    intro acc hacc
    exact ⟨acc, rfl, hacc⟩
  | cons u us ihus =>
    intro acc hacc
    simp only [List.foldlM_cons, bind, Except.bind, propagateStep]
    have hus' : ∀ u' ∈ us, u' ∈ l.keys := fun u' h => hus u' (List.mem_cons_of_mem _ h)
    cases hc : acc.1.count u with
    | true =>
      simp only [if_true]
      exact ihus hus' acc hacc
    | false =>
      simp only [Bool.false_eq_true, if_false]
      have hins := insert_inv u stage hacc.inv (hus u (List.mem_cons_self _ _)) hst
      have hlen := hins.2.2.1 hc
      obtain ⟨s', ch, hF, hp⟩ := ih (acc.1.insert u stage) u hins.1 (by
        have := hacc.length_le
        omega)
      rw [hF]
      simp only
      refine ihus hus' (s', true) ⟨hp.inv, ?_, ?_, ?_, ?_, ?_⟩
      · rw [hp.numStages, hins.2.1, hacc.numStages]
      · have := hp.length_le; have := hacc.length_le; simp only; omega
      · intro _; have := hp.length_le; have := hacc.length_le; simp only; omega
      · intro h; cases h
      · intro k hk
        exact hp.counts k (hins.2.2.2.2.2 k (hacc.counts k hk))

/-- A propagation step defined by recursion over the fuel returns when the
fuel exceeds the number of keys that have no entry yet. -/
theorem propagate_total (l : ForLoop) (nbrs : SchedKey → List SchedKey)
    (F : Nat → CoarseSchedule → SchedKey → Int → Except Err (CoarseSchedule × Bool))
    (hF : ∀ fuel s op stage, F (fuel + 1) s op stage =
      (nbrs op).foldlM (propagateStep (F fuel) stage) (s, false))
    (hn : ∀ op, ∀ u ∈ nbrs op, u ∈ l.keys) (stage : Int) (hst : AllowedStage l stage) :
    ∀ fuel s op, SchedInv l s → l.keyCount + 1 ≤ s.entries.length + fuel →
      ∃ s' ch, F fuel s op stage = .ok (s', ch) ∧ Propagated l s s' ch := by
  intro fuel
  induction fuel with
  | zero =>
    intro s op hs hfuel
    have := hs.length_le
    omega
  | succ fuel ih =>
    intro s op hs hfuel
    rw [hF]
    obtain ⟨acc', hacc', hp⟩ := propagateLoop_total (F := F fuel) hst hfuel ih (nbrs op)
      (hn op) (s, false)
      ⟨hs, rfl, Nat.le_refl _, fun h => (by cases h), fun _ => rfl, fun _ h => h⟩
    exact ⟨acc'.1, acc'.2, hacc', hp⟩

theorem usersOfKey_mem (l : ForLoop) (op : SchedKey) : ∀ u ∈ usersOfKey l op, u ∈ l.keys := by
  intro u hu
  unfold usersOfKey at hu
  split at hu
  · cases hu
  · rcases List.mem_append.1 hu with h | h
    · rw [List.mem_flatMap] at h
      obtain ⟨o, ho, hu'⟩ := h
      rw [List.mem_map] at hu'
      obtain ⟨_, _, rfl⟩ := hu'
      exact List.mem_append_left _ (List.mem_map_of_mem _ ho)
    · rw [List.mem_map] at h
      obtain ⟨_, _, rfl⟩ := h
      exact List.mem_append_right _ (List.mem_singleton_self _)

theorem producersOfKey_mem (l : ForLoop) (op : SchedKey) :
    ∀ u ∈ producersOfKey l op, u ∈ l.keys := by
  intro u hu
  unfold producersOfKey at hu
  split at hu
  · cases hu
  · split at hu
    · cases hu
    · rw [List.mem_filterMap] at hu
      obtain ⟨v, _, hv⟩ := hu
      split at hv
      · rename_i d _
        split at hv
        · rename_i hd
          cases hv
          cases hb : l.bodyOp? d with
          | none => rw [hb] at hd; cases hd
          | some o =>
            have := findIn_some hb
            refine List.mem_append_left _ ?_
            rw [List.mem_map]
            exact ⟨o, this.1, by rw [this.2]⟩
        · cases hv
      · cases hv

/-- The recursion of `insertUsersOfOp` returns when the fuel exceeds the number
of keys without entry. -/
theorem insertUsersOfOp_total (l : ForLoop) (stage : Int) (hst : AllowedStage l stage) :
    ∀ fuel s op, SchedInv l s → l.keyCount + 1 ≤ s.entries.length + fuel →
      ∃ s' ch, insertUsersOfOp l fuel s op stage = .ok (s', ch) ∧ Propagated l s s' ch :=
  propagate_total l (usersOfKey l) (insertUsersOfOp l) (fun _ _ _ _ => rfl)
    (usersOfKey_mem l) stage hst

theorem insertDepsOfOp_total (l : ForLoop) (stage : Int) (hst : AllowedStage l stage) :
    ∀ fuel s op, SchedInv l s → l.keyCount + 1 ≤ s.entries.length + fuel →
      ∃ s' ch, insertDepsOfOp l fuel s op stage = .ok (s', ch) ∧ Propagated l s s' ch :=
  propagate_total l (producersOfKey l) (insertDepsOfOp l) (fun _ _ _ _ => rfl)
    (producersOfKey_mem l) stage hst

theorem Swept.start {l : ForLoop} {s : CoarseSchedule} (f : Bool) (hs : SchedInv l s) :
    Swept l s f s f :=
  ⟨hs, rfl, Nat.le_refl _, fun h => ⟨h, rfl⟩, fun h => Or.inl h⟩

theorem Swept.chain {l : ForLoop} {s0 s1 s2 : CoarseSchedule} {f0 f1 f2 : Bool}
    (h1 : Swept l s0 f0 s1 f1) (h2 : Swept l s1 f1 s2 f2) : Swept l s0 f0 s2 f2 := by
  refine ⟨h2.inv, h2.numStages.trans h1.numStages,
    Nat.le_trans h1.length_le h2.length_le, fun h => ?_, fun h => ?_⟩
  · obtain ⟨hf1, hs⟩ := h2.fixed h
    obtain ⟨hf0, hs'⟩ := h1.fixed hf1
    exact ⟨hf0, hs.trans hs'⟩
  · have hl1 := h1.length_le
    have hl2 := h2.length_le
    rcases h2.grew h with hf1 | hlt
    · rcases h1.grew hf1 with hf0 | hlt
      · exact Or.inl hf0
      · exact Or.inr (by omega)
    · exact Or.inr (by omega)

theorem sweepStep_total {l : ForLoop}
    {propagate : CoarseSchedule → SchedKey → Int → Except Err (CoarseSchedule × Bool)}
    (hprop : ∀ s op stage, SchedInv l s → AllowedStage l stage →
      ∃ s' ch, propagate s op stage = .ok (s', ch) ∧ Propagated l s s' ch)
    (stage : Int) (acc : CoarseSchedule × Bool) (o : Op) (hacc : SchedInv l acc.1) :
    ∃ r, sweepStep propagate stage acc o = .ok r ∧ Swept l acc.1 acc.2 r.1 r.2 := by
  unfold sweepStep
  split
  · rename_i hcond
    simp only [Bool.and_eq_true, beq_iff_eq] at hcond
    have hst : AllowedStage l stage := hacc.stages _ (stageOf_mem hcond.2)
    obtain ⟨s', ch, hp, hpost⟩ := hprop acc.1 (.op o.id) stage hacc hst
    rw [hp]
    refine ⟨(s', acc.2 && !ch), rfl, hpost.inv, hpost.numStages, hpost.length_le,
      fun h => ?_, fun h => ?_⟩
    · simp only [Bool.and_eq_true, Bool.not_eq_true'] at h
      exact ⟨h.1, hpost.same h.2⟩
    · simp only [Bool.and_eq_false_iff, Bool.not_eq_false'] at h
      rcases h with h | h
      · exact Or.inl h
      · exact Or.inr (hpost.grew h)
  · exact ⟨acc, rfl, Swept.start _ hacc⟩

/-- A fold whose steps return, and are related to their start by a relation
that can be chained, returns. -/
theorem foldlM_total {α : Type} {l : ForLoop}
    (f : CoarseSchedule × Bool → α → Except Err (CoarseSchedule × Bool))
    (hf : ∀ acc x, SchedInv l acc.1 →
      ∃ r, f acc x = .ok r ∧ Swept l acc.1 acc.2 r.1 r.2)
    (xs : List α) :
    ∀ acc, SchedInv l acc.1 →
      ∃ r, xs.foldlM f acc = .ok r ∧ Swept l acc.1 acc.2 r.1 r.2 := by
  induction xs with
  | nil => intro acc hacc; exact ⟨acc, rfl, Swept.start _ hacc⟩
  | cons x xs ih =>
    intro acc hacc
    obtain ⟨r1, h1, hs1⟩ := hf acc x hacc
    obtain ⟨r2, h2, hs2⟩ := ih r1 hs1.inv
    refine ⟨r2, ?_, hs1.chain hs2⟩
    simp only [List.foldlM_cons, bind, Except.bind, h1]
    exact h2

theorem sweep_total {l : ForLoop}
    {propagate : CoarseSchedule → SchedKey → Int → Except Err (CoarseSchedule × Bool)}
    (hprop : ∀ s op stage, SchedInv l s → AllowedStage l stage →
      ∃ s' ch, propagate s op stage = .ok (s', ch) ∧ Propagated l s s' ch)
    (stages : List Int) (st : CoarseSchedule × Bool) (hst : SchedInv l st.1) :
    ∃ r, sweep l propagate stages st = .ok r ∧ Swept l st.1 st.2 r.1 r.2 := by
  unfold sweep
  exact foldlM_total _ (fun acc stage hacc =>
    foldlM_total _ (fun acc o hacc => sweepStep_total hprop stage acc o hacc) _ acc hacc)
    stages st hst

/-- One round of `scheduleDependencies` returns; when it does not report a
fixed point the schedule has gained an entry. -/
theorem scheduleRound_total {l : ForLoop} {s : CoarseSchedule} (hs : SchedInv l s) :
    ∃ s' fp, scheduleRound l s = .ok (s', fp) ∧ Swept l s true s' fp := by
  unfold scheduleRound
  simp only
  have hdeps : ∀ s op stage, SchedInv l s → AllowedStage l stage →
      ∃ s' ch, insertDepsOfOp l (l.keyCount + 1) s op stage = .ok (s', ch) ∧
        Propagated l s s' ch :=
    fun s op stage hs hst => insertDepsOfOp_total l stage hst _ s op hs (by omega)
  have husers : ∀ s op stage, SchedInv l s → AllowedStage l stage →
      ∃ s' ch, insertUsersOfOp l (l.keyCount + 1) s op stage = .ok (s', ch) ∧
        Propagated l s s' ch :=
    fun s op stage hs hst => insertUsersOfOp_total l stage hst _ s op hs (by omega)
  obtain ⟨r1, h1, hs1⟩ := sweep_total hdeps
    ((List.range s.numStages).map fun i => (i : Int)) (s, true) hs
  rw [h1]
  obtain ⟨r2, h2, hs2⟩ := sweep_total husers
    ((List.range s.numStages).map fun i => (i : Int)).reverse r1 hs1.inv
  exact ⟨r2.1, r2.2, h2, hs1.chain hs2⟩

/-- The closure `scheduleDependencies` reaches a fixed point within the step
budget given to it. -/
theorem scheduleDependencies_total {l : ForLoop} :
    ∀ fuel s, SchedInv l s → l.keyCount + 1 ≤ s.entries.length + fuel →
      ∃ s', scheduleDependencies l fuel s = .ok s' ∧ SchedInv l s' ∧
        s'.numStages = s.numStages := by
  intro fuel
  induction fuel with
  | zero =>
    intro s hs hfuel
    have := hs.length_le
    omega
  | succ fuel ih =>
    intro s hs hfuel
    obtain ⟨s', fp, hr, hsw⟩ := scheduleRound_total hs
    unfold scheduleDependencies
    rw [hr]
    cases fp with
    | true => exact ⟨s', rfl, hsw.inv, hsw.numStages⟩
    | false =>
      simp only
      rcases hsw.grew rfl with h | h
      · cases h
      · obtain ⟨s'', h2, hinv, hn⟩ := ih s' hsw.inv (by omega)
        exact ⟨s'', h2, hinv, hn.trans hsw.numStages⟩

/-- A fold whose steps are safe is safe. -/
theorem foldlM_safe {σ α : Type} (P : σ → Prop) (f : σ → α → Except Err σ)
    (xs : List α) (hf : ∀ s x, x ∈ xs → P s → Safe P (f s x)) :
    ∀ s, P s → Safe P (xs.foldlM f s) := by
  induction xs with
  | nil => intro s hs; exact hs
  | cons x xs ih =>
    intro s hs
    simp only [List.foldlM_cons, bind, Except.bind]
    have h1 := hf s x (List.mem_cons_self _ _) hs
    cases hfx : f s x with
    | error e =>
      rw [hfx] at h1
      exact h1
    | ok s1 =>
      rw [hfx] at h1
      exact ih (fun s x hx => hf s x (List.mem_cons_of_mem _ hx)) s1 h1

theorem mem_assocSet {β : Type} {m : List (Nat × β)} {k : Nat} {v : β} {e : Nat × β}
    (h : e ∈ assocSet m k v) : e = (k, v) ∨ e ∈ m := by
  unfold assocSet at h
  rcases List.mem_cons.1 h with h | h
  · exact Or.inl h
  · exact Or.inr (List.mem_filter.1 h).1

theorem assocGet?_mem {β : Type} {m : List (Nat × β)} {k : Nat} {v : β}
    (h : assocGet? m k = some v) : ∃ e ∈ m, e.2 = v := by
  unfold assocGet? at h
  rw [Option.map_eq_some'] at h
  obtain ⟨e, he, hv⟩ := h
  exact ⟨e, List.mem_of_find?_eq_some he, hv⟩

theorem bodyBlock_subset {l : ForLoop} {o : Op} (h : o ∈ l.bodyBlock) : o ∈ l.body :=
  (List.mem_filter.1 h).1

theorem bodyBlock_key {l : ForLoop} {o : Op} (h : o ∈ l.bodyBlock) :
    SchedKey.op o.id ∈ l.keys :=
  List.mem_append_left _ (List.mem_map_of_mem _ (bodyBlock_subset h))

theorem mapsOK_setStage {l : ForLoop} {m : AllocMaps} (k : Nat) (stage : Int)
    (hm : MapsOK l m) (hst : AllowedStage l stage) :
    MapsOK l { m with allocToStage := assocSet m.allocToStage k stage } := by
  refine ⟨fun e he => ?_, hm.waits⟩
  rcases mem_assocSet he with h | h
  · rw [h]; exact hst
  · exact hm.stages e h

/-- The loop that fills the two maps does not exhaust a step budget, and its
maps satisfy their invariant. -/
theorem collectAllocStages_safe (env : SchedEnv) {l : ForLoop} {s : CoarseSchedule}
    (hs : SchedInv l s) : Safe (MapsOK l) (collectAllocStages env l s) := by
  unfold collectAllocStages
  refine foldlM_safe (MapsOK l) _ _ (fun m o ho hm => ?_) _
    ⟨fun e he => (by cases he), fun e he => (by cases he)⟩
  try dsimp only
  split
  · split
    · simp [Safe]
    · split
      · simp [Safe]
      · split
        · simp [Safe]
        · refine ⟨hm.stages, fun e he => ?_⟩
          rcases mem_assocSet he with h | h
          · rw [h]; exact bodyBlock_key ho
          · exact hm.waits e h
  · split
    · exact hm
    · rename_i stage hstage
      have hst : AllowedStage l stage := hs.stages _ (stageOf_mem hstage)
      show MapsOK l _
      generalize o.operands = args
      induction args generalizing m with
      | nil => exact hm
      | cons a rest ih =>
        simp only [List.foldl_cons]
        apply ih
        split
        · split
          · exact mapsOK_setStage _ _ hm hst
          · exact hm
        · exact hm

theorem insertMinimum_inv {l : ForLoop} {s : CoarseSchedule} (k : SchedKey) (stage : Int)
    (hs : SchedInv l s) (hk : k ∈ l.keys) (hst : AllowedStage l stage) :
    SchedInv l (s.insertMinimum k stage) ∧
    (s.insertMinimum k stage).numStages = s.numStages := by
  unfold CoarseSchedule.insertMinimum
  split
  · rename_i existing he
    have hex : AllowedStage l existing := hs.stages _ (stageOf_mem he)
    have hmin : AllowedStage l (min stage existing) := by
      rcases min_choice stage existing with h | h
      · rw [h]; exact hst
      · rw [h]; exact hex
    exact ⟨(insert_inv k _ hs hk hmin).1, (insert_inv k _ hs hk hmin).2.1⟩
  · exact ⟨(insert_inv k _ hs hk hst).1, (insert_inv k _ hs hk hst).2.1⟩

/-- The loop that schedules the asynchronous copies keeps the invariant of the
schedule. -/
theorem scheduleAsyncCopies_safe (env : SchedEnv) {l : ForLoop} {m : AllocMaps}
    {s : CoarseSchedule} (hm : MapsOK l m) (hs : SchedInv l s) :
    Safe (fun s' => SchedInv l s' ∧ s'.numStages = s.numStages)
      (scheduleAsyncCopies env l m s) := by
  unfold scheduleAsyncCopies
  refine foldlM_safe (fun s' => SchedInv l s' ∧ s'.numStages = s.numStages) _ _
    (fun s1 o ho hs1 => ?_) _ ⟨hs, rfl⟩
  try dsimp only
  split
  · exact hs1
  · split
    · simp [Safe]
    · rename_i localAlloc _
      have hst : AllowedStage l ((assocGet? m.allocToStage localAlloc).getD 0) := by
        cases hg : assocGet? m.allocToStage localAlloc with
        | none => exact Or.inl rfl
        | some v =>
          obtain ⟨e, he, hv⟩ := assocGet?_mem hg
          simp only [Option.getD_some]
          rw [← hv]; exact hm.stages e he
      have hins := insert_inv (.op o.id) _ hs1.1 (bodyBlock_key ho) hst
      split
      · exact ⟨hins.1, hins.2.1.trans hs1.2⟩
      · split
        · simp [Safe]
        · split
          · rename_i waitOp hw
            obtain ⟨e, he, hv⟩ := assocGet?_mem hw
            have hkey : SchedKey.op waitOp ∈ l.keys := by
              rw [← hv]; exact hm.waits e he
            have hmin := insertMinimum_inv (.op waitOp) _ hins.1 hkey hst
            exact ⟨hmin.1, hmin.2.trans (hins.2.1.trans hs1.2)⟩
          · exact ⟨hins.1, hins.2.1.trans hs1.2⟩

/-- After "schedule everything else to stage 0" every operation of the body
block has an entry. -/
theorem scheduleRest_inv {l : ForLoop} (ops : List Op) (hops : ∀ o ∈ ops, o ∈ l.bodyBlock) :
    ∀ s, SchedInv l s →
      SchedInv l (ops.foldl (fun s o =>
        if s.count (.op o.id) then s else s.insert (.op o.id) 0) s) ∧
      (∀ k, s.count k = true → (ops.foldl (fun s o =>
        if s.count (.op o.id) then s else s.insert (.op o.id) 0) s).count k = true) ∧
      (∀ o ∈ ops, (ops.foldl (fun s o =>
        if s.count (.op o.id) then s else s.insert (.op o.id) 0) s).count (.op o.id)
          = true) := by
  induction ops with
  | nil => intro s hs; exact ⟨hs, fun _ h => h, fun o ho => by cases ho⟩
  | cons x xs ih =>
    intro s hs
    simp only [List.foldl_cons]
    have hins := insert_inv (.op x.id) 0 hs (bodyBlock_key (hops x (List.mem_cons_self _ _)))
      (Or.inl rfl)
    have hstep : SchedInv l (if s.count (.op x.id) then s else s.insert (.op x.id) 0) ∧
        (∀ k, s.count k = true →
          (if s.count (.op x.id) then s else s.insert (.op x.id) 0).count k = true) ∧
        (if s.count (.op x.id) then s else s.insert (.op x.id) 0).count (.op x.id) = true := by
      split
      · rename_i hc; exact ⟨hs, fun _ h => h, hc⟩
      · exact ⟨hins.1, hins.2.2.2.2.2, hins.2.2.2.2.1⟩
    obtain ⟨h1, h2, h3⟩ := ih (fun o ho => hops o (List.mem_cons_of_mem _ ho)) _ hstep.1
    refine ⟨h1, fun k hk => h2 k (hstep.2.1 k hk), fun o ho => ?_⟩
    rcases List.mem_cons.1 ho with h | h
    · rw [h]; exact h2 _ hstep.2.2
    · exact h3 o h

/-- The seeds of the schedule, the stage annotations of the body block, satisfy
the invariant. -/
theorem seed_inv {l : ForLoop} (ops : List Op) (hops : ∀ o ∈ ops, o ∈ l.bodyBlock) :
    ∀ s, SchedInv l s →
      SchedInv l (ops.foldl (fun s o =>
        match o.stage with
        | some stage => s.insert (.op o.id) stage
        | none => s) s) ∧
      (ops.foldl (fun s o =>
        match o.stage with
        | some stage => s.insert (.op o.id) stage
        | none => s) s).numStages = s.numStages := by
  induction ops with
  | nil => intro s hs; exact ⟨hs, rfl⟩
  | cons x xs ih =>
    intro s hs
    simp only [List.foldl_cons]
    have hx := hops x (List.mem_cons_self _ _)
    have hxs : ∀ o ∈ xs, o ∈ l.bodyBlock := fun o ho => hops o (List.mem_cons_of_mem _ ho)
    cases hst : x.stage with
    | none => exact ih hxs s hs
    | some stage =>
      have hins := insert_inv (.op x.id) stage hs (bodyBlock_key hx) (Or.inr ⟨x, hx, hst⟩)
      obtain ⟨h1, h2⟩ := ih hxs _ hins.1
      exact ⟨h1, h2.trans hins.2.1⟩

theorem schedInv_empty (l : ForLoop) (n : Nat) :
    SchedInv l { numStages := n, entries := [] } :=
  ⟨List.nodup_nil, fun e he => (by cases he), fun e he => (by cases he)⟩

/-- The stage schedule is built without exhausting a step budget; it satisfies
the invariant and holds every operation of the body block. -/
theorem coarseScheduleOf_safe (env : SchedEnv) (l : ForLoop) (numStages : Nat) :
    Safe (fun s => SchedInv l s ∧ ∀ o ∈ l.bodyBlock, s.count (.op o.id) = true)
      (coarseScheduleOf env l numStages) := by
  unfold coarseScheduleOf
  have hseed := seed_inv l.bodyBlock (fun _ h => h) _ (schedInv_empty l numStages)
  obtain ⟨s1, h1, hs1, _⟩ := scheduleDependencies_total (l := l) (l.keyCount + 1) _ hseed.1
    (Nat.le_add_left _ _)
  simp only [h1]
  have hmaps := collectAllocStages_safe env hs1
  cases hc : collectAllocStages env l s1 with
  | error e => rw [hc] at hmaps; exact hmaps
  | ok maps =>
    rw [hc] at hmaps
    have hcopies := scheduleAsyncCopies_safe env hmaps hs1
    simp only
    cases ha : scheduleAsyncCopies env l maps s1 with
    | error e => rw [ha] at hcopies; exact hcopies
    | ok s2 =>
      rw [ha] at hcopies
      obtain ⟨s3, h3, hs3, _⟩ := scheduleDependencies_total (l := l) (l.keyCount + 1) _
        hcopies.1 (Nat.le_add_left _ _)
      simp only [h3]
      have hrest := scheduleRest_inv l.bodyBlock (fun _ h => h) s3 hs3
      exact ⟨hrest.1, hrest.2.2⟩

theorem createFinalSchedule_ids (s : CoarseSchedule) (ops : List Op)
    (hall : ∀ o ∈ ops, s.count (.op o.id) = true) :
    (ops.filterMap fun o => (s.stageOf (.op o.id)).map fun stage => (o.id, stage)).map
      Prod.fst = ops.map fun o => o.id := by
  induction ops with
  | nil => rfl
  | cons x xs ih =>
    obtain ⟨st, hst⟩ := stageOf_isSome_of_count (hall x (List.mem_cons_self _ _))
    rw [List.filterMap_cons, hst]
    simp only [Option.map_some', List.map_cons]
    rw [ih (fun o ho => hall o (List.mem_cons_of_mem _ ho))]

theorem createFinalSchedule_stage {l : ForLoop} {s : CoarseSchedule} (hs : SchedInv l s)
    {e : Nat × Int} (he : e ∈ createFinalSchedule l s) : AllowedStage l e.2 := by
  unfold createFinalSchedule at he
  obtain ⟨o, _, ho⟩ := List.mem_filterMap.1 he
  cases hst : s.stageOf (.op o.id) with
  | none => rw [hst] at ho; cases ho
  | some st =>
    rw [hst] at ho
    simp only [Option.map_some', Option.some.injEq] at ho
    rw [← ho]
    exact hs.stages _ (stageOf_mem hst)

/-- Claim C4 as stated fails: the acceptance scenario rewritten with pipeline
depth 3 is tagged by the driver, the scheduler created with stage count 2
returns a schedule for it, and the entry of the barrier wait (operation 54,
annotated `numStages - 1 = 2` by `createBarrierAndWaitOps`) has stage 2, which
is not in [0, 2). -/
theorem C4_stage_range_counterexample :
    tagLoop exampleEnv exampleAccept 3 10 = .ok exampleAcceptDepthThree ∧
    exampleAcceptDepthThree.pipeline = true ∧
    (getTC05MMASchedule exampleSchedEnv exampleAcceptDepthThree 2).map (fun r => r.2)
      = .ok [(53, 0), (11, 0), (54, 2), (55, 0), (56, 0), (57, 0), (58, 0), (59, 0)] ∧
    ¬ (∀ sched, (getTC05MMASchedule exampleSchedEnv exampleAcceptDepthThree 2).map
        (fun r => r.2) = .ok sched → ∀ e ∈ sched, 0 ≤ e.2 ∧ e.2 < (2 : Int)) := by
  have hs : (getTC05MMASchedule exampleSchedEnv exampleAcceptDepthThree 2).map (fun r => r.2)
      = .ok [(53, 0), (11, 0), (54, 2), (55, 0), (56, 0), (57, 0), (58, 0), (59, 0)] := by rfl
  refine ⟨by rfl, by rfl, hs, fun h => ?_⟩
  have h2 := (h _ hs (54, 2) (by decide)).2
  exact absurd h2 (by decide)

/-- The scheduler on any loop: `getTC05MMASchedule` never exhausts its step
budget, and when it returns, the schedule lists the operations of the body
block in order, so every non-terminator operation of the body (distinct
identifiers) has exactly one entry; the stage of every entry is 0 or a stage
annotation carried by an operation of the body block, hence it lies in [0, S)
whenever S is positive and every annotation of the body block does. -/
theorem getTC05MMASchedule_complete (env : SchedEnv) (l : ForLoop) (S : Nat) :
    getTC05MMASchedule env l S ≠ .error .outOfFuel ∧
    ∀ l1 sched, getTC05MMASchedule env l S = .ok (l1, sched) →
      sched.map Prod.fst = l.bodyBlock.map (fun o => o.id) ∧
      ((l.bodyBlock.map fun o => o.id).Nodup →
        ∀ o ∈ l.bodyBlock, (sched.map Prod.fst).count o.id = 1) ∧
      (∀ e ∈ sched, AllowedStage l e.2) ∧
      (0 < S → (∀ o ∈ l.bodyBlock, ∀ st, o.stage = some st → 0 ≤ st ∧ st < (S : Int)) →
        ∀ e ∈ sched, 0 ≤ e.2 ∧ e.2 < (S : Int)) := by
  have hsafe := coarseScheduleOf_safe env l S
  unfold getTC05MMASchedule
  cases hc : coarseScheduleOf env l S with
  | error e =>
    rw [hc] at hsafe
    refine ⟨fun h => ?_, fun l1 sched h => (by cases h)⟩
    simp only [Except.error.injEq] at h
    exact hsafe h
  | ok s =>
    rw [hc] at hsafe
    obtain ⟨hinv, hall⟩ := hsafe
    refine ⟨fun h => (by cases h), fun l1 sched h => ?_⟩
    simp only [Except.ok.injEq, Prod.mk.injEq] at h
    obtain ⟨_, hsched⟩ := h
    subst hsched
    have hids : (createFinalSchedule l s).map Prod.fst = l.bodyBlock.map (fun o => o.id) :=
      createFinalSchedule_ids s l.bodyBlock hall
    have hstage : ∀ e ∈ createFinalSchedule l s, AllowedStage l e.2 :=
      fun e he => createFinalSchedule_stage hinv he
    refine ⟨hids, fun hnd o ho => ?_, hstage, fun hS hann e he => ?_⟩
    · rw [hids]
      exact List.count_eq_one_of_mem hnd (List.mem_map_of_mem _ ho)
    · rcases hstage e he with h0 | ⟨o, ho, hst⟩
      · rw [h0]; exact ⟨le_refl _, by exact_mod_cast hS⟩
      · exact hann o ho _ hst

/-! ## Stage annotations written by the rewrite -/

theorem stage_insertBefore {ref : Nat} {new x : Op} {ops : List Op}
    (h : x ∈ insertBefore ref new ops) : x ∈ ops ∨ x.stage = new.stage := by
  induction ops with
  | nil => simp [insertBefore] at h
  | cons o os ih =>
    unfold insertBefore at h
    split at h
    · rcases List.mem_cons.1 h with h | h
      · right; rw [h]
      · left; exact h
    · rcases List.mem_cons.1 h with h | h
      · left; rw [h]; exact List.mem_cons_self _ _
      · rcases ih h with h | h
        · left; exact List.mem_cons_of_mem _ h
        · right; exact h

theorem stage_insertAfter {ref : Nat} {new x : Op} {ops : List Op}
    (h : x ∈ insertAfter ref new ops) : x ∈ ops ∨ x.stage = new.stage := by
  induction ops with
  | nil => simp [insertAfter] at h
  | cons o os ih =>
    unfold insertAfter at h
    split at h
    · rcases List.mem_cons.1 h with h | h
      · left; rw [h]; exact List.mem_cons_self _ _
      · rcases mem_insertBehindNested h with h | h
        · left; exact List.mem_cons_of_mem _ h
        · right; rw [h]
    · rcases List.mem_cons.1 h with h | h
      · left; rw [h]; exact List.mem_cons_self _ _
      · rcases ih h with h | h
        · left; exact List.mem_cons_of_mem _ h
        · right; exact h

/-- An operation inside the loop after `insertAt` is an old one or has the stage
annotation of the new operation. -/
theorem stage_insertAt (l : ForLoop) (ip : InsertPt) (new : Op) :
    ∀ x ∈ (l.insertAt ip new).body, x ∈ l.body ∨ x.stage = new.stage := by
  unfold ForLoop.insertAt
  cases ip with
  | beforeLoop => exact fun x hx => Or.inl hx
  | afterLoop k => exact fun x hx => Or.inl hx
  | before ref =>
    simp only
    split
    · exact fun x hx => Or.inl hx
    · split
      · exact fun x hx => stage_insertBefore hx
      · split <;> exact fun x hx => Or.inl hx
  | after ref =>
    simp only
    split
    · exact fun x hx => Or.inl hx
    · split
      · exact fun x hx => stage_insertAfter hx
      · split <;> exact fun x hx => Or.inl hx

theorem StagesIn.of_body {P : Int → Prop} {l l' : ForLoop} (hb : l'.body = l.body)
    (h : StagesIn P l) : StagesIn P l' := by
  intro o ho
  rw [hb] at ho
  exact h o ho

theorem stagesIn_create {P : Int → Prop} {b : Builder} (kind : OpKind)
    (operands : List Value) (shape : List Nat) (h : StagesIn P b.loop) :
    StagesIn P (b.create kind operands shape).loop := by
  intro o ho st hst
  rcases stage_insertAt b.loop b.ip (newOp b.loop.nextId kind operands shape) o ho with h1 | h1
  · exact h o h1 st hst
  · rw [h1] at hst; cases hst

theorem stagesIn_updateOp {P : Int → Prop} (l : ForLoop) (id : Nat) (f : Op → Op)
    (hf : ∀ o st, (f o).stage = some st → o.stage = some st ∨ P st) (h : StagesIn P l) :
    StagesIn P (l.updateOp id f) := by
  intro o ho st hst
  obtain ⟨o0, ho0, rfl⟩ := List.mem_map.1 ho
  split at hst
  · rcases hf o0 st hst with h1 | h1
    · exact h o0 ho0 st h1
    · exact h1
  · exact h o0 ho0 st hst

theorem stagesIn_annotate {P : Int → Prop} (l : ForLoop) (op : Nat) (stage : Int)
    (hst : P stage) (h : StagesIn P l) : StagesIn P (annotateWithPipelineStage l op stage) :=
  stagesIn_updateOp l op _ (fun _ st hs => Or.inr (by cases hs; exact hst)) h

theorem stagesIn_replaceUsesOfWith {P : Int → Prop} (l : ForLoop) (op : Nat)
    (old new : Value) (h : StagesIn P l) : StagesIn P (l.replaceUsesOfWith op old new) :=
  stagesIn_updateOp l op _ (fun _ _ hs => Or.inl hs) h

theorem stagesIn_assignMMAOperand {P : Int → Prop} (l : ForLoop) (mmaOp : Nat)
    (i : Option Nat) (v : Value) (h : StagesIn P l) :
    StagesIn P (assignMMAOperand l mmaOp i v) := by
  unfold assignMMAOperand
  cases i with
  | none => exact h
  | some i =>
    refine stagesIn_updateOp l mmaOp _ (fun o st hs => Or.inl ?_) h
    split at hs <;> exact hs

theorem stagesIn_eraseOp {P : Int → Prop} {l l' : ForLoop} {id : Nat}
    (he : l.eraseOp id = .ok l') (h : StagesIn P l) : StagesIn P l' := by
  unfold ForLoop.eraseOp at he
  split at he
  · cases he
    exact fun o ho => h o (List.mem_filter.1 ho).1
  · cases he

theorem stagesIn_replaceAllUsesDominatedBy {P : Int → Prop} (l : ForLoop) (domOp : Nat)
    (newValue oldValue : Value) (h : StagesIn P l) :
    StagesIn P (replaceAllUsesDominatedBy l domOp newValue oldValue) := by
  intro o ho st hst
  obtain ⟨o0, ho0, rfl⟩ := List.mem_map.1 ho
  split at hst <;> exact h o0 ho0 st hst

theorem stagesIn_replaceAllUsesWith {P : Int → Prop} (l : ForLoop) (old new : Value)
    (newOp : Nat) (h : StagesIn P l) : StagesIn P (l.replaceAllUsesWith old new newOp) := by
  intro o ho st hst
  obtain ⟨o0, ho0, rfl⟩ := List.mem_map.1 ho
  exact h o0 ho0 st hst

theorem stagesIn_createSingleBufferView {P : Int → Prop} {b : Builder} (alloc idx : Value)
    (h : StagesIn P b.loop) : StagesIn P (createSingleBufferView b alloc idx).loop := by
  unfold createSingleBufferView
  simp only
  split <;> repeat (first | exact h | apply stagesIn_create)

theorem stagesIn_createSingleBufferViewAt {P : Int → Prop} {b : Builder} (alloc : Value)
    (idx : Nat) (h : StagesIn P b.loop) :
    StagesIn P (createSingleBufferViewAt b alloc idx).loop := by
  unfold createSingleBufferViewAt
  exact stagesIn_createSingleBufferView _ _ (stagesIn_create _ _ _ h)

theorem stagesIn_foldl {P : Int → Prop} {α : Type} (f : Builder → α → Builder)
    (hf : ∀ b x, StagesIn P b.loop → StagesIn P (f b x).loop)
    (xs : List α) (b : Builder) (h : StagesIn P b.loop) :
    StagesIn P (xs.foldl f b).loop := by
  induction xs generalizing b with
  | nil => exact h
  | cons x xs ih => exact ih (f b x) (hf b x h)

theorem stagesIn_createBarrierAlloc {P : Int → Prop} (l : ForLoop) (numStages : Nat)
    (h : StagesIn P l) : StagesIn P (createBarrierAlloc l numStages).1 := by
  unfold createBarrierAlloc
  simp only
  apply stagesIn_foldl
  · intro b x hb
    exact stagesIn_create _ _ _ (stagesIn_createSingleBufferViewAt _ _ hb)
  · exact stagesIn_create _ _ _ h

theorem stagesIn_invalidateAndDeallocBarrier {P : Int → Prop} (l : ForLoop)
    (barrierAlloc : Value) (numStages : Nat) (h : StagesIn P l) :
    StagesIn P (invalidateAndDeallocBarrier l barrierAlloc numStages) := by
  unfold invalidateAndDeallocBarrier
  simp only
  apply stagesIn_create
  apply stagesIn_foldl
  · intro b x hb
    exact stagesIn_create _ _ _ (stagesIn_createSingleBufferViewAt _ _ hb)
  · exact h

theorem stagesIn_createTMemAlloc {P : Int → Prop} {b : Builder} (old : Op) (multi : Bool)
    (numStages : Nat) (h : StagesIn P b.loop) :
    StagesIn P (createTMemAlloc b old multi numStages).loop := by
  unfold createTMemAlloc
  exact stagesIn_create _ _ _ h

theorem stagesIn_createInitStore {P : Int → Prop} {b : Builder} (allocOp initVal : Value)
    (multi : Bool) (h : StagesIn P b.loop) :
    StagesIn P (createInitStore b allocOp initVal multi).loop := by
  unfold createInitStore
  simp only
  apply stagesIn_create
  apply stagesIn_create
  split
  · exact stagesIn_createSingleBufferViewAt _ _ h
  · exact h

theorem stagesIn_emitNextIdx {P : Int → Prop} {b : Builder} (idx numStagesVal : Value)
    (condition : Option Value) (h : StagesIn P b.loop) :
    StagesIn P (emitNextIdx b idx numStagesVal condition).loop := by
  unfold emitNextIdx
  simp only
  split <;> repeat (first | exact h | apply stagesIn_create)

theorem stagesIn_emitInitStore {P : Int → Prop} {b : Builder} (newAlloc newInsertIdx : Value)
    (accDef : AccOverridePoint) (h0 : P 0) (h : StagesIn P b.loop) :
    StagesIn P (emitInitStore b newAlloc newInsertIdx accDef).loop := by
  unfold emitInitStore
  split
  · simp only
    refine stagesIn_annotate _ _ _ h0 ?_
    apply stagesIn_create
    apply stagesIn_create
    exact stagesIn_createSingleBufferView _ _ h
  · exact h

theorem stagesIn_foldl_replaceUsesOfWith {P : Int → Prop} (old new : Value)
    (users : List Op) (l : ForLoop) (h : StagesIn P l) :
    StagesIn P (users.foldl (fun l user => l.replaceUsesOfWith user.id old new) l) := by
  induction users generalizing l with
  | nil => exact h
  | cons u us ih => exact ih _ (stagesIn_replaceUsesOfWith l u.id old new h)

theorem stagesIn_loadFromBuffer {P : Int → Prop} {b : Builder} (multi : Bool)
    (newAlloc idx : Value) (h : StagesIn P b.loop) :
    StagesIn P (loadFromBuffer b multi newAlloc idx).loop := by
  unfold loadFromBuffer
  split
  · exact stagesIn_create _ _ _ (stagesIn_createSingleBufferView _ _ h)
  · exact stagesIn_create _ _ _ h

theorem stagesIn_annotateAncestorInBody {P : Int → Prop} (l : ForLoop) (op : Nat)
    (stage : Int) (hst : P stage) (h : StagesIn P l) :
    StagesIn P (annotateAncestorInBody l op stage) := by
  unfold annotateAncestorInBody
  split
  · split
    · exact stagesIn_annotate _ _ _ hst h
    · exact h
  · exact h

theorem stagesIn_updateAccUsesInLoop {P : Int → Prop} {l l' : ForLoop} {info : MMAInfo}
    {newAlloc : Value} {numStages : Nat} (hn : P ((numStages : Int) - 1))
    (he : updateAccUsesInLoop l info newAlloc numStages = .ok l') (h : StagesIn P l) :
    StagesIn P l' := by
  unfold updateAccUsesInLoop at he
  simp only at he
  split at he
  · cases he; exact h
  · split at he
    · cases he
    · cases he
      apply stagesIn_foldl_replaceUsesOfWith
      refine stagesIn_annotateAncestorInBody _ _ _ hn ?_
      exact stagesIn_loadFromBuffer _ _ _ h

theorem stagesIn_updateAccUsesOutsideLoop {P : Int → Prop} (l : ForLoop) (info : MMAInfo)
    (newAlloc : Value) (extractIdxArgNo : Nat) (h : StagesIn P l) :
    StagesIn P (updateAccUsesOutsideLoop l info newAlloc extractIdxArgNo) := by
  unfold updateAccUsesOutsideLoop
  split
  · exact h
  · simp only
    split
    · exact h
    · apply stagesIn_replaceAllUsesWith
      apply stagesIn_loadFromBuffer
      exact h

theorem stagesIn_emitAccDefs {P : Int → Prop} (l : ForLoop) (info : MMAInfo)
    (accDef : AccOverridePoint) (newAlloc : Value) (numStages : Nat) (h0 : P 0) (h1 : P 1)
    (h : StagesIn P l) : StagesIn P (emitAccDefs l info accDef newAlloc numStages).loop := by
  unfold emitAccDefs
  simp only
  refine stagesIn_emitInitStore _ _ _ h0 ?_
  refine stagesIn_annotate _ _ _ h1 ?_
  apply stagesIn_emitNextIdx
  refine stagesIn_annotate _ _ _ h0 ?_
  apply stagesIn_emitNextIdx
  apply stagesIn_create
  exact h

theorem stagesIn_updateAccDefsInLoop {P : Int → Prop} {l l' : ForLoop}
    {info info' : MMAInfo} {newAlloc : Value} {numStages : Nat} (h0 : P 0) (h1 : P 1)
    (he : updateAccDefsInLoop l info newAlloc numStages = .ok (l', info'))
    (h : StagesIn P l) : StagesIn P l' := by
  unfold updateAccDefsInLoop at he
  split at he
  · cases he
  · rename_i accDef _
    have hs := stagesIn_emitAccDefs l info accDef newAlloc numStages h0 h1 h
    generalize emitAccDefs l info accDef newAlloc numStages = e at he hs
    simp only at he
    have hl1 : StagesIn P
        (if accDef.distance = 0 then
          replaceAllUsesDominatedBy
            (replaceAllUsesDominatedBy
              (yieldNewIndices e.loop info e.newInsertIdx e.newExtractIdx)
              e.newInsertIdxOp e.newInsertIdx info.accInsertIdx)
            e.newExtractIdxOp e.newExtractIdx info.accExtractIdx
        else yieldNewIndices e.loop info e.newInsertIdx e.newExtractIdx) := by
      split
      · apply stagesIn_replaceAllUsesDominatedBy
        apply stagesIn_replaceAllUsesDominatedBy
        exact hs.of_body rfl
      · exact hs.of_body rfl
    generalize (if accDef.distance = 0 then
          replaceAllUsesDominatedBy
            (replaceAllUsesDominatedBy
              (yieldNewIndices e.loop info e.newInsertIdx e.newExtractIdx)
              e.newInsertIdxOp e.newInsertIdx info.accInsertIdx)
            e.newExtractIdxOp e.newExtractIdx info.accExtractIdx
        else yieldNewIndices e.loop info e.newInsertIdx e.newExtractIdx) = l1 at he hl1
    split at he
    · split at he
      · split at he
        · rename_i l2 herase
          cases he
          exact stagesIn_eraseOp herase hl1
        · cases he
      · cases he
    · cases he
      exact hl1

theorem stagesIn_hoistAlloc {P : Int → Prop} {l l' : ForLoop} {info : MMAInfo}
    {numStages newAllocId : Nat} (he : hoistAlloc l info numStages = .ok (l', newAllocId))
    (h : StagesIn P l) : StagesIn P l' := by
  unfold hoistAlloc at he
  simp only at he
  split at he
  · split at he
    · cases he
      apply stagesIn_createInitStore
      apply stagesIn_createTMemAlloc
      repeat apply stagesIn_create
      exact h
    · cases he
  · cases he
    apply stagesIn_createTMemAlloc
    repeat apply stagesIn_create
    exact h

theorem stagesIn_useHoistedAlloc {P : Int → Prop} (l : ForLoop) (mmaOp : Nat)
    (info : MMAInfo) (newAlloc : Value) (h : StagesIn P l) :
    StagesIn P (useHoistedAlloc l mmaOp info newAlloc) := by
  unfold useHoistedAlloc
  split
  · apply stagesIn_assignMMAOperand
    apply stagesIn_createSingleBufferView
    exact h
  · exact stagesIn_assignMMAOperand _ _ _ _ h

theorem stagesIn_shortCircuitAccumulator {P : Int → Prop} {l l' : ForLoop}
    {yieldArgNo : Option Nat} (he : shortCircuitAccumulator l yieldArgNo = .ok l')
    (h : StagesIn P l) : StagesIn P l' := by
  unfold shortCircuitAccumulator at he
  split at he
  · split at he
    · cases he; exact h.of_body rfl
    · cases he
  · cases he; exact h

theorem stagesIn_hoistAndUseTMemAlloc {P : Int → Prop} {l l' : ForLoop} {mmaOp : Nat}
    {info info' : MMAInfo} {numStages : Nat} (h0 : P 0) (h1 : P 1)
    (hn : P ((numStages : Int) - 1))
    (he : hoistAndUseTMemAlloc l mmaOp info numStages = .ok (l', info'))
    (h : StagesIn P l) : StagesIn P l' := by
  unfold hoistAndUseTMemAlloc at he
  split at he
  · cases he
  · rename_i l0 newAllocId he0
    simp only at he
    split at he
    · cases he
    · rename_i l2 he2
      split at he
      · rename_i extractIdxArgNo _
        split at he
        · cases he
        · rename_i l4 he4
          split at he
          · cases he
          · rename_i l5 info5 he5
            split at he
            · cases he
            · rename_i l6 he6
              split at he
              · cases he
              · rename_i l7 he7
                cases he
                have s0 : StagesIn P l0 := stagesIn_hoistAlloc he0 h
                have s2 : StagesIn P l2 :=
                  stagesIn_updateAccUsesInLoop hn he2 (stagesIn_useHoistedAlloc _ _ _ _ s0)
                have s4 : StagesIn P l4 :=
                  stagesIn_shortCircuitAccumulator he4
                    (stagesIn_updateAccUsesOutsideLoop _ _ _ _ s2)
                have s5 : StagesIn P l5 := by
                  split at he5
                  · exact stagesIn_updateAccDefsInLoop h0 h1 he5 s4
                  · cases he5
                    exact s4
                exact stagesIn_eraseOp he7 (stagesIn_eraseOp he6 s5)
      · cases he

theorem stagesIn_emitWaitAndAdvance {P : Int → Prop} (l : ForLoop) (mmaOp : Nat)
    (info : MMAInfo) (numStages : Nat) (zeroVal one numStagesVal barrierSlice : Value)
    (h0 : P 0) (hn : P ((numStages : Int) - 1)) (h : StagesIn P l) :
    StagesIn P
      (emitWaitAndAdvance l mmaOp info numStages zeroVal one numStagesVal barrierSlice).1 := by
  unfold emitWaitAndAdvance
  simp only
  refine stagesIn_annotate _ _ _ h0 ?_
  apply stagesIn_replaceAllUsesDominatedBy
  apply stagesIn_create
  apply stagesIn_create
  refine stagesIn_annotate _ _ _ h0 ?_
  apply stagesIn_replaceAllUsesDominatedBy
  apply stagesIn_create
  apply stagesIn_create
  apply stagesIn_create
  refine stagesIn_annotate _ _ _ hn ?_
  apply stagesIn_create
  exact h

theorem stagesIn_createBarrierAndWaitOps {P : Int → Prop} (l : ForLoop) (mmaOp : Nat)
    (info : MMAInfo) (numStages : Nat) (h0 : P 0) (hn : P ((numStages : Int) - 1))
    (h : StagesIn P l) : StagesIn P (createBarrierAndWaitOps l mmaOp info numStages).1 := by
  unfold createBarrierAndWaitOps
  simp only
  refine stagesIn_emitWaitAndAdvance _ _ _ _ _ _ _ _ h0 hn ?_
  apply stagesIn_assignMMAOperand
  apply stagesIn_createSingleBufferView
  apply stagesIn_createBarrierAlloc
  repeat apply stagesIn_create
  exact h

theorem stagesIn_negate {P : Int → Prop} (l : ForLoop) (ip : InsertPt) (x : Value)
    (h : StagesIn P l) : StagesIn P (negate l ip x).1 := by
  unfold negate
  simp only
  apply stagesIn_create
  apply stagesIn_create
  exact h

theorem stagesIn_getAccOverrideOrFlagFalseInLoop {P : Int → Prop} {l l1 : ForLoop}
    {mmaOp : Nat} {p : Option AccOverridePoint}
    (he : getAccOverrideOrFlagFalseInLoop l mmaOp = .ok (l1, p)) (h : StagesIn P l) :
    StagesIn P l1 := by
  rcases (getAccOverrideOrFlagFalseInLoop_effect he).2 with h1 | ⟨ip, x, h1, _⟩
  · rw [h1]; exact h
  · rw [h1]; exact stagesIn_negate _ _ _ h

theorem stagesIn_rewriteMMA {P : Int → Prop} {l l' : ForLoop} {mmaOp : Nat}
    {accAlloc accLoad : Op} {pt : Option AccOverridePoint} {yieldArgNo : Option Nat}
    {multi : Bool} {numStages : Nat} (h0 : P 0) (h1 : P 1) (hn : P ((numStages : Int) - 1))
    (he : rewriteMMA l mmaOp accAlloc accLoad pt yieldArgNo multi numStages = .ok l')
    (h : StagesIn P l) : StagesIn P l' := by
  unfold rewriteMMA at he
  simp only at he
  split at he
  · cases he
  · rename_i l4 info4 he4
    cases he
    apply stagesIn_invalidateAndDeallocBarrier
    refine stagesIn_createBarrierAndWaitOps _ _ _ _ h0 hn ?_
    refine stagesIn_hoistAndUseTMemAlloc h0 h1 hn he4 ?_
    refine stagesIn_annotate _ _ _ h0 ?_
    refine StagesIn.of_body (l := ({ loop := l, ip := .beforeLoop } : Builder).create
      (.constantInt 0 32) [] |>.loop) rfl ?_
    exact stagesIn_create _ _ _ h

theorem stagesIn_processMMA {P : Int → Prop} {env : Env} {numStages fuel : Nat}
    {l l' : ForLoop} {mmaOp : Nat} {r : Bool} (h0 : P 0) (h1 : P 1)
    (hn : P ((numStages : Int) - 1))
    (he : processMMA env numStages fuel l mmaOp = .ok (l', r)) (h : StagesIn P l) :
    StagesIn P l' := by
  cases r with
  | true =>
    obtain ⟨accAlloc, accLoad, y, l1, pt, _, _, hdet, hrw⟩ := (processMMA_inv he).1 rfl
    exact stagesIn_rewriteMMA h0 h1 hn hrw (stagesIn_getAccOverrideOrFlagFalseInLoop hdet h)
  | false =>
    rcases (processMMA_inv he).2 rfl with h2 | ⟨pt, h2⟩
    · rw [h2]; exact h
    · exact stagesIn_getAccOverrideOrFlagFalseInLoop h2 h

theorem stagesIn_processMMAs {P : Int → Prop} {env : Env} {numStages fuel : Nat}
    (h0 : P 0) (h1 : P 1) (hn : P ((numStages : Int) - 1)) (mmaOps : List Nat) :
    ∀ (l l' : ForLoop) (c c' : Nat),
      processMMAs env numStages fuel mmaOps (l, c) = .ok (l', c') →
      StagesIn P l → StagesIn P l' := by
  induction mmaOps with
  | nil =>
    intro l l' c c' he h
    simp only [processMMAs, Except.ok.injEq, Prod.mk.injEq] at he
    rw [← he.1]; exact h
  | cons m rest ih =>
    intro l l' c c' he h
    unfold processMMAs at he
    split at he
    · cases he
    · rename_i l2 hp
      exact ih _ _ _ _ he (stagesIn_processMMA h0 h1 hn hp h)
    · rename_i l2 hp
      exact ih _ _ _ _ he (stagesIn_processMMA h0 h1 hn hp h)

/-- The stage annotations inside a loop the driver has processed are the ones
it had before, or 0, 1 or `numStages - 1`. -/
theorem stagesIn_tagLoop {P : Int → Prop} {env : Env} {numStages fuel : Nat}
    {l l' : ForLoop} (h0 : P 0) (h1 : P 1) (hn : P ((numStages : Int) - 1))
    (he : tagLoop env l numStages fuel = .ok l') (h : StagesIn P l) : StagesIn P l' := by
  unfold tagLoop preProcessLoopForTC05MMAPipelining preProcessLoopCounting at he
  simp only at he
  split at he
  · cases he
  · rename_i newForOp hpre
    cases he
    refine StagesIn.of_body (l := newForOp) rfl ?_
    split at hpre
    · cases hpre
    · rename_i r hcount
      simp only [Except.ok.injEq] at hpre
      split at hcount
      · cases hcount; cases hpre
      · split at hcount
        · cases hcount; cases hpre
        · split at hcount
          · cases hcount
          · rename_i r2 hproc
            cases hcount
            simp only [Option.map_some', Option.some.injEq] at hpre
            rw [← hpre]
            exact stagesIn_processMMAs h0 h1 hn _ _ _ _ _ hproc h
  · cases he; exact h

/-- Claim C4, amended: for every loop the driver has processed with pipeline
depth `numStages`, `getTC05MMASchedule` finishes its fixed-point loop, and when
it returns, the schedule lists the operations of the body block in order, so
every non-terminator operation of the body (distinct identifiers) has exactly
one entry. When `1 ≤ numStages ≤ S`, `2 ≤ S` (the driver passes S = 2) and the
stage annotations the loop came with lie in [0, S), the stage of every entry
lies in [0, S). -/
theorem C4_schedule_complete (env : Env) (senv : SchedEnv) (l l' : ForLoop)
    (numStages fuel S : Nat) (htag : tagLoop env l numStages fuel = .ok l') :
    getTC05MMASchedule senv l' S ≠ .error .outOfFuel ∧
    ∀ l1 sched, getTC05MMASchedule senv l' S = .ok (l1, sched) →
      sched.map Prod.fst = l'.bodyBlock.map (fun o => o.id) ∧
      ((l'.bodyBlock.map fun o => o.id).Nodup →
        ∀ o ∈ l'.bodyBlock, (sched.map Prod.fst).count o.id = 1) ∧
      (1 ≤ numStages → numStages ≤ S → 2 ≤ S →
        (∀ o ∈ l.body, ∀ st, o.stage = some st → 0 ≤ st ∧ st < (S : Int)) →
        ∀ e ∈ sched, 0 ≤ e.2 ∧ e.2 < (S : Int)) := by
  have hgen := getTC05MMASchedule_complete senv l' S
  refine ⟨hgen.1, fun l1 sched hs => ?_⟩
  obtain ⟨hids, hcount, _, hrange⟩ := hgen.2 l1 sched hs
  refine ⟨hids, hcount, fun h1 hle h2 hann => ?_⟩
  have hS : (2 : Int) ≤ (S : Int) := by exact_mod_cast h2
  have hn1 : (1 : Int) ≤ (numStages : Int) := by exact_mod_cast h1
  have hn2 : (numStages : Int) ≤ (S : Int) := by exact_mod_cast hle
  have hstages : StagesIn (fun st => 0 ≤ st ∧ st < (S : Int)) l' :=
    stagesIn_tagLoop (P := fun st => 0 ≤ st ∧ st < (S : Int))
      ⟨le_refl _, by omega⟩ ⟨by omega, by omega⟩ ⟨by omega, by omega⟩ htag hann
  exact hrange (by omega) (fun o ho => hstages o (bodyBlock_subset ho))

/-- The amended claim C4 on the acceptance scenario rewritten with pipeline
depth 2 and scheduled with stage count 2: the schedule is returned, every
operation of the body block has exactly one entry, and every stage is 0 or 1. -/
theorem C4_schedule_complete_witness :
    tagLoop exampleEnv exampleAccept 2 10 = .ok exampleAcceptTagged ∧
    (getTC05MMASchedule exampleSchedEnv exampleAcceptTagged 2).map (fun r => r.2)
      = .ok [(50, 0), (11, 0), (51, 1), (52, 0), (53, 0), (54, 0), (55, 0), (56, 0)] ∧
    (∀ o ∈ exampleAcceptTagged.bodyBlock,
      ([(50, 0), (11, 0), (51, 1), (52, 0), (53, 0), (54, 0), (55, 0), (56, 0)].map
        (Prod.fst : Nat × Int → Nat)).count o.id = 1) ∧
    (∀ e ∈ ([(50, 0), (11, 0), (51, 1), (52, 0), (53, 0), (54, 0), (55, 0), (56, 0)] :
        List (Nat × Int)), 0 ≤ e.2 ∧ e.2 < ((2 : Nat) : Int)) := by
  have htag : tagLoop exampleEnv exampleAccept 2 10 = .ok exampleAcceptTagged := by rfl
  have hs : getTC05MMASchedule exampleSchedEnv exampleAcceptTagged 2
      = .ok ((match getTC05MMASchedule exampleSchedEnv exampleAcceptTagged 2 with
              | .ok r => r.1
              | .error _ => exampleAcceptTagged),
             [(50, 0), (11, 0), (51, 1), (52, 0), (53, 0), (54, 0), (55, 0), (56, 0)]) := by rfl
  have h := (C4_schedule_complete exampleEnv exampleSchedEnv exampleAccept exampleAcceptTagged
    2 10 2 htag).2 _ _ hs
  refine ⟨htag, by rfl, h.2.1 (by decide),
    h.2.2 (by decide) (by decide) (by decide) ?_⟩
  decide

/-! ## The backward walk over carried values -/

/-- The block arguments met so far are distinct carried values of the loop. -/
theorem seen_length_le {l : ForLoop} {seen : List Value} (hnd : seen.Nodup)
    (hv : ∀ x ∈ seen, ∃ k, k < l.yieldOperands.length ∧ x = .loopArg (k + 1)) :
    seen.length ≤ l.yieldOperands.length := by
  have hsub : seen ⊆ (List.range l.yieldOperands.length).map fun k => Value.loopArg (k + 1) := by
    intro x hx
    obtain ⟨k, hk, rfl⟩ := hv x hx
    exact List.mem_map.2 ⟨k, List.mem_range.2 hk, rfl⟩
  have h := (List.subperm_of_subset hnd hsub).length_le
  simpa using h

/-- The walk never exhausts its step budget, and a value it returns is reached
by the hops counted in the distance and has no further hop. -/
theorem walkCarried_sound (l : ForLoop) :
    ∀ (fuel : Nat) (seen : List Value) (v : Value) (dist : Nat),
      seen.Nodup →
      (∀ x ∈ seen, ∃ k, k < l.yieldOperands.length ∧ x = .loopArg (k + 1)) →
      l.yieldOperands.length + 1 ≤ seen.length + fuel →
      walkCarried l fuel seen v dist ≠ .error .outOfFuel ∧
      (∀ v' d, walkCarried l fuel seen v dist = .ok (some (v', d)) →
        ∃ n, d = dist + n ∧ hops l n v = some v' ∧ v'.isBlockArgument = false ∧
          seen.length + n ≤ l.yieldOperands.length) ∧
      (walkCarried l fuel seen v dist = .ok none →
        ∃ n w, hops l n v = some w ∧ w.isBlockArgument = true ∧
          (w ∈ seen ∨ ∃ i, i < n ∧ hops l i v = some w)) := by
  intro fuel
  induction fuel with
  | zero =>
    intro seen v dist hnd hv hfuel
    have hlen := seen_length_le hnd hv
    omega
  | succ fuel ih =>
    intro seen v dist hnd hv hfuel
    have hlen := seen_length_le hnd hv
    cases v with
    | opResult d i =>
      simp only [walkCarried]
      refine ⟨fun h => (by cases h), fun v' d' h => ?_, fun h => (by cases h)⟩
      simp only [Except.ok.injEq, Option.some.injEq, Prod.mk.injEq] at h
      exact ⟨0, by omega, by rw [← h.1]; rfl, by rw [← h.1]; rfl, by omega⟩
    | foreignArg b a =>
      simp only [walkCarried]
      split
      · rename_i hin
        refine ⟨fun h => (by cases h), fun v' d' h => (by cases h), fun _ => ?_⟩
        exact ⟨0, _, rfl, rfl, Or.inl hin⟩
      · exact ⟨fun h => (by cases h), fun v' d' h => (by cases h), fun h => (by cases h)⟩
    | loopArg a =>
      simp only [walkCarried]
      split
      · rename_i hin
        refine ⟨fun h => (by cases h), fun v' d' h => (by cases h), fun _ => ?_⟩
        exact ⟨0, _, rfl, rfl, Or.inl hin⟩
      · rename_i hnin
        cases a with
        | zero =>
          exact ⟨fun h => (by cases h), fun v' d' h => (by cases h), fun h => (by cases h)⟩
        | succ k =>
          simp only
          cases hy : l.yieldOperands[k]? with
          | none =>
            exact ⟨fun h => (by cases h), fun v' d' h => (by cases h), fun h => (by cases h)⟩
          | some v1 =>
            simp only
            have hk : k < l.yieldOperands.length := by
              by_contra hge
              rw [List.getElem?_eq_none (Nat.le_of_not_lt hge)] at hy
              cases hy
            have hnd1 : (Value.loopArg (k + 1) :: seen).Nodup := List.nodup_cons.2 ⟨hnin, hnd⟩
            have hv1 : ∀ x ∈ Value.loopArg (k + 1) :: seen,
                ∃ k, k < l.yieldOperands.length ∧ x = .loopArg (k + 1) := by
              intro x hx
              rcases List.mem_cons.1 hx with h | h
              · exact ⟨k, hk, h⟩
              · exact hv x h
            have hrec := ih (Value.loopArg (k + 1) :: seen) v1 (dist + 1) hnd1 hv1
              (by simp only [List.length_cons]; omega)
            have hstep : ∀ n, hops l (n + 1) (Value.loopArg (k + 1)) = hops l n v1 := by
              intro n
              simp only [hops, carriedHop, hy]
            refine ⟨hrec.1, fun v' d' h => ?_, fun h => ?_⟩
            · obtain ⟨n, hd, hh, hb, hle⟩ := hrec.2.1 v' d' h
              refine ⟨n + 1, by omega, by rw [hstep]; exact hh, hb, ?_⟩
              simp only [List.length_cons] at hle
              omega
            · obtain ⟨n, w, hh, hb, hw⟩ := hrec.2.2 h
              refine ⟨n + 1, w, by rw [hstep]; exact hh, hb, ?_⟩
              rcases hw with hw | ⟨i, hi, hw⟩
              · rcases List.mem_cons.1 hw with h1 | h1
                · exact Or.inr ⟨0, Nat.succ_pos _, by rw [h1]; rfl⟩
                · exact Or.inl h1
              · exact Or.inr ⟨i + 1, Nat.succ_lt_succ hi, by rw [hstep]; exact hw⟩

/-- A walk that meets a carried value twice returns no value. -/
theorem walkCarried_cycle (l : ForLoop) :
    ∀ (n fuel : Nat) (seen : List Value) (v : Value) (dist : Nat) (w : Value),
      seen.Nodup →
      (∀ x ∈ seen, ∃ k, k < l.yieldOperands.length ∧ x = .loopArg (k + 1)) →
      l.yieldOperands.length + 1 ≤ seen.length + fuel →
      hops l n v = some w → w.isBlockArgument = true →
      (w ∈ seen ∨ ∃ i, i < n ∧ hops l i v = some w) →
      walkCarried l fuel seen v dist = .ok none := by
  intro n
  induction n with
  | zero =>
    intro fuel seen v dist w hnd hv hfuel hh hb hw
    simp only [hops, Option.some.injEq] at hh
    subst hh
    rcases hw with hw | ⟨i, hi, _⟩
    · cases fuel <;> cases v <;> simp_all [walkCarried, Value.isBlockArgument]
    · omega
  | succ n ih =>
    intro fuel seen v dist w hnd hv hfuel hh hb hw
    have hlen := seen_length_le hnd hv
    cases v with
    | opResult d i => simp [hops, carriedHop] at hh
    | foreignArg b a => simp [hops, carriedHop] at hh
    | loopArg a =>
      cases a with
      | zero => simp [hops, carriedHop] at hh
      | succ k =>
        cases hy : l.yieldOperands[k]? with
        | none => simp [hops, carriedHop, hy] at hh
        | some v1 =>
          have hstep : ∀ m, hops l (m + 1) (Value.loopArg (k + 1)) = hops l m v1 := by
            intro m
            simp only [hops, carriedHop, hy]
          rw [hstep] at hh
          by_cases hin : Value.loopArg (k + 1) ∈ seen
          · cases fuel <;> simp [walkCarried, hin]
          · have hk : k < l.yieldOperands.length := by
              by_contra hge
              rw [List.getElem?_eq_none (Nat.le_of_not_lt hge)] at hy
              cases hy
            have hnd1 : (Value.loopArg (k + 1) :: seen).Nodup := List.nodup_cons.2 ⟨hin, hnd⟩
            have hv1 : ∀ x ∈ Value.loopArg (k + 1) :: seen,
                ∃ k, k < l.yieldOperands.length ∧ x = .loopArg (k + 1) := by
              intro x hx
              rcases List.mem_cons.1 hx with h | h
              · exact ⟨k, hk, h⟩
              · exact hv x h
            have hlen1 := seen_length_le hnd1 hv1
            simp only [List.length_cons] at hlen1
            cases fuel with
            | zero => omega
            | succ fuel =>
              simp only [walkCarried, hin, if_false, hy]
              refine ih fuel _ v1 (dist + 1) w hnd1 hv1
                (by simp only [List.length_cons]; omega) hh hb ?_
              rcases hw with hw | ⟨i, hi, hw⟩
              · exact Or.inl (List.mem_cons_of_mem _ hw)
              · cases i with
                | zero =>
                  simp only [hops, Option.some.injEq] at hw
                  exact Or.inl (by rw [← hw]; exact List.mem_cons_self _ _)
                | succ i =>
                  rw [hstep] at hw
                  exact Or.inr ⟨i, Nat.lt_of_succ_lt_succ hi, hw⟩

/-! ## The select-based detector -/

theorem hasOp_iff {ops : List Op} {id : Nat} : hasOp ops id = true ↔ ∃ o ∈ ops, o.id = id := by
  simp [hasOp]

/-- An operation inserted before an operation of the list is in the list, with
its identifier, kind, operands and stage annotation. -/
theorem insertBefore_has {ref : Nat} (new : Op) {ops : List Op} (h : hasOp ops ref = true) :
    ∃ x ∈ insertBefore ref new ops,
      x.id = new.id ∧ x.kind = new.kind ∧ x.operands = new.operands := by
  induction ops with
  | nil => simp [hasOp] at h
  | cons o os ih =>
    unfold insertBefore
    split
    · exact ⟨_, List.mem_cons_self _ _, rfl, rfl, rfl⟩
    · rename_i hne
      have hos : hasOp os ref = true := by
        obtain ⟨x, hx, hid⟩ := hasOp_iff.1 h
        rcases List.mem_cons.1 hx with h1 | h1
        · exact absurd (h1 ▸ hid) hne
        · exact hasOp_iff.2 ⟨x, h1, hid⟩
      obtain ⟨x, hx, hp⟩ := ih hos
      exact ⟨x, List.mem_cons_of_mem _ hx, hp⟩

theorem findIn_hasOp {ops : List Op} {id : Nat} {o : Op} (h : findIn ops id = some o) :
    hasOp ops id = true :=
  hasOp_iff.2 ⟨o, (findIn_some h).1, (findIn_some h).2⟩

theorem anyOp?_hasOp {l : ForLoop} {id : Nat} {o : Op} (h : l.anyOp? id = some o) :
    hasOp l.body id = true ∨ hasOp l.before id = true ∨ hasOp l.after id = true := by
  unfold ForLoop.anyOp? at h
  split at h
  · rename_i o1 h1
    exact Or.inl (findIn_hasOp h1)
  · split at h
    · rename_i o1 h1
      exact Or.inr (Or.inl (findIn_hasOp h1))
    · exact Or.inr (Or.inr (findIn_hasOp h))

theorem mem_allOps {l : ForLoop} {o : Op} :
    o ∈ l.allOps ↔ o ∈ l.before ∨ o ∈ l.body ∨ o ∈ l.after := by
  simp [ForLoop.allOps, or_assoc]

/-- An operation created before an operation of the graph is in the graph. -/
theorem create_before_has {b : Builder} {ref : Nat} (kind : OpKind) (operands : List Value)
    (shape : List Nat) (hip : b.ip = .before ref)
    (href : ref = b.loop.id ∨ hasOp b.loop.body ref = true ∨ hasOp b.loop.before ref = true ∨
      hasOp b.loop.after ref = true) :
    ∃ x ∈ (b.create kind operands shape).loop.allOps,
      x.id = b.loop.nextId ∧ x.kind = kind ∧ x.operands = operands := by
  have hloop : (b.create kind operands shape).loop.allOps =
      (b.loop.insertAt (.before ref) (newOp b.loop.nextId kind operands shape)).allOps := by
    simp only [Builder.create, hip, ForLoop.allOps]
  rw [hloop]
  unfold ForLoop.insertAt
  simp only
  split
  · exact ⟨_, mem_allOps.2 (Or.inl (List.mem_append_right _ (List.mem_singleton_self _))),
      rfl, rfl, rfl⟩
  · rename_i hne
    split
    · rename_i hb
      obtain ⟨x, hx, hp⟩ := insertBefore_has (newOp b.loop.nextId kind operands shape) hb
      exact ⟨x, mem_allOps.2 (Or.inr (Or.inl hx)), hp⟩
    · rename_i hnb
      split
      · rename_i hb
        obtain ⟨x, hx, hp⟩ := insertBefore_has (newOp b.loop.nextId kind operands shape) hb
        exact ⟨x, mem_allOps.2 (Or.inl hx), hp⟩
      · rename_i hnbef
        have ha : hasOp b.loop.after ref = true := by
          rcases href with h | h | h | h
          · exact absurd h hne
          · exact absurd h hnb
          · exact absurd h hnbef
          · exact h
        obtain ⟨x, hx, hp⟩ := insertBefore_has (newOp b.loop.nextId kind operands shape) ha
        exact ⟨x, mem_allOps.2 (Or.inr (Or.inr hx)), hp⟩

/-- The operations of the graph stay in the graph when an operation is created. -/
theorem create_allOps_mono {b : Builder} (kind : OpKind) (operands : List Value)
    (shape : List Nat) {o : Op} (h : o ∈ b.loop.allOps) :
    o ∈ (b.create kind operands shape).loop.allOps := by
  have hl := (insertAt_lists b.loop b.ip (newOp b.loop.nextId kind operands shape)).2
  rcases mem_allOps.1 h with h1 | h1 | h1
  · exact mem_allOps.2 (Or.inl (hl.1 o h1))
  · exact mem_allOps.2 (Or.inr (Or.inl (hl.2.1 o h1)))
  · exact mem_allOps.2 (Or.inr (Or.inr (hl.2.2 o h1)))

theorem create_hasOp_mono {b : Builder} (kind : OpKind) (operands : List Value)
    (shape : List Nat) {ref : Nat}
    (href : ref = b.loop.id ∨ hasOp b.loop.body ref = true ∨ hasOp b.loop.before ref = true ∨
      hasOp b.loop.after ref = true) :
    ref = (b.create kind operands shape).loop.id ∨
      hasOp (b.create kind operands shape).loop.body ref = true ∨
      hasOp (b.create kind operands shape).loop.before ref = true ∨
      hasOp (b.create kind operands shape).loop.after ref = true := by
  have hl := (insertAt_lists b.loop b.ip (newOp b.loop.nextId kind operands shape)).2
  have hf := insertAt_fields b.loop b.ip (newOp b.loop.nextId kind operands shape)
  rcases href with h | h | h | h
  · left; rw [h]; exact hf.2.2.1.symm
  · obtain ⟨x, hx, hid⟩ := hasOp_iff.1 h
    exact Or.inr (Or.inl (hasOp_iff.2 ⟨x, hl.2.1 x hx, hid⟩))
  · obtain ⟨x, hx, hid⟩ := hasOp_iff.1 h
    exact Or.inr (Or.inr (Or.inl (hasOp_iff.2 ⟨x, hl.1 x hx, hid⟩)))
  · obtain ⟨x, hx, hid⟩ := hasOp_iff.1 h
    exact Or.inr (Or.inr (Or.inr (hasOp_iff.2 ⟨x, hl.2.2 x hx, hid⟩)))

/-- The two operations `negate` creates. -/
theorem negate_eq (l : ForLoop) (ip : InsertPt) (cond : Value) :
    negate l ip cond =
      (((({ loop := l, ip := ip } : Builder).create (.constantInt 1 1) [] []).create .xori
          [cond, .opResult l.nextId 0] []).loop, .opResult (l.nextId + 1) 0) := by
  simp only [negate, Builder.lastValue, create_nextId]
  rfl

/-- The negation built before an operation of the graph: the condition returned
is the result of an `arith.xori` of the given condition with the result of a
constant `true`, and both operations are in the graph returned. -/
theorem negate_before_spec (l : ForLoop) (ref : Nat) (cond : Value)
    (href : hasOp l.body ref = true ∨ hasOp l.before ref = true ∨ hasOp l.after ref = true) :
    (negate l (.before ref) cond).2 = .opResult (l.nextId + 1) 0 ∧
    (∃ c ∈ (negate l (.before ref) cond).1.allOps,
      c.id = l.nextId ∧ c.kind = .constantInt 1 1 ∧ c.operands = []) ∧
    (∃ x ∈ (negate l (.before ref) cond).1.allOps,
      x.id = l.nextId + 1 ∧ x.kind = .xori ∧ x.operands = [cond, .opResult l.nextId 0]) := by
  have h1 := create_before_has (b := { loop := l, ip := .before ref }) (.constantInt 1 1) [] []
    rfl (Or.inr href)
  have href2 := create_hasOp_mono (b := { loop := l, ip := .before ref }) (.constantInt 1 1) [] []
    (Or.inr href)
  have hn1 : (({ loop := l, ip := .before ref } : Builder).create
      (.constantInt 1 1) [] []).loop.nextId = l.nextId + 1 := create_nextId _ _ _ _
  have h2 := create_before_has
    (b := ({ loop := l, ip := .before ref } : Builder).create (.constantInt 1 1) [] [])
    .xori [cond, .opResult l.nextId 0] [] rfl href2
  rw [hn1] at h2
  rw [negate_eq]
  refine ⟨rfl, ?_, h2⟩
  obtain ⟨c, hc, hp⟩ := h1
  exact ⟨c, create_allOps_mono _ _ _ hc, hp⟩

/-- Claim C11. Override classification of a select in
`getAccOverridePointInLoop`: when the backward walk from the input of the
storage ends, after `dist` hops, at a value defined by a select with operands
`cond`, `t`, `f`, then (1) if only `t` is a constant the override point has the
condition `cond` and the fresh value `t`; (2) if only `f` is a constant the
condition is the result of an `arith.xori` of `cond` with a constant `true`,
both created before the select, and the fresh value is `f`; (3) if both are
constants there is no condition and the fresh value is the result of the
select; (4) if neither is a constant the detector returns no override point.
In the cases 1-3 the operation of the override point is the select and its
distance is the number of hops. -/
theorem C11_select_classification (l : ForLoop) (accUse accDef selectOp : Op)
    (src cond t f : Value) (d i dist : Nat)
    (hsrc : accUse.operands.head? = some src)
    (hwalk : walkCarried l (l.yieldOperands.length + 1) [] src 0
      = .ok (some (.opResult d i, dist)))
    (hkind : l.kindOf d = .select)
    (hop : l.anyOp? d = some selectOp)
    (hoperands : selectOp.operands = [cond, t, f]) :
    hops l dist src = some (.opResult d i) ∧
    (l.isConstant t = true → l.isConstant f = false →
      getAccOverridePointInLoop l accUse accDef =
        .ok (l, some { op := d, condition := some cond, initValue := some t,
                       distance := dist })) ∧
    (l.isConstant t = false → l.isConstant f = true →
      getAccOverridePointInLoop l accUse accDef =
        .ok ((negate l (.before d) cond).1,
          some { op := d, condition := some (.opResult (l.nextId + 1) 0),
                 initValue := some f, distance := dist }) ∧
      (∃ c ∈ (negate l (.before d) cond).1.allOps,
        c.id = l.nextId ∧ c.kind = .constantInt 1 1 ∧ c.operands = []) ∧
      (∃ x ∈ (negate l (.before d) cond).1.allOps,
        x.id = l.nextId + 1 ∧ x.kind = .xori ∧
        x.operands = [cond, .opResult l.nextId 0])) ∧
    (l.isConstant t = true → l.isConstant f = true →
      getAccOverridePointInLoop l accUse accDef =
        .ok (l, some { op := d, condition := none, initValue := some (.opResult d i),
                       distance := dist })) ∧
    (l.isConstant t = false → l.isConstant f = false →
      getAccOverridePointInLoop l accUse accDef = .ok (l, none)) := by
  have hs := (walkCarried_sound l (l.yieldOperands.length + 1) [] src 0 List.nodup_nil
    (fun x hx => (by cases hx)) (by simp)).2.1 _ _ hwalk
  obtain ⟨n, hn, hh, _, _⟩ := hs
  have hdist : dist = n := by omega
  have hneg := negate_before_spec l d cond (anyOp?_hasOp hop)
  refine ⟨hdist ▸ hh, fun ht hf => ?_, fun ht hf => ⟨?_, hneg.2.1, hneg.2.2⟩,
    fun ht hf => ?_, fun ht hf => ?_⟩
  all_goals
    unfold getAccOverridePointInLoop
    simp only [hsrc, hwalk, hkind, hop, hoperands, ht, hf, if_true, Bool.and_self,
      Bool.and_false, Bool.false_and, Bool.and_true, Bool.false_eq_true, if_false, hneg.1]

/-- Witness of claim C11 on the loop `exampleDistanceTwo`: the walk from the
input of the storage takes two hops to the select 13, whose only constant is
on the false side. -/
theorem C11_select_classification_witness :
    getAccOverridePointInLoop exampleDistanceTwo
        { id := 10, kind := .tmemAlloc, operands := [.loopArg 1], shape := [128, 128] }
        { id := 12, kind := .tmemLoad, operands := [.opResult 10 0] } =
      .ok ((negate exampleDistanceTwo (.before 13) (.foreignArg 0 2)).1,
        some { op := 13, condition := some (.opResult 31 0),
               initValue := some (.opResult 2 0), distance := 2 }) :=
  ((C11_select_classification exampleDistanceTwo
    { id := 10, kind := .tmemAlloc, operands := [.loopArg 1], shape := [128, 128] }
    { id := 12, kind := .tmemLoad, operands := [.opResult 10 0] }
    { id := 13, kind := .select,
      operands := [.foreignArg 0 2, .opResult 12 0, .opResult 2 0] }
    (.loopArg 1) (.foreignArg 0 2) (.opResult 12 0) (.opResult 2 0) 13 0 2
    (by rfl) (by rfl) (by rfl) (by rfl) (by rfl)).2.2.1 (by rfl) (by rfl)).1

/-! ## The index update of `updateAccDefsInLoop` -/

/-- One update of an in-range index. -/
theorem nextAccIdx_step (N i : Nat) (hlt : N < 2 ^ 31) (hi : i < N) :
    nextAccIdx N none i = (i + 1) % N ∧
    nextAccIdx N (some true) i = (i + 1) % N ∧
    nextAccIdx N (some false) i = i := by
  have h1 : constI32 1 = 1 := rfl
  have h0 : constI32 0 = 0 := rfl
  have hN : constI32 N = N := constI32_of_lt (by omega)
  have hadd : addi i 1 = i + 1 := Nat.mod_eq_of_lt (by omega)
  have hwrap : arithSelect (cmpiEq (i + 1) N) 0 (i + 1) = (i + 1) % N := by
    unfold arithSelect cmpiEq
    by_cases h : i + 1 = N
    · simp [h]
    · have hlt2 : i + 1 < N := by omega
      simp [h, Nat.mod_eq_of_lt hlt2]
  unfold arithSelect at hwrap
  simp only [nextAccIdx, h1, h0, hN, hadd, arithSelect, hwrap, if_true, Bool.false_eq_true,
    if_false, and_self]

theorem nextAccIdx_lt (N i : Nat) (hN : 1 ≤ N) (hlt : N < 2 ^ 31) (hi : i < N)
    (c : Option Bool) : nextAccIdx N c i < N := by
  have h := nextAccIdx_step N i hlt hi
  have hmod : (i + 1) % N < N := Nat.mod_lt _ (by omega)
  cases c with
  | none => rw [h.1]; exact hmod
  | some b =>
    cases b with
    | true => rw [h.2.1]; exact hmod
    | false => rw [h.2.2]; exact hi

/-- Claim C12. Insert/extract index update of `updateAccDefsInLoop`: with
N = numStages at least 1 (and in the range of the parameter type `int`) and an
index i below N, the new insert index is (i + 1) mod N when there is no
override condition or the condition is true, and i when the condition is
false; the new extract index is computed from the old extract index by the
same rule with the same condition. Both loop-carried indices, starting from 0,
stay below N at every iteration. -/
theorem C12_acc_index_update (N : Nat) (hN : 1 ≤ N) (hlt : N < 2 ^ 31) :
    (∀ i, i < N →
      nextAccIdx N none i = (i + 1) % N ∧
      nextAccIdx N (some true) i = (i + 1) % N ∧
      nextAccIdx N (some false) i = i) ∧
    (∀ (c : Option Bool) (ins ext : Nat),
      (updateAccDefsInLoopSem N c ins ext).1 = nextAccIdx N c ins ∧
      (updateAccDefsInLoopSem N c ins ext).2 = nextAccIdx N c ext) ∧
    (∀ (conds : Option (Nat → Bool)) (k : Nat),
      (accIdxState N conds k).1 < N ∧ (accIdxState N conds k).2 < N) := by
  refine ⟨fun i hi => nextAccIdx_step N i hlt hi, fun c ins ext => ⟨rfl, rfl⟩,
    fun conds k => ?_⟩
  induction k with
  | zero => exact ⟨by show constI32 0 < N; rw [show constI32 0 = 0 from rfl]; omega,
      by show constI32 0 < N; rw [show constI32 0 = 0 from rfl]; omega⟩
  | succ k ih =>
    exact ⟨nextAccIdx_lt N _ hN hlt ih.1 _, nextAccIdx_lt N _ hN hlt ih.2 _⟩

/-- Witness of claim C12 with three buffers: the index 2 wraps to 0, stays 2
under a false condition, and after four unconditional iterations the carried
insert index is below 3. -/
theorem C12_acc_index_update_witness :
    nextAccIdx 3 none 2 = 0 ∧ nextAccIdx 3 (some false) 2 = 2 ∧
    (accIdxState 3 none 4).1 < 3 := by
  have h := C12_acc_index_update 3 (by decide) (by decide)
  exact ⟨(h.1 2 (by decide)).1, (h.1 2 (by decide)).2.2, (h.2.2 none 4).1⟩

/-! ## Erasure of the override select -/

theorem Preserved.self (l : ForLoop) : Preserved l l :=
  fun o ho => ⟨o, ho, rfl, rfl⟩

theorem Preserved.step {a b c : ForLoop} (h1 : Preserved a b) (h2 : Preserved b c) :
    Preserved a c := by
  intro o ho
  obtain ⟨o1, ho1, hid1, hk1⟩ := h1 o ho
  obtain ⟨o2, ho2, hid2, hk2⟩ := h2 o1 ho1
  exact ⟨o2, ho2, hid2.trans hid1, hk2.trans hk1⟩

theorem preserved_create {l : ForLoop} {b : Builder} (kind : OpKind) (operands : List Value)
    (shape : List Nat) (h : Preserved l b.loop) :
    Preserved l (b.create kind operands shape).loop :=
  h.step fun o ho => ⟨o, create_allOps_mono _ _ _ ho, rfl, rfl⟩

theorem mem_mapOp {id : Nat} {f : Op → Op} {ops : List Op} {o : Op} (h : o ∈ ops) :
    (if o.id = id then f o else o) ∈ mapOp id f ops :=
  List.mem_map.2 ⟨o, h, rfl⟩

theorem preserved_updateOp {l0 : ForLoop} (l : ForLoop) (id : Nat) (f : Op → Op)
    (hf : ∀ o, (f o).id = o.id ∧ (f o).kind = o.kind) (h : Preserved l0 l) :
    Preserved l0 (l.updateOp id f) := by
  refine h.step fun o ho => ?_
  have hp : (if o.id = id then f o else o).id = o.id ∧
      (if o.id = id then f o else o).kind = o.kind := by
    split
    · exact hf o
    · exact ⟨rfl, rfl⟩
  refine ⟨if o.id = id then f o else o, ?_, hp⟩
  rcases mem_allOps.1 ho with h1 | h1 | h1
  · exact mem_allOps.2 (Or.inl (mem_mapOp h1))
  · exact mem_allOps.2 (Or.inr (Or.inl (mem_mapOp h1)))
  · exact mem_allOps.2 (Or.inr (Or.inr (mem_mapOp h1)))

theorem preserved_annotate {l0 : ForLoop} (l : ForLoop) (op : Nat) (stage : Int)
    (h : Preserved l0 l) : Preserved l0 (annotateWithPipelineStage l op stage) :=
  preserved_updateOp l op _ (fun _ => ⟨rfl, rfl⟩) h

theorem preserved_replaceAllUsesDominatedBy {l0 : ForLoop} (l : ForLoop) (domOp : Nat)
    (newValue oldValue : Value) (h : Preserved l0 l) :
    Preserved l0 (replaceAllUsesDominatedBy l domOp newValue oldValue) := by
  refine h.step fun o ho => ?_
  rcases mem_allOps.1 ho with h1 | h1 | h1
  · exact ⟨o, mem_allOps.2 (Or.inl h1), rfl, rfl⟩
  · refine ⟨_, mem_allOps.2 (Or.inr (Or.inl (List.mem_map.2 ⟨o, h1, rfl⟩))), ?_⟩
    split <;> exact ⟨rfl, rfl⟩
  · exact ⟨o, mem_allOps.2 (Or.inr (Or.inr h1)), rfl, rfl⟩

theorem preserved_createSingleBufferView {l : ForLoop} {b : Builder} (alloc idx : Value)
    (h : Preserved l b.loop) : Preserved l (createSingleBufferView b alloc idx).loop := by
  unfold createSingleBufferView
  simp only
  split <;> repeat (first | exact h | apply preserved_create)

theorem preserved_emitNextIdx {l : ForLoop} {b : Builder} (idx numStagesVal : Value)
    (condition : Option Value) (h : Preserved l b.loop) :
    Preserved l (emitNextIdx b idx numStagesVal condition).loop := by
  unfold emitNextIdx
  simp only
  split <;> repeat (first | exact h | apply preserved_create)

theorem preserved_emitInitStore {l : ForLoop} {b : Builder} (newAlloc newInsertIdx : Value)
    (accDef : AccOverridePoint) (h : Preserved l b.loop) :
    Preserved l (emitInitStore b newAlloc newInsertIdx accDef).loop := by
  unfold emitInitStore
  split
  · simp only
    apply preserved_annotate
    apply preserved_create
    apply preserved_create
    exact preserved_createSingleBufferView _ _ h
  · exact h

theorem preserved_emitAccDefs (l : ForLoop) (info : MMAInfo) (accDef : AccOverridePoint)
    (newAlloc : Value) (numStages : Nat) :
    Preserved l (emitAccDefs l info accDef newAlloc numStages).loop := by
  unfold emitAccDefs
  simp only
  apply preserved_emitInitStore
  apply preserved_annotate
  apply preserved_emitNextIdx
  apply preserved_annotate
  apply preserved_emitNextIdx
  apply preserved_create
  exact Preserved.self _

theorem eraseOp_spec {l l' : ForLoop} {id : Nat} (h : l.eraseOp id = .ok l') :
    (∀ o ∈ l'.allOps, o.id ≠ id) ∧ (∀ o ∈ l.allOps, o.id ≠ id → o ∈ l'.allOps) ∧
    (l.usesOf (.opResult id 0)).isEmpty = true := by
  unfold ForLoop.eraseOp at h
  split at h
  · rename_i huses
    cases h
    refine ⟨fun o ho => ?_, fun o ho hne => ?_, huses⟩
    · rcases mem_allOps.1 ho with h1 | h1 | h1 <;>
        simpa [removeOp] using (List.mem_filter.1 h1).2
    · have hb : (o.id != id) = true := by simpa using hne
      rcases mem_allOps.1 ho with h1 | h1 | h1
      · exact mem_allOps.2 (Or.inl (List.mem_filter.2 ⟨h1, hb⟩))
      · exact mem_allOps.2 (Or.inr (Or.inl (List.mem_filter.2 ⟨h1, hb⟩)))
      · exact mem_allOps.2 (Or.inr (Or.inr (List.mem_filter.2 ⟨h1, hb⟩)))
  · cases h

/-- Claim C13, as stated, fails: in the loop `exampleBothConstant` the override
point is the unconditional select 14 with two constant sides, the rewrite is
multi-buffered, and after the rewrite the select is still in the loop body: the
initialising store 56 reads its result. -/
theorem C13_both_constant_select_erased_counterexample :
    getAccOverrideOrFlagFalseInLoop exampleBothConstant 11
      = .ok (exampleBothConstant,
          some { op := 14, condition := none, initValue := some (.opResult 14 0),
                 distance := 1 }) ∧
    (getDirectAccUses exampleBothConstant
      { id := 12, kind := .tmemLoad, operands := [.opResult 10 0] }).isEmpty = false ∧
    processMMA exampleEnv 2 10 exampleBothConstant 11
      = .ok (exampleBothConstantRewritten, true) ∧
    { id := 14, kind := .select,
      operands := [.foreignArg 0 2, .opResult 2 0, .opResult 2 0] }
      ∈ exampleBothConstantRewritten.body ∧
    { id := 56, kind := .tmemStore,
      operands := [.opResult 54 0, .opResult 14 0, .opResult 55 0], stage := some 0 }
      ∈ exampleBothConstantRewritten.body := by
  refine ⟨by rfl, by rfl, by rfl, by decide, by decide⟩

/-- Claim C13, amended. `updateAccDefsInLoop` erases the operation of the
override point exactly when the override point has both a fresh value and a
condition (for a select found by `getAccOverridePointInLoop`: exactly one
constant side); it is erased from the graph that holds the emitted operations,
and every other operation is kept. When the fresh value or the
condition is missing (the unconditional select with two constant sides has no
condition) every operation is kept, the select included. -/
theorem C13_select_erased_iff_conditional (l l' : ForLoop) (info info' : MMAInfo)
    (accDef : AccOverridePoint) (newAlloc : Value) (numStages : Nat)
    (hdef : info.accDef = some accDef)
    (h : updateAccDefsInLoop l info newAlloc numStages = .ok (l', info')) :
    (accDef.initValue.isSome = true ∧ accDef.condition.isSome = true →
      (∀ o ∈ l'.allOps, o.id ≠ accDef.op) ∧
      (∀ o ∈ l.allOps, o.id ≠ accDef.op →
        ∃ o' ∈ l'.allOps, o'.id = o.id ∧ o'.kind = o.kind) ∧
      (∃ l1, Preserved (emitAccDefs l info accDef newAlloc numStages).loop l1 ∧
        l1.eraseOp accDef.op = .ok l')) ∧
    (¬ (accDef.initValue.isSome = true ∧ accDef.condition.isSome = true) →
      Preserved l l') := by
  unfold updateAccDefsInLoop at h
  rw [hdef] at h
  simp only at h
  have he := preserved_emitAccDefs l info accDef newAlloc numStages
  generalize emitAccDefs l info accDef newAlloc numStages = e at h he ⊢
  have h0 : Preserved e.loop
      (if accDef.distance = 0 then
        replaceAllUsesDominatedBy
          (replaceAllUsesDominatedBy
            (yieldNewIndices e.loop info e.newInsertIdx e.newExtractIdx)
            e.newInsertIdxOp e.newInsertIdx info.accInsertIdx)
          e.newExtractIdxOp e.newExtractIdx info.accExtractIdx
      else yieldNewIndices e.loop info e.newInsertIdx e.newExtractIdx) := by
    have hy : Preserved e.loop
        (yieldNewIndices e.loop info e.newInsertIdx e.newExtractIdx) :=
      fun o ho => ⟨o, ho, rfl, rfl⟩
    split
    · apply preserved_replaceAllUsesDominatedBy
      apply preserved_replaceAllUsesDominatedBy
      exact hy
    · exact hy
  have h1 := he.step h0
  generalize (if accDef.distance = 0 then
        replaceAllUsesDominatedBy
          (replaceAllUsesDominatedBy
            (yieldNewIndices e.loop info e.newInsertIdx e.newExtractIdx)
            e.newInsertIdxOp e.newInsertIdx info.accInsertIdx)
          e.newExtractIdxOp e.newExtractIdx info.accExtractIdx
      else yieldNewIndices e.loop info e.newInsertIdx e.newExtractIdx) = l1 at h h0 h1
  split at h
  · rename_i hboth
    have hb : accDef.initValue.isSome = true ∧ accDef.condition.isSome = true := by
      simpa using hboth
    refine ⟨fun _ => ?_, fun hn => absurd hb hn⟩
    split at h
    · split at h
      · rename_i l2 herase
        cases h
        have hs := eraseOp_spec herase
        refine ⟨hs.1, fun o ho hne => ?_, l1, h0, herase⟩
        obtain ⟨o1, ho1, hid, hk⟩ := h1 o ho
        exact ⟨o1, hs.2.1 o1 ho1 (by rw [hid]; exact hne), hid, hk⟩
      · cases h
    · cases h
  · rename_i hboth
    cases h
    refine ⟨fun hb => absurd (by simpa using hb) hboth, fun _ => h1⟩

/-- Witness of the amended claim C13. In the loop `exampleConditionalSelect`
the override is the select 14 with the constant on its true side: the detector
returns a condition and a fresh value, and after the multi-buffered rewrite the
select is gone while the initialising store 63 of the constant, gated by the
condition of the select, is in the loop body. Applied to `exampleDefsInput`,
`updateAccDefsInLoop` returns a graph without the select. -/
theorem C13_select_erased_iff_conditional_witness :
    getAccOverrideOrFlagFalseInLoop exampleConditionalSelect 11
      = .ok (exampleConditionalSelect,
          some { op := 14, condition := some (.foreignArg 0 2),
                 initValue := some (.opResult 2 0), distance := 1 }) ∧
    processMMA exampleEnv 2 10 exampleConditionalSelect 11
      = .ok (exampleConditionalSelectRewritten, true) ∧
    (exampleConditionalSelectRewritten.allOps.all fun o => o.id != 14) = true ∧
    { id := 63, kind := .tmemStore,
      operands := [.opResult 61 0, .opResult 2 0, .foreignArg 0 2], stage := some 0 }
      ∈ exampleConditionalSelectRewritten.body ∧
    updateAccDefsInLoop exampleDefsInput exampleDefsInfo (.opResult 5 0) 2
      = .ok (exampleDefsResult.1, exampleDefsResult.2) ∧
    (∀ o ∈ exampleDefsResult.1.allOps, o.id ≠ 14) := by
  have hrun : updateAccDefsInLoop exampleDefsInput exampleDefsInfo (.opResult 5 0) 2
      = .ok (exampleDefsResult.1, exampleDefsResult.2) := by rfl
  have h := C13_select_erased_iff_conditional exampleDefsInput exampleDefsResult.1
    exampleDefsInfo exampleDefsResult.2
    { op := 14, condition := some (.foreignArg 0 2), initValue := some (.opResult 2 0),
      distance := 1 } (.opResult 5 0) 2 rfl hrun
  exact ⟨by rfl, by rfl, by decide, by decide, hrun, (h.1 ⟨rfl, rfl⟩).1⟩

/-! ## The divergence flag of `trackAccChain` -/

theorem trackAccChainLoop_eq (l : ForLoop) (accAlloc : Op) :
    ∀ fuel st, trackAccChainLoop l accAlloc fuel st
      = trackAccChainLoopWith l l.usesOf accAlloc fuel st := by
  intro fuel
  induction fuel with
  | zero => intro st; rfl
  | succ fuel ih =>
    intro st
    unfold trackAccChainLoop trackAccChainLoopWith
    split
    · rfl
    · split
      · exact ih _
      · rfl

theorem trackAccChain_eq (l : ForLoop) (accDef accAlloc : Op) (fuel : Nat) :
    trackAccChain l accDef accAlloc fuel = trackAccChainWith l l.usesOf accDef accAlloc fuel := by
  unfold trackAccChain trackAccChainWith
  rw [trackAccChainLoop_eq]

/-- What the visit of one use does to the work list and the flag. -/
theorem trackAccChainUse_spec {l : ForLoop} {accAlloc : Op} {info : UseInfo}
    {st st' : ChainState} {u : Use}
    (h : trackAccChainUse l accAlloc info st u = .ok st') :
    (st'.queue = st.queue ∨
      ∃ it, st'.queue = it :: st.queue ∧ it.divergentUse = true ∧ UseEdge l u it.value) ∧
    (∀ w, UseEdge l u w → ∃ it, st'.queue = it :: st.queue ∧ it.value = w) ∧
    (UseOther accAlloc u → st'.hasDivergentUses = info.divergentUse) ∧
    (¬ UseOther accAlloc u → st'.hasDivergentUses = st.hasDivergentUses) := by
  unfold trackAccChainUse at h
  cases howner : u.owner with
  | terminator =>
    rw [howner] at h
    simp only [Except.ok.injEq] at h
    subst h
    refine ⟨Or.inr ⟨_, rfl, rfl, Or.inl ⟨howner, rfl⟩⟩, fun w hw => ?_, fun ho => ?_, fun _ => rfl⟩
    · rcases hw with ⟨_, hw⟩ | ⟨o, p, r, ho, _⟩ | ⟨o, ho, _⟩
      · exact ⟨_, rfl, hw.symm⟩
      · rw [howner] at ho; cases ho
      · rw [howner] at ho; cases ho
    · obtain ⟨o, ho, _⟩ := ho
      rw [howner] at ho; cases ho
  | op o =>
    rw [howner] at h
    simp only at h
    split at h
    · rename_i hyield
      split at h
      · rename_i p r hparent
        split at h
        · rename_i hif
          simp only [Except.ok.injEq] at h
          subst h
          refine ⟨Or.inr ⟨_, rfl, rfl, Or.inr (Or.inl ⟨o, p, r, howner, hyield, hparent, hif, rfl⟩)⟩,
            fun w hw => ?_, fun ho => ?_, fun _ => rfl⟩
          · rcases hw with ⟨ht, _⟩ | ⟨o1, p1, r1, ho1, _, hp1, _, hw⟩ | ⟨o1, ho1, hs1, _⟩
            · rw [howner] at ht; cases ht
            · rw [howner] at ho1; cases ho1
              rw [hparent] at hp1; cases hp1
              exact ⟨_, rfl, hw.symm⟩
            · rw [howner] at ho1; cases ho1
              rw [hyield] at hs1; cases hs1
          · obtain ⟨o1, ho1, hny, _⟩ := ho
            rw [howner] at ho1; cases ho1
            exact absurd hyield hny
        · cases h
      · cases h
    · rename_i hyield
      split at h
      · rename_i hsel
        simp only [Except.ok.injEq] at h
        subst h
        refine ⟨Or.inr ⟨_, rfl, rfl, Or.inr (Or.inr ⟨o, howner, hsel, rfl⟩)⟩,
          fun w hw => ?_, fun ho => ?_, fun _ => rfl⟩
        · rcases hw with ⟨ht, _⟩ | ⟨o1, p1, r1, ho1, hy1, _⟩ | ⟨o1, ho1, _, hw⟩
          · rw [howner] at ht; cases ht
          · rw [howner] at ho1; cases ho1
            exact absurd hy1 hyield
          · rw [howner] at ho1; cases ho1
            exact ⟨_, rfl, hw.symm⟩
        · obtain ⟨o1, ho1, _, hns, _⟩ := ho
          rw [howner] at ho1; cases ho1
          exact absurd hsel hns
      · rename_i hsel
        have hnoedge : ∀ w, ¬ UseEdge l u w := by
          intro w hw
          rcases hw with ⟨ht, _⟩ | ⟨o1, p1, r1, ho1, hy1, _⟩ | ⟨o1, ho1, hs1, _⟩
          · rw [howner] at ht; cases ht
          · rw [howner] at ho1; cases ho1
            exact hyield hy1
          · rw [howner] at ho1; cases ho1
            exact hsel hs1
        split at h
        · rename_i halloc
          simp only [Except.ok.injEq] at h
          subst h
          refine ⟨Or.inl rfl, fun w hw => absurd hw (hnoedge w), fun ho => ?_, fun _ => rfl⟩
          obtain ⟨o1, ho1, _, _, hna⟩ := ho
          rw [howner] at ho1; cases ho1
          exact absurd halloc hna
        · rename_i halloc
          simp only [Except.ok.injEq] at h
          subst h
          refine ⟨Or.inl rfl, fun w hw => absurd hw (hnoedge w), fun _ => rfl, fun hn => ?_⟩
          exact absurd ⟨o, howner, hyield, hsel, halloc⟩ hn

/-- What the visit of the uses of one value does to the work list and the
flag: the targets of the divergent edges are pushed, marked divergent, and the
flag is assigned the mark of the visited value when there is a use by another
operation. -/
theorem trackAccChainFold_spec {l : ForLoop} {accAlloc : Op} {info : UseInfo} :
    ∀ (uses : List Use) (st st' : ChainState),
      uses.foldlM (trackAccChainUse l accAlloc info) st = .ok st' →
      ∃ new, st'.queue = new ++ st.queue ∧
        (∀ it ∈ new, it.divergentUse = true ∧ ∃ u ∈ uses, UseEdge l u it.value) ∧
        (∀ u ∈ uses, ∀ w, UseEdge l u w → ∃ it ∈ new, it.value = w) ∧
        (st'.hasDivergentUses = true ↔
          ((∃ u ∈ uses, UseOther accAlloc u) ∧ info.divergentUse = true) ∨
          ((¬ ∃ u ∈ uses, UseOther accAlloc u) ∧ st.hasDivergentUses = true)) := by
  intro uses
  induction uses with
  | nil =>
    intro st st' h
    simp only [List.foldlM_nil, pure, Except.pure, Except.ok.injEq] at h
    subst h
    exact ⟨[], rfl, fun it hit => (by cases hit), fun u hu => (by cases hu), by simp⟩
  | cons u us ih =>
    intro st st' h
    simp only [List.foldlM_cons, bind, Except.bind] at h
    cases h1 : trackAccChainUse l accAlloc info st u with
    | error e => rw [h1] at h; cases h
    | ok st1 =>
      rw [h1] at h
      simp only at h
      obtain ⟨hq, hpush, hother, hnother⟩ := trackAccChainUse_spec h1
      obtain ⟨new, hnew, hdiv, hall, hflag⟩ := ih st1 st' h
      have hflag' : st'.hasDivergentUses = true ↔
          ((∃ x ∈ u :: us, UseOther accAlloc x) ∧ info.divergentUse = true) ∨
          ((¬ ∃ x ∈ u :: us, UseOther accAlloc x) ∧ st.hasDivergentUses = true) := by
        rw [hflag]
        by_cases hu : UseOther accAlloc u
        · rw [hother hu]
          constructor
          · rintro (⟨_, hd⟩ | ⟨_, hd⟩)
            · exact Or.inl ⟨⟨u, List.mem_cons_self _ _, hu⟩, hd⟩
            · exact Or.inl ⟨⟨u, List.mem_cons_self _ _, hu⟩, hd⟩
          · rintro (⟨_, hd⟩ | ⟨hn, _⟩)
            · by_cases hus : ∃ x ∈ us, UseOther accAlloc x
              · exact Or.inl ⟨hus, hd⟩
              · exact Or.inr ⟨hus, hd⟩
            · exact absurd ⟨u, List.mem_cons_self _ _, hu⟩ hn
        · rw [hnother hu]
          constructor
          · rintro (⟨⟨x, hx, hxo⟩, hd⟩ | ⟨hn, hd⟩)
            · exact Or.inl ⟨⟨x, List.mem_cons_of_mem _ hx, hxo⟩, hd⟩
            · refine Or.inr ⟨?_, hd⟩
              rintro ⟨x, hx, hxo⟩
              rcases List.mem_cons.1 hx with hx | hx
              · exact hu (hx ▸ hxo)
              · exact hn ⟨x, hx, hxo⟩
          · rintro (⟨⟨x, hx, hxo⟩, hd⟩ | ⟨hn, hd⟩)
            · rcases List.mem_cons.1 hx with hx | hx
              · exact absurd (hx ▸ hxo) hu
              · exact Or.inl ⟨⟨x, hx, hxo⟩, hd⟩
            · refine Or.inr ⟨?_, hd⟩
              rintro ⟨x, hx, hxo⟩
              exact hn ⟨x, List.mem_cons_of_mem _ hx, hxo⟩
      rcases hq with hq | ⟨it, hq, hitd, hite⟩
      · refine ⟨new, by rw [hnew, hq], fun it hit => ?_, fun x hx w hw => ?_, hflag'⟩
        · obtain ⟨hd, x, hx, he⟩ := hdiv it hit
          exact ⟨hd, x, List.mem_cons_of_mem _ hx, he⟩
        · rcases List.mem_cons.1 hx with hx | hx
          · obtain ⟨it, hit, _⟩ := hpush w (hx ▸ hw)
            rw [hq] at hit
            exact absurd hit.symm (List.cons_ne_self _ _)
          · exact hall x hx w hw
      · refine ⟨new ++ [it], by rw [hnew, hq]; simp, fun it1 hit1 => ?_,
          fun x hx w hw => ?_, hflag'⟩
        · rcases List.mem_append.1 hit1 with hm | hm
          · obtain ⟨hd, x, hx, he⟩ := hdiv it1 hm
            exact ⟨hd, x, List.mem_cons_of_mem _ hx, he⟩
          · rw [List.mem_singleton.1 hm]
            exact ⟨hitd, u, List.mem_cons_self _ _, hite⟩
        · rcases List.mem_cons.1 hx with hx | hx
          · obtain ⟨it2, hit2, hv⟩ := hpush w (hx ▸ hw)
            rw [hq] at hit2
            have : it2 = it := (List.cons.inj hit2).1.symm
            exact ⟨it, List.mem_append_right _ (List.mem_singleton_self _), this ▸ hv⟩
          · obtain ⟨it2, hit2, hv⟩ := hall x hx w hw
            exact ⟨it2, List.mem_append_left _ hit2, hv⟩

/-- The loop of `trackAccChain` from a work list whose entries are all marked
divergent: when it ends, the flag is set if and only if it was set before or a
value reached from an entry of the work list has a use by another operation. -/
theorem trackAccChainLoopWith_flag {l : ForLoop} {uses : Value → List Use} {accAlloc : Op}
    (huses : ∀ v u, u ∈ uses v ↔ u ∈ l.usesOf v) :
    ∀ (fuel : Nat) (st st' : ChainState),
      (∀ it ∈ st.queue, it.divergentUse = true) →
      trackAccChainLoopWith l uses accAlloc fuel st = .ok st' →
      (st'.hasDivergentUses = true ↔
        st.hasDivergentUses = true ∨
        ∃ it ∈ st.queue, ∃ v, Relation.ReflTransGen (ChainEdge l) it.value v ∧
          OtherUse l accAlloc v) := by
  intro fuel
  induction fuel with
  | zero =>
    intro st st' hdiv h
    unfold trackAccChainLoopWith at h
    split at h
    · rename_i hempty
      cases h
      have hq : st.queue = [] := by simpa using hempty
      rw [hq]
      simp
    · cases h
  | succ fuel ih =>
    intro st st' hdiv h
    unfold trackAccChainLoopWith at h
    split at h
    · rename_i hq
      cases h
      rw [hq]
      simp
    · rename_i info rest hq
      split at h
      · rename_i st1 hfold
        obtain ⟨new, hnew, hnd, hall, hflag⟩ := trackAccChainFold_spec _ _ _ hfold
        have hinfo : info.divergentUse = true := hdiv info (by rw [hq]; exact List.mem_cons_self _ _)
        have hdiv1 : ∀ it ∈ st1.queue, it.divergentUse = true := by
          intro it hit
          rw [hnew] at hit
          rcases List.mem_append.1 hit with hm | hm
          · exact (hnd it hm).1
          · exact hdiv it (by rw [hq]; exact List.mem_cons_of_mem _ hm)
        rw [ih st1 st' hdiv1 h, hflag, hnew, hq]
        simp only [hinfo, and_true]
        constructor
        · rintro ((⟨u, hu, ho⟩ | ⟨_, hf⟩) | ⟨it, hit, v, hr, ho⟩)
          · exact Or.inr ⟨info, List.mem_cons_self _ _, info.value, Relation.ReflTransGen.refl,
              u, (huses _ _).1 hu, ho⟩
          · exact Or.inl hf
          · rcases List.mem_append.1 hit with hm | hm
            · obtain ⟨_, u, hu, he⟩ := hnd it hm
              exact Or.inr ⟨info, List.mem_cons_self _ _, v,
                Relation.ReflTransGen.head ⟨u, (huses _ _).1 hu, he⟩ hr, ho⟩
            · exact Or.inr ⟨it, List.mem_cons_of_mem _ hm, v, hr, ho⟩
        · rintro (hf | ⟨it, hit, v, hr, ho⟩)
          · by_cases hex : ∃ u ∈ uses info.value, UseOther accAlloc u
            · exact Or.inl (Or.inl hex)
            · exact Or.inl (Or.inr ⟨hex, hf⟩)
          · rcases List.mem_cons.1 hit with hm | hm
            · subst hm
              rcases Relation.ReflTransGen.cases_head hr with heq | ⟨w, ⟨u, hu, he⟩, hr2⟩
              · subst heq
                obtain ⟨u, hu, hou⟩ := ho
                exact Or.inl (Or.inl ⟨u, (huses _ _).2 hu, hou⟩)
              · obtain ⟨it2, hit2, hv2⟩ := hall u ((huses _ _).2 hu) w he
                exact Or.inr ⟨it2, List.mem_append_left _ hit2, v, hv2 ▸ hr2, ho⟩
            · exact Or.inr ⟨it, List.mem_append_right _ hm, v, hr, ho⟩
      · cases h

/-- The flag of `trackAccChain`, for any order in which the uses of a value are
listed. -/
theorem trackAccChainWith_flag {l : ForLoop} {uses : Value → List Use} {accDef accAlloc : Op}
    {fuel : Nat} {y : Option Nat} {flag : Bool}
    (huses : ∀ v u, u ∈ uses v ↔ u ∈ l.usesOf v)
    (h : trackAccChainWith l uses accDef accAlloc fuel = .ok (y, flag)) :
    (flag = true ↔
      ∃ v, Relation.TransGen (ChainEdge l) (.opResult accDef.id 0) v ∧
        OtherUse l accAlloc v) := by
  unfold trackAccChainWith at h
  split at h
  · rename_i st hloop
    simp only [Except.ok.injEq, Prod.mk.injEq] at h
    rw [← h.2]
    cases fuel with
    | zero =>
      unfold trackAccChainLoopWith at hloop
      simp at hloop
    | succ fuel =>
      unfold trackAccChainLoopWith at hloop
      simp only at hloop
      split at hloop
      · rename_i st1 hfold
        obtain ⟨new, hnew, hnd, hall, hflag⟩ := trackAccChainFold_spec _ _ _ hfold
        have hdiv1 : ∀ it ∈ st1.queue, it.divergentUse = true := by
          intro it hit
          rw [hnew] at hit
          simp only [List.append_nil] at hit
          exact (hnd it hit).1
        have hf1 : ¬ st1.hasDivergentUses = true := by
          rw [hflag]
          simp
        rw [trackAccChainLoopWith_flag huses fuel st1 st hdiv1 hloop, hnew]
        simp only [List.append_nil]
        constructor
        · rintro (hf | ⟨it, hit, v, hr, ho⟩)
          · exact absurd hf hf1
          · obtain ⟨_, u, hu, he⟩ := hnd it hit
            exact ⟨v, Relation.TransGen.head' ⟨u, (huses _ _).1 hu, he⟩ hr, ho⟩
        · rintro ⟨v, ht, ho⟩
          obtain ⟨w, ⟨u, hu, he⟩, hr⟩ := Relation.TransGen.head'_iff.1 ht
          obtain ⟨it, hit, hv⟩ := hall u ((huses _ _).2 hu) w he
          exact Or.inr ⟨it, hit, v, hv ▸ hr, ho⟩
      · cases hloop
  · cases h

/-- Claim C14. Divergence flag of `trackAccChain`: whenever the traversal
terminates, the flag `hasDivergentUses` is true if and only if a value reached
from the result of the load through at least one divergent edge (loop
terminator to carried value, `scf.if` result, select result) has a use owned by
an operation that is neither a terminator, a select, nor the accumulator
storage; so uses of the result of the load itself never set the flag. The
flag is the same for every order in which the uses of a value are listed. -/
theorem C14_divergence_flag (l : ForLoop) (accDef accAlloc : Op) (fuel : Nat)
    (y : Option Nat) (flag : Bool)
    (h : trackAccChain l accDef accAlloc fuel = .ok (y, flag)) :
    (flag = true ↔
      ∃ v, Relation.TransGen (ChainEdge l) (.opResult accDef.id 0) v ∧
        OtherUse l accAlloc v) ∧
    (∀ (uses : Value → List Use) (fuel' : Nat) (y' : Option Nat) (flag' : Bool),
      (∀ v u, u ∈ uses v ↔ u ∈ l.usesOf v) →
      trackAccChainWith l uses accDef accAlloc fuel' = .ok (y', flag') →
      flag' = flag) := by
  rw [trackAccChain_eq] at h
  have h1 := trackAccChainWith_flag (fun _ _ => Iff.rfl) h
  refine ⟨h1, fun uses fuel' y' flag' huses h' => ?_⟩
  have h2 := trackAccChainWith_flag huses h'
  cases hf : flag' with
  | true =>
    rw [hf] at h2
    exact (h1.2 (h2.1 rfl)).symm
  | false =>
    rw [hf] at h2
    cases hg : flag with
    | false => rfl
    | true =>
      rw [hg] at h1
      exact absurd (h2.2 (h1.1 rfl)) (by decide)

/-- Witness of claim C14 on the loop `exampleNoOverride`: the result of the
load is used by another operation directly, and the flag is not set. -/
theorem C14_divergence_flag_witness :
    trackAccChain exampleNoOverride
        { id := 12, kind := .tmemLoad, operands := [.opResult 10 0] }
        { id := 10, kind := .tmemAlloc, operands := [.loopArg 1], shape := [128, 128] } 10
      = .ok (some 0, false) ∧
    OtherUse exampleNoOverride
      { id := 10, kind := .tmemAlloc, operands := [.loopArg 1], shape := [128, 128] }
      (.opResult 12 0) ∧
    ¬ ∃ v, Relation.TransGen (ChainEdge exampleNoOverride) (.opResult 12 0) v ∧
      OtherUse exampleNoOverride
        { id := 10, kind := .tmemAlloc, operands := [.loopArg 1], shape := [128, 128] } v := by
  have hrun : trackAccChain exampleNoOverride
        { id := 12, kind := .tmemLoad, operands := [.opResult 10 0] }
        { id := 10, kind := .tmemAlloc, operands := [.loopArg 1], shape := [128, 128] } 10
      = .ok (some 0, false) := by rfl
  have h := (C14_divergence_flag exampleNoOverride _ _ 10 (some 0) false hrun).1
  refine ⟨hrun, ?_, fun hex => Bool.false_ne_true (h.2 hex)⟩
  exact ⟨⟨.op { id := 13, kind := .other, operands := [.opResult 12 0] }, 0⟩, by decide,
    _, rfl, by decide, by decide, by decide⟩

/-! ## The traversal of a cyclic chain -/

/-- On `exampleCyclic` the work list alternates between the result of the
select and the carried value, for any number of steps. -/
theorem trackAccChainLoop_cyclic :
    ∀ fuel,
      trackAccChainLoop exampleCyclic
        { id := 10, kind := .tmemAlloc, operands := [.loopArg 1], shape := [128, 128] }
        fuel cyclicAtSelect = .error .outOfFuel ∧
      trackAccChainLoop exampleCyclic
        { id := 10, kind := .tmemAlloc, operands := [.loopArg 1], shape := [128, 128] }
        fuel cyclicAtCarried = .error .outOfFuel := by
  intro fuel
  induction fuel with
  | zero => exact ⟨rfl, rfl⟩
  | succ fuel ih =>
    have h1 : trackAccChainLoop exampleCyclic
        { id := 10, kind := .tmemAlloc, operands := [.loopArg 1], shape := [128, 128] }
        (fuel + 1) cyclicAtSelect =
        trackAccChainLoop exampleCyclic
        { id := 10, kind := .tmemAlloc, operands := [.loopArg 1], shape := [128, 128] }
        fuel cyclicAtCarried := by rfl
    have h2 : trackAccChainLoop exampleCyclic
        { id := 10, kind := .tmemAlloc, operands := [.loopArg 1], shape := [128, 128] }
        (fuel + 1) cyclicAtCarried =
        trackAccChainLoop exampleCyclic
        { id := 10, kind := .tmemAlloc, operands := [.loopArg 1], shape := [128, 128] }
        fuel cyclicAtSelect := by rfl
    exact ⟨h1.trans ih.2, h2.trans ih.1⟩

/-- Claim C15 (the traversal of `trackAccChain` has no visited set): on the loop
`exampleCyclic`, whose select of the carried value and the load is yielded back
into the same carried value, the work list never becomes empty: whatever the
number of steps allowed, the traversal has not ended, and so the pass of the
driver over the MMA has not either. -/
theorem C15_cyclic_chain_never_ends :
    getTMemAllocAndLoad exampleCyclic 11 =
      some ({ id := 10, kind := .tmemAlloc, operands := [.loopArg 1], shape := [128, 128] },
            { id := 12, kind := .tmemLoad, operands := [.opResult 10 0] }) ∧
    (∀ fuel, trackAccChain exampleCyclic
        { id := 12, kind := .tmemLoad, operands := [.opResult 10 0] }
        { id := 10, kind := .tmemAlloc, operands := [.loopArg 1], shape := [128, 128] } fuel
      = .error .outOfFuel) ∧
    (∀ fuel, processMMA exampleEnv 2 fuel exampleCyclic 11 = .error .outOfFuel) := by
  have hloop : ∀ fuel, trackAccChain exampleCyclic
        { id := 12, kind := .tmemLoad, operands := [.opResult 10 0] }
        { id := 10, kind := .tmemAlloc, operands := [.loopArg 1], shape := [128, 128] } fuel
      = .error .outOfFuel := by
    intro fuel
    match fuel with
    | 0 => rfl
    | 1 => rfl
    | 2 => rfl
    | fuel + 3 =>
      have h : trackAccChainLoop exampleCyclic
          { id := 10, kind := .tmemAlloc, operands := [.loopArg 1], shape := [128, 128] }
          (fuel + 3)
          { queue := [⟨.opResult 12 0, none, false⟩], yieldArgNo := none,
            hasDivergentUses := false } =
          trackAccChainLoop exampleCyclic
          { id := 10, kind := .tmemAlloc, operands := [.loopArg 1], shape := [128, 128] }
          fuel cyclicAtSelect := by rfl
      unfold trackAccChain
      rw [h, (trackAccChainLoop_cyclic fuel).1]
  refine ⟨by rfl, hloop, fun fuel => ?_⟩
  have ha : getTMemAllocAndLoad exampleCyclic 11 =
      some ({ id := 10, kind := .tmemAlloc, operands := [.loopArg 1], shape := [128, 128] },
            { id := 12, kind := .tmemLoad, operands := [.opResult 10 0] }) := by rfl
  have hs : exampleEnv.backwardSliceHasStage exampleCyclic 11 = false := by rfl
  unfold processMMA
  simp only [hs, ha, hloop fuel, Bool.false_eq_true, if_false]

/-! ## Distance of the override point -/

/-- The distance recorded by `getAccOverridePointInLoop` is the distance the
walk from the input of the storage returns. -/
theorem getAccOverridePointInLoop_distance {l l1 : ForLoop} {accUse accDef : Op}
    {src : Value} {p : AccOverridePoint} (hsrc : accUse.operands.head? = some src)
    (h : getAccOverridePointInLoop l accUse accDef = .ok (l1, some p)) :
    ∃ v, walkCarried l (l.yieldOperands.length + 1) [] src 0 = .ok (some (v, p.distance)) := by
  unfold getAccOverridePointInLoop at h
  rw [hsrc] at h
  simp only at h
  cases hw : walkCarried l (l.yieldOperands.length + 1) [] src 0 with
  | error e => rw [hw] at h; cases h
  | ok r =>
    rw [hw] at h
    cases r with
    | none => cases h
    | some r =>
      obtain ⟨v, dist⟩ := r
      refine ⟨v, ?_⟩
      simp only at h
      repeat' split at h
      all_goals first
        | (cases h; done)
        | (cases h; rfl)

/-- The distance recorded by `getAccUseFlagFalseInLoop` is the distance the walk
from the flag returns. -/
theorem getAccUseFlagFalseInLoop_distance {l l1 : ForLoop} {flag : Value}
    {p : AccOverridePoint} (h : getAccUseFlagFalseInLoop l flag = .ok (l1, some p)) :
    ∃ v, walkCarried l (l.yieldOperands.length + 1) [] flag 0 = .ok (some (v, p.distance)) := by
  unfold getAccUseFlagFalseInLoop at h
  cases hw : walkCarried l (l.yieldOperands.length + 1) [] flag 0 with
  | error e => rw [hw] at h; cases h
  | ok r =>
    rw [hw] at h
    cases r with
    | none => cases h
    | some r =>
      obtain ⟨v, dist⟩ := r
      refine ⟨v, ?_⟩
      simp only at h
      repeat' split at h
      all_goals first
        | (cases h; done)
        | (cases h; rfl)

/-- Claim C16. Backward walk of `getAccOverridePointInLoop` and of
`getAccUseFlagFalseInLoop` from the value `src`: every hop replaces a carried
value by the terminator operand of its slot (`hops`); the walk ends within its
step budget; a value it returns is reached after `d` hops, has no further hop,
and `d` is at most the number of carried values (and 0 when `src` is not a
block argument); the walk returns nothing when a carried value is met twice,
and only then, and the detectors then return no override point; the detectors
record `d` as the distance of the override
point; and the driver skips an MMA whose override point has a distance above
1 and does not skip it for a distance of at most 1. -/
theorem C16_backward_walk (l : ForLoop) (src : Value)
    (hwf : l.yieldOperands.length = l.initArgs.length) :
    walkCarried l (l.yieldOperands.length + 1) [] src 0 ≠ .error .outOfFuel ∧
    (∀ v d, walkCarried l (l.yieldOperands.length + 1) [] src 0 = .ok (some (v, d)) →
      hops l d src = some v ∧ v.isBlockArgument = false ∧ d ≤ l.initArgs.length) ∧
    (src.isBlockArgument = false →
      walkCarried l (l.yieldOperands.length + 1) [] src 0 = .ok (some (src, 0))) ∧
    (∀ i j w, i < j → hops l i src = some w → hops l j src = some w →
      w.isBlockArgument = true →
      walkCarried l (l.yieldOperands.length + 1) [] src 0 = .ok none) ∧
    (walkCarried l (l.yieldOperands.length + 1) [] src 0 = .ok none →
      ∃ i j w, i < j ∧ hops l i src = some w ∧ hops l j src = some w ∧
        w.isBlockArgument = true) ∧
    (walkCarried l (l.yieldOperands.length + 1) [] src 0 = .ok none →
      (∀ accUse accDef, accUse.operands.head? = some src →
        getAccOverridePointInLoop l accUse accDef = .ok (l, none)) ∧
      getAccUseFlagFalseInLoop l src = .ok (l, none)) ∧
    (∀ accUse accDef l1 p, accUse.operands.head? = some src →
      getAccOverridePointInLoop l accUse accDef = .ok (l1, some p) →
      ∃ v, hops l p.distance src = some v ∧ v.isBlockArgument = false) ∧
    (∀ l1 p, getAccUseFlagFalseInLoop l src = .ok (l1, some p) →
      ∃ v, hops l p.distance src = some v ∧ v.isBlockArgument = false) ∧
    (∀ (env : Env) (numStages fuel mmaOp : Nat) (accAlloc accLoad : Op) (y : Option Nat)
        (l1 : ForLoop) (p : AccOverridePoint),
      env.backwardSliceHasStage l mmaOp = false →
      getTMemAllocAndLoad l mmaOp = some (accAlloc, accLoad) →
      trackAccChain l accLoad accAlloc fuel = .ok (y, false) →
      chainIndexOk accAlloc y = true →
      getAccOverrideOrFlagFalseInLoop l mmaOp = .ok (l1, some p) →
      (1 < p.distance → processMMA env numStages fuel l mmaOp = .ok (l1, false)) ∧
      (p.distance ≤ 1 → ∀ r, processMMA env numStages fuel l mmaOp = .ok r → r.2 = true)) := by
  have hs := walkCarried_sound l (l.yieldOperands.length + 1) [] src 0 List.nodup_nil
    (fun x hx => (by cases hx)) (by simp)
  have hval : ∀ v d, walkCarried l (l.yieldOperands.length + 1) [] src 0 = .ok (some (v, d)) →
      hops l d src = some v ∧ v.isBlockArgument = false ∧ d ≤ l.initArgs.length := by
    intro v d h
    obtain ⟨n, hn, hh, hb, hle⟩ := hs.2.1 v d h
    have hd : d = n := by omega
    subst hd
    simp only [List.length_nil, Nat.zero_add] at hle
    exact ⟨hh, hb, hwf ▸ hle⟩
  refine ⟨hs.1, hval, fun hsrc => ?_, fun i j w hij hi hj hb => ?_, fun hnone => ?_,
    fun hnone => ⟨fun accUse accDef hsrc => ?_, ?_⟩,
    fun accUse accDef l1 p hsrc h => ?_, fun l1 p h => ?_,
    fun env numStages fuel mmaOp accAlloc accLoad y l1 p hslice halloc htrack hidx hdet => ?_⟩
  · cases src with
    | opResult d i => rfl
    | loopArg a => cases hsrc
    | foreignArg b a => cases hsrc
  · exact walkCarried_cycle l j _ [] src 0 w List.nodup_nil (fun x hx => (by cases hx))
      (by simp) hj hb (Or.inr ⟨i, hij, hi⟩)
  · obtain ⟨n, w, hh, hb, hw⟩ := hs.2.2 hnone
    rcases hw with hw | ⟨i, hi, hw⟩
    · cases hw
    · exact ⟨i, n, w, hi, hw, hh, hb⟩
  · unfold getAccOverridePointInLoop
    simp only [hsrc, hnone]
  · unfold getAccUseFlagFalseInLoop
    simp only [hnone]
  · obtain ⟨v, hv⟩ := getAccOverridePointInLoop_distance hsrc h
    exact ⟨v, (hval v _ hv).1, (hval v _ hv).2.1⟩
  · obtain ⟨v, hv⟩ := getAccUseFlagFalseInLoop_distance h
    exact ⟨v, (hval v _ hv).1, (hval v _ hv).2.1⟩
  · have hp := @processMMA_of_analysis env numStages fuel l l1 mmaOp accAlloc accLoad y (some p) hslice
      halloc htrack hidx hdet
    refine ⟨fun hgt => ?_, fun hle r hr => ?_⟩
    · rw [hp]
      simp [hgt]
    · rw [hp] at hr
      have hng : ¬ (1 < p.distance) := by omega
      simp only [Option.map_some', Option.getD_some, gt_iff_lt, hng, decide_False,
        Bool.false_eq_true, if_false, Option.isSome_some, Bool.not_true, Bool.and_false] at hr
      split at hr
      · cases hr
      · cases hr; rfl

/-- Witness of claim C16 on the loop `exampleDistanceTwo`: from the input of the
storage the walk takes two hops to the result of the select 13. -/
theorem C16_backward_walk_witness :
    walkCarried exampleDistanceTwo (exampleDistanceTwo.yieldOperands.length + 1) []
        (.loopArg 1) 0 = .ok (some (.opResult 13 0, 2)) ∧
    hops exampleDistanceTwo 2 (.loopArg 1) = some (.opResult 13 0) ∧
    (2 : Nat) ≤ exampleDistanceTwo.initArgs.length := by
  have hrun : walkCarried exampleDistanceTwo (exampleDistanceTwo.yieldOperands.length + 1) []
      (.loopArg 1) 0 = .ok (some (.opResult 13 0, 2)) := by rfl
  have h := (C16_backward_walk exampleDistanceTwo (.loopArg 1) (by rfl)).2.1 _ _ hrun
  exact ⟨hrun, h.1, h.2.2⟩

/-! ## Downstream stage propagation -/

theorem SchedInv.keyInv {l : ForLoop} {s : CoarseSchedule} (h : SchedInv l s) : KeyInv l s :=
  ⟨h.nodup, h.keys⟩

theorem KeyInv.entries_le {l : ForLoop} {s : CoarseSchedule} (hs : KeyInv l s) :
    s.entries.length ≤ l.keyCount := by
  have hsub : (s.entries.map fun e => e.1) ⊆ l.keys := by
    intro k hk
    obtain ⟨e, he, rfl⟩ := List.mem_map.1 hk
    exact hs.keys e he
  have h := (List.subperm_of_subset hs.nodup hsub).length_le
  rw [keys_length] at h
  simpa using h

theorem count_eq_false {s : CoarseSchedule} {k : SchedKey} :
    s.count k = false ↔ k ∉ s.entries.map fun e => e.1 := by
  rw [← count_eq_true]
  cases s.count k <;> simp

/-- An entry for a key without entry goes behind the entries. -/
theorem insert_new {s : CoarseSchedule} {k : SchedKey} (stage : Int) (hc : s.count k = false) :
    (s.insert k stage).entries = s.entries ++ [(k, stage)] ∧
    (s.insert k stage).numStages = s.numStages := by
  unfold CoarseSchedule.insert
  simp [hc]

theorem count_of_entries_append {s s' : CoarseSchedule} {added : List (SchedKey × Int)}
    (h : s'.entries = s.entries ++ added) (k : SchedKey) :
    s'.count k = true ↔ s.count k = true ∨ k ∈ added.map fun e => e.1 := by
  rw [count_eq_true, count_eq_true, h, List.map_append, List.mem_append]

theorem Extended.counts {nbrs : SchedKey → List SchedKey} {stage : Int}
    {s s' : CoarseSchedule} (h : Extended nbrs stage s s') (k : SchedKey)
    (hk : s.count k = true) : s'.count k = true := by
  obtain ⟨added, he, _⟩ := h.entries
  exact (count_of_entries_append he k).2 (Or.inl hk)

theorem Extended.nothing (nbrs : SchedKey → List SchedKey) (stage : Int) (s : CoarseSchedule) :
    Extended nbrs stage s s :=
  ⟨rfl, ⟨[], by simp, fun e he => (by cases he)⟩,
    fun k hk hn => absurd hk (by rw [hn]; exact Bool.false_ne_true)⟩

theorem Extended.entries_mono {nbrs : SchedKey → List SchedKey} {stage : Int}
    {s s' : CoarseSchedule} (h : Extended nbrs stage s s') :
    s.entries.length ≤ s'.entries.length := by
  obtain ⟨added, he, _⟩ := h.entries
  rw [he, List.length_append]
  exact Nat.le_add_right _ _

theorem KeyInv.withNew {l : ForLoop} {s : CoarseSchedule} {k : SchedKey} (stage : Int)
    (hs : KeyInv l s) (hk : k ∈ l.keys) (hc : s.count k = false) :
    KeyInv l (s.insert k stage) := by
  have he := (insert_new stage hc).1
  refine ⟨?_, fun e hmem => ?_⟩
  · rw [he, List.map_append, List.nodup_append]
    refine ⟨hs.nodup, List.nodup_singleton _, ?_⟩
    intro x hx hx'
    simp only [List.map_cons, List.map_nil, List.mem_singleton] at hx'
    exact count_eq_false.1 hc (hx' ▸ hx)
  · rw [he] at hmem
    rcases List.mem_append.1 hmem with h | h
    · exact hs.keys e h
    · rw [List.mem_singleton.1 h]; exact hk

/-- A step of the propagation from `s` to `s1`, the entry of `u`, and the
propagation from there to `s2` make one propagation from `s` to `s2`. -/
theorem Extended.join {nbrs : SchedKey → List SchedKey} {stage : Int}
    {s s1 s2 : CoarseSchedule} {u : SchedKey}
    (h1 : Extended nbrs stage s s1) (hc : s1.count u = false)
    (h2 : Extended nbrs stage (s1.insert u stage) s2)
    (hu : ∀ x ∈ nbrs u, s2.count x = true) : Extended nbrs stage s s2 := by
  obtain ⟨a1, he1, ha1⟩ := h1.entries
  obtain ⟨a2, he2, ha2⟩ := h2.entries
  have hins := insert_new stage hc
  have hsu : s.count u = false := by
    cases hx : s.count u with
    | false => rfl
    | true => rw [h1.counts u hx] at hc; cases hc
  have hc1 : ∀ k, s1.count k = true → (s1.insert u stage).count k = true := fun k hk =>
    (count_of_entries_append hins.1 k).2 (Or.inl hk)
  refine ⟨h2.numStages.trans (hins.2.trans h1.numStages), ⟨a1 ++ [(u, stage)] ++ a2, ?_, ?_⟩, ?_⟩
  · rw [he2, hins.1, he1]
    simp
  · intro e he
    rcases List.mem_append.1 he with h | h
    · rcases List.mem_append.1 h with h | h
      · exact ha1 e h
      · rw [List.mem_singleton.1 h]; exact ⟨rfl, hsu⟩
    · refine ⟨(ha2 e h).1, ?_⟩
      cases hx : s.count e.1 with
      | false => rfl
      | true =>
        have := hc1 _ (h1.counts _ hx)
        rw [(ha2 e h).2] at this
        cases this
  · intro k hk hnk x hx
    cases hk1 : s1.count k with
    | true => exact h2.counts x (hc1 x (h1.closed k hk1 hnk x hx))
    | false =>
      cases hki : (s1.insert u stage).count k with
      | false => exact h2.closed k hk hki x hx
      | true =>
        rcases (count_of_entries_append hins.1 k).1 hki with h | h
        · rw [hk1] at h; cases h
        · simp only [List.map_cons, List.map_nil, List.mem_singleton] at h
          exact hu x (h ▸ hx)

/-- The loop over the neighbours in a propagation step. -/
theorem propagateLoop_spec {l : ForLoop} {nbrs : SchedKey → List SchedKey}
    {F : CoarseSchedule → SchedKey → Int → Except Err (CoarseSchedule × Bool)}
    {s : CoarseSchedule} {stage : Int} {fuel : Nat}
    (hfuel : l.keyCount + 1 ≤ s.entries.length + (fuel + 1))
    (ih : ∀ s1 op, KeyInv l s1 → l.keyCount + 1 ≤ s1.entries.length + fuel →
      ∃ s' ch, F s1 op stage = .ok (s', ch) ∧ KeyInv l s' ∧ Extended nbrs stage s1 s' ∧
        (∀ u ∈ nbrs op, s'.count u = true))
    (us : List SchedKey) (hus : ∀ u ∈ us, u ∈ l.keys) :
    ∀ acc : CoarseSchedule × Bool, KeyInv l acc.1 → Extended nbrs stage s acc.1 →
      (acc.2 = true ↔ s.entries.length < acc.1.entries.length) →
      ∃ acc', us.foldlM (propagateStep F stage) acc = .ok acc' ∧ KeyInv l acc'.1 ∧
        Extended nbrs stage s acc'.1 ∧
        (acc'.2 = true ↔ s.entries.length < acc'.1.entries.length) ∧
        (∀ k, acc.1.count k = true → acc'.1.count k = true) ∧
        (∀ u ∈ us, acc'.1.count u = true) := by
  induction us with
  | nil =>
    intro acc hk he hf
    exact ⟨acc, rfl, hk, he, hf, fun _ h => h, fun u hu => (by cases hu)⟩
  | cons u us ihus =>
    intro acc hk he hf
    simp only [List.foldlM_cons, bind, Except.bind, propagateStep]
    have hus' : ∀ u' ∈ us, u' ∈ l.keys := fun u' h => hus u' (List.mem_cons_of_mem _ h)
    cases hc : acc.1.count u with
    | true =>
      simp only [if_true]
      obtain ⟨acc', hfold, hk', he', hf', hmono, hall⟩ := ihus hus' acc hk he hf
      refine ⟨acc', hfold, hk', he', hf', hmono, fun x hx => ?_⟩
      rcases List.mem_cons.1 hx with h | h
      · rw [h]; exact hmono u hc
      · exact hall x h
    | false =>
      simp only [Bool.false_eq_true, if_false]
      have hins := insert_new stage hc
      have hkins := hk.withNew stage (hus u (List.mem_cons_self _ _)) hc
      have hlen1 := he.entries_mono
      obtain ⟨s2, ch, hF, hk2, he2, hu2⟩ := ih (acc.1.insert u stage) u hkins (by
        rw [hins.1, List.length_append, List.length_singleton]
        omega)
      rw [hF]
      simp only
      have hjoin := he.join hc he2 hu2
      have hlen2 := he2.entries_mono
      rw [hins.1, List.length_append, List.length_singleton] at hlen2
      obtain ⟨acc', hfold, hk', he', hf', hmono, hall⟩ := ihus hus' (s2, true) hk2 hjoin
        ⟨fun _ => (by simp only; omega), fun _ => rfl⟩
      have hu_in : s2.count u = true :=
        he2.counts u ((count_of_entries_append hins.1 u).2 (Or.inr (by simp)))
      refine ⟨acc', hfold, hk', he', hf', fun k hkc => ?_, fun x hx => ?_⟩
      · exact hmono k (he2.counts k ((count_of_entries_append hins.1 k).2 (Or.inl hkc)))
      · rcases List.mem_cons.1 hx with h | h
        · rw [h]; exact hmono u hu_in
        · exact hall x h

/-- A propagation step defined by recursion over the fuel returns when the fuel
exceeds the number of keys without entry; its result extends the schedule,
holds the neighbours of the operation, and the flag tells whether an entry was
added. -/
theorem propagate_spec (l : ForLoop) (nbrs : SchedKey → List SchedKey)
    (F : Nat → CoarseSchedule → SchedKey → Int → Except Err (CoarseSchedule × Bool))
    (hF : ∀ fuel s op stage, F (fuel + 1) s op stage =
      (nbrs op).foldlM (propagateStep (F fuel) stage) (s, false))
    (hn : ∀ op, ∀ u ∈ nbrs op, u ∈ l.keys) (stage : Int) :
    ∀ fuel s op, KeyInv l s → l.keyCount + 1 ≤ s.entries.length + fuel →
      ∃ s' ch, F fuel s op stage = .ok (s', ch) ∧ KeyInv l s' ∧ Extended nbrs stage s s' ∧
        (∀ u ∈ nbrs op, s'.count u = true) ∧
        (ch = true ↔ s.entries.length < s'.entries.length) := by
  intro fuel
  induction fuel with
  | zero =>
    intro s op hs hfuel
    have := hs.entries_le
    omega
  | succ fuel ih =>
    intro s op hs hfuel
    rw [hF]
    obtain ⟨acc', hfold, hk', he', hf', _, hall⟩ :=
      @propagateLoop_spec l nbrs (F fuel) s stage fuel hfuel
        (fun s1 op1 h1 h2 => by
          obtain ⟨s', ch, h3, h4, h5, h6, _⟩ := ih s1 op1 h1 h2
          exact ⟨s', ch, h3, h4, h5, h6⟩)
        (nbrs op) (hn op) (s, false) hs (Extended.nothing _ _ _)
        ⟨fun h => (by cases h), fun h => absurd h (Nat.lt_irrefl _)⟩
    exact ⟨acc'.1, acc'.2, hfold, hk', he', hall, hf'⟩

theorem stageOf_append_old {s s' : CoarseSchedule} {added : List (SchedKey × Int)}
    (h : s'.entries = s.entries ++ added) {k : SchedKey} {st : Int}
    (hk : s.stageOf k = some st) : s'.stageOf k = some st := by
  unfold CoarseSchedule.stageOf at hk ⊢
  rw [h, List.find?_append]
  cases hf : s.entries.find? fun e => e.1 == k with
  | none => rw [hf] at hk; cases hk
  | some e => rw [hf] at hk; simpa using hk

theorem stageOf_append_new {s s' : CoarseSchedule} {added : List (SchedKey × Int)}
    {stage : Int} (h : s'.entries = s.entries ++ added) (ha : ∀ e ∈ added, e.2 = stage)
    {k : SchedKey} (hn : s.count k = false) (hc : s'.count k = true) :
    s'.stageOf k = some stage := by
  obtain ⟨st, hst⟩ := stageOf_isSome_of_count hc
  have hmem := stageOf_mem hst
  rw [h] at hmem
  rcases List.mem_append.1 hmem with hm | hm
  · exact absurd (List.mem_map_of_mem (fun e => e.1) hm) (count_eq_false.1 hn)
  · rw [hst, ← ha _ hm]

/-- Everything reached through operations without entry is in a schedule that
holds the users of `op` and the users of every key that got an entry. -/
theorem reached_count {l : ForLoop} {stage : Int} {s s' : CoarseSchedule} {op k : SchedKey}
    (he : Extended (usersOfKey l) stage s s') (hu : ∀ u ∈ usersOfKey l op, s'.count u = true)
    (hr : ReachedUnscheduled l s op k) : s'.count k = true ∧ s.count k = false := by
  induction hr with
  | user hk hn => exact ⟨hu _ hk, hn⟩
  | step _ hk hn ih => exact ⟨he.closed _ ih.1 ih.2 _ hk, hn⟩

/-- Claim C17. Downstream stage propagation `insertUsersOfOp`: for a schedule
of the loop and enough steps for the keys that have no entry, the recursion
ends; afterwards every operation reached from `op` along user edges through
operations that had no entry before the call has an entry with the given
stage; every entry that existed before the call keeps its stage; and the
result is `true` if and only if the schedule gained an entry. Hence a round of
the fixed-point loop of `getTC05MMASchedule` ends, and when it reports a change
(`fixedPoint = false`) the schedule has more entries than before. -/
theorem C17_insertUsersOfOp (l : ForLoop) (s : CoarseSchedule) (op : SchedKey) (stage : Int)
    (fuel : Nat) (hs : KeyInv l s) (hfuel : l.keyCount + 1 ≤ s.entries.length + fuel) :
    (∃ s' changed, insertUsersOfOp l fuel s op stage = .ok (s', changed) ∧
      (∀ k, ReachedUnscheduled l s op k → s'.stageOf k = some stage) ∧
      (∀ k st, s.stageOf k = some st → s'.stageOf k = some st) ∧
      (changed = true ↔ s.entries.length < s'.entries.length)) ∧
    (∀ s0, SchedInv l s0 →
      ∃ s1 fixedPoint, scheduleRound l s0 = .ok (s1, fixedPoint) ∧
        (fixedPoint = false → s0.entries.length < s1.entries.length) ∧
        (fixedPoint = true → s1 = s0)) := by
  constructor
  · obtain ⟨s', ch, hrun, _, he, hu, hch⟩ :=
      propagate_spec l (usersOfKey l) (insertUsersOfOp l) (fun _ _ _ _ => rfl)
        (usersOfKey_mem l) stage fuel s op hs hfuel
    obtain ⟨added, hadd, hstage⟩ := he.entries
    refine ⟨s', ch, hrun, fun k hr => ?_, fun k st hst => stageOf_append_old hadd hst, hch⟩
    have hc := reached_count he hu hr
    exact stageOf_append_new hadd (fun e hmem => (hstage e hmem).1) hc.2 hc.1
  · intro s0 hs0
    obtain ⟨s1, fp, hrun, hsw⟩ := scheduleRound_total hs0
    refine ⟨s1, fp, hrun, fun hf => ?_, fun hf => (hsw.fixed hf).2⟩
    rcases hsw.grew hf with h | h
    · cases h
    · exact h

/-- Witness of claim C17 on the loop `exampleAccept` with an empty schedule:
from the storage 10 the propagation reaches the terminator through the load
12, and the terminator gets an entry in the given stage 0. -/
theorem C17_insertUsersOfOp_witness :
    insertUsersOfOp exampleAccept 5 { numStages := 2, entries := [] } (.op 10) 0
      = .ok ({ numStages := 2, entries := [(.op 11, 0), (.op 12, 0), (.terminator, 0)] },
             true) ∧
    ReachedUnscheduled exampleAccept { numStages := 2, entries := [] } (.op 10) .terminator ∧
    CoarseSchedule.stageOf
      { numStages := 2, entries := [(.op 11, 0), (.op 12, 0), (.terminator, 0)] }
      .terminator = some 0 := by
  have hrun2 : insertUsersOfOp exampleAccept 5 { numStages := 2, entries := [] } (.op 10) 0
      = .ok ({ numStages := 2, entries := [(.op 11, 0), (.op 12, 0), (.terminator, 0)] },
             true) := by rfl
  have hr : ReachedUnscheduled exampleAccept { numStages := 2, entries := [] } (.op 10)
      .terminator :=
    ReachedUnscheduled.step
      (ReachedUnscheduled.user (k := .op 12) (by decide) (by rfl)) (by decide) (by rfl)
  obtain ⟨s', changed, hrun, hreach, _, _⟩ :=
    (C17_insertUsersOfOp exampleAccept { numStages := 2, entries := [] } (.op 10) 0 5
      ⟨List.nodup_nil, fun e he => (by cases he)⟩ (by decide)).1
  rw [hrun2] at hrun
  simp only [Except.ok.injEq, Prod.mk.injEq] at hrun
  have h := hreach _ hr
  rw [← hrun.1] at h
  exact ⟨hrun2, hr, h⟩

/-! ## Assertions the rewrite can reach -/

/-- Claim C18 (the chain-index assertion can fail): in the loop
`exampleSelectBeforeAlloc` the chain is not divergent and `trackAccChain`
returns the carried slot 0, but the input of the storage is the result of the
select 9, not a block argument, so the cast to `BlockArgument` in front of the
assertion `yieldArgNo == accInitArgNo` fails and the driver stops there. -/
theorem C18_chain_index_assertion_fails :
    getTMemAllocAndLoad exampleSelectBeforeAlloc 11 =
      some ({ id := 10, kind := .tmemAlloc, operands := [.opResult 9 0], shape := [128, 128] },
            { id := 12, kind := .tmemLoad, operands := [.opResult 10 0] }) ∧
    trackAccChain exampleSelectBeforeAlloc
        { id := 12, kind := .tmemLoad, operands := [.opResult 10 0] }
        { id := 10, kind := .tmemAlloc, operands := [.opResult 9 0], shape := [128, 128] } 10
      = .ok (some 0, false) ∧
    (Value.opResult 9 0).isBlockArgument = false ∧
    chainIndexOk
        { id := 10, kind := .tmemAlloc, operands := [.opResult 9 0], shape := [128, 128] }
        (some 0) = false ∧
    processMMA exampleEnv 2 10 exampleSelectBeforeAlloc 11 = .error .chainIndexMismatch := by
  refine ⟨by rfl, by rfl, by rfl, by rfl, by rfl⟩

/-- Claim C19 (the old load is erased while it has a user): the MMA of the loop
`exampleSelectReset` passes every eligibility check (chain closed on slot 0 and
not divergent, override point at distance 1, no direct consumer, so the rewrite
is single-buffered and `updateAccDefsInLoop` does not run). Right before
`hoistAndUseTMemAlloc` erases the old load, the terminator operand of slot 0 is
short-circuited to the initial value, but the select 13 still reads the load:
erasing the load fails, and with it the rewrite. -/
theorem C19_load_erased_with_user :
    trackAccChain exampleSelectReset exampleSelectResetInfo.accLoad
        exampleSelectResetInfo.accAlloc 10 = .ok (some 0, false) ∧
    chainIndexOk exampleSelectResetInfo.accAlloc (some 0) = true ∧
    getAccOverrideOrFlagFalseInLoop exampleSelectReset 11
      = .ok (exampleSelectReset, exampleSelectResetInfo.accDef) ∧
    getDirectAccUses exampleSelectReset exampleSelectResetInfo.accLoad = [] ∧
    exampleSelectResetBeforeErase.yieldOperands.head? = some (.opResult 2 0) ∧
    exampleSelectResetBeforeErase.usesOf (.opResult 12 0) =
      [⟨.op { id := 13, kind := .select,
              operands := [.foreignArg 0 2, .opResult 2 0, .opResult 12 0] }, 2⟩] ∧
    exampleSelectResetBeforeErase.eraseOp 12 = .error .eraseWithUses ∧
    hoistAndUseTMemAlloc exampleSelectResetSignature 11 exampleSelectResetInfo 2
      = .error .eraseWithUses ∧
    processMMA exampleEnv 2 10 exampleSelectReset 11 = .error .eraseWithUses := by
  refine ⟨by rfl, by rfl, by rfl, by rfl, by rfl, by rfl, by rfl, by rfl, by rfl⟩

/-! ## The barrier ring of an MMA inside an `scf.if` -/

/-- Claim C1 (the barrier ring does not advance for an MMA inside an `scf.if`):
the MMA of `exampleNestedMMA` is collected and rewritten with pipeline depth 2.
The wait 64 and the selects 67 and 69 that compute the new barrier index and
phase are created inside the `scf.if`, so they do not dominate the loop
terminator, and `replaceAllUsesDominatedBy` leaves the terminator operands of
the phase slot 0 and the barrier-index slot 1 as the block arguments of these
slots. Both carried values are the initial zero at every iteration, while the
emitted operations compute the new index 1 from (0, 0) and the claim has the
barrier index 1 at iteration 1. For the MMA of `exampleAccept`, which lies in
the block of the loop body, the terminator does get the two selects. -/
theorem C1_nested_mma_barrier_never_advances :
    collectMMAs exampleNestedMMA = [11] ∧
    processMMA exampleEnv 2 10 exampleNestedMMA 11 = .ok (exampleNestedMMARewritten, true) ∧
    exampleNestedMMARewritten.initArgs
      = [.opResult 30 0, .opResult 30 0, .opResult 30 0, .opResult 30 0] ∧
    exampleNestedMMARewritten.constantValue? (.opResult 30 0) = some 0 ∧
    exampleNestedMMARewritten.yieldOperands
      = [.loopArg 1, .loopArg 2, .opResult 47 0, .opResult 52 0] ∧
    (∃ o ∈ exampleNestedMMARewritten.body, o.id = 63 ∧ o.kind = .memDescSubview ∧
      o.operands = [.opResult 56 0, .loopArg 2] ∧ o.parent = some (9, 0)) ∧
    (∃ o ∈ exampleNestedMMARewritten.body, o.id = 64 ∧ o.kind = .waitBarrier ∧
      o.operands = [.opResult 63 0, .loopArg 1] ∧ o.parent = some (9, 0)) ∧
    (∃ o ∈ exampleNestedMMARewritten.body, o.id = 67 ∧ o.kind = .select ∧
      o.operands = [.opResult 66 0, .opResult 53 0, .opResult 65 0] ∧
      o.parent = some (9, 0)) ∧
    (∃ o ∈ exampleNestedMMARewritten.body, o.id = 69 ∧ o.kind = .select ∧
      o.operands = [.opResult 66 0, .opResult 68 0, .loopArg 1] ∧
      o.parent = some (9, 0)) ∧
    properlyDominates exampleNestedMMARewritten 67 .terminator = false ∧
    (∀ k, carriedValue exampleNestedMMARewritten 0 k = some 0 ∧
          carriedValue exampleNestedMMARewritten 1 k = some 0) ∧
    (createBarrierAndWaitOpsSem 2 0 0).newBarrierIdx = 1 ∧
    carriedValue exampleNestedMMARewritten 1 1 ≠ some ((1 % 2 : Nat) : Int) ∧
    exampleAcceptRewritten.yieldOperands
      = [.opResult 2 0, .opResult 56 0, .opResult 54 0, .loopArg 4, .loopArg 5] := by
  have hc : ∀ k, carriedValue exampleNestedMMARewritten 0 k = some 0 ∧
      carriedValue exampleNestedMMARewritten 1 k = some 0 := fun k =>
    ⟨carriedValue_unchanged (v := .opResult 30 0) (by rfl) (by rfl) (by rfl) k,
     carriedValue_unchanged (v := .opResult 30 0) (by rfl) (by rfl) (by rfl) k⟩
  refine ⟨by rfl, by rfl, by rfl, by rfl, by rfl, by decide, by decide, by decide, by decide,
    by rfl, hc, by rfl, ?_, by rfl⟩
  rw [(hc 1).2]
  decide

end TC05MMA
